import Mathlib

/-!
# Pixel transforms of `image_processor.cpp`

A shallow embedding of the colour filters and geometric transforms of
`media/src/main/cpp/image_processor.cpp`, and the properties proved about them.

Modelling conventions.

* A pixel buffer is a map from byte offsets (relative to the pointer handed to
  the function) to bytes.  A `uint32_t` access at byte offset `o` reads or
  writes the four bytes `o .. o+3`, least significant byte first (every Android
  ABI is little-endian).
* `row = pixelData + y * stride` followed by `row[x]` is the word at byte
  offset `y * stride + 4 * x`.  Offsets and loop counters are mathematical
  integers: an image whose byte size fits an `int` never overflows them.
* `for (int i = 0; i < n; i++)` is `forLoop n`; it runs `n` times for
  positive `n` and not at all otherwise.
* Source and destination of the out-of-place operations are two separate
  buffers (two values of type `Mem`), as `memcpy` and the header require.
* A buffer that is written as a pixel grid satisfies the invariant of its
  descriptor, `stride ≥ 4 * width`: its rows do not overlap.  The theorems
  state it as a hypothesis; the stride of a buffer that is only read is free.
* `double` and `float` arithmetic is IEEE 754 binary64 / binary32 with
  round-to-nearest-even, every operation rounded once (no fused
  multiply-add).  A finite value is an exact fraction; `none` stands for an
  infinity or a NaN.  Converting a value that does not fit the target integer
  type is undefined in C++; the model takes the result of such a conversion
  from a parameter `undef`, so every theorem holds whatever the hardware
  returns there.
-/

namespace ImageProcessor

/-! ## Pixel memory -/

/-- One byte of a pixel buffer. -/
abbrev Byte := Fin 256

/-- The bytes of one pixel buffer, by byte offset from its base pointer. -/
abbrev Mem := Int → Byte

/-- The low eight bits of a number, as a byte. -/
def toByte (n : Nat) : Byte := ⟨n % 256, Nat.mod_lt n (by decide)⟩

/-- Load of a `uint32_t` at byte offset `off` (little-endian). -/
def readWord (m : Mem) (off : Int) : Nat :=
  (m off).val + 256 * (m (off + 1)).val + 65536 * (m (off + 2)).val
    + 16777216 * (m (off + 3)).val

/-- Store of the `uint32_t` value `w` at byte offset `off` (little-endian). -/
def writeWord (m : Mem) (off : Int) (w : Nat) : Mem := fun i =>
  if i = off then toByte w
  else if i = off + 1 then toByte (w / 256)
  else if i = off + 2 then toByte (w / 65536)
  else if i = off + 3 then toByte (w / 16777216)
  else m i

/-- The pixel in column `x` of row `y` of a buffer with row stride `stride`:
`reinterpret_cast<uint32_t*>(base + y * stride)[x]`. -/
def pixelAt (m : Mem) (stride x y : Int) : Nat := readWord m (y * stride + 4 * x)

/-- The loop `for (int i = 0; i < n; i++) s = body(i, s);`. -/
def forLoop {σ : Type} (n : Int) (body : Int → σ → σ) (s : σ) : σ :=
  (List.range n.toNat).foldl (fun acc i => body (i : Int) acc) s

/-- The exchange `std::swap(p[..], q[..])` of the words at byte offsets `p`
and `q`: `tmp = *p; *p = *q; *q = tmp`. -/
def swapWords (m : Mem) (p q : Int) : Mem :=
  let tmp := readWord m p
  writeWord (writeWord m p (readWord m q)) q tmp

/-- The call `memcpy(dst + dOff, src + sOff, n)` between two separate buffers. -/
def memcpy (dst : Mem) (dOff : Int) (src : Mem) (sOff : Int) (n : Nat) : Mem := fun i =>
  if dOff ≤ i ∧ i < dOff + n then src (sOff + (i - dOff)) else dst i

/-! ## Machine integers -/

/-- Conversion of an `int` to `uint8_t`. -/
def toU8 (i : Int) : Nat := (i % 256).toNat

/-- The result of 32-bit `int` arithmetic, wrapped to two's complement. -/
def wrapInt (i : Int) : Int := (i + 2147483648) % 4294967296 - 2147483648

/-- Conversion of an `int` byte count to `size_t` (64-bit). -/
def toSizeT (i : Int) : Nat := (i % 18446744073709551616).toNat

/-! ## Floating point -/

/-- A finite floating-point value, as the exact fraction `num / den`. -/
structure Frac where
  num : Int
  den : Nat
deriving DecidableEq

/-- A floating-point value: a finite fraction, or `none` for an infinity or a NaN. -/
abbrev FloatVal := Option Frac

/-- An IEEE 754 binary format: the precision in bits, the exponent of the
least positive (subnormal) value, and the exponent `emax` such that finite
values have magnitude below `2 ^ emax`. -/
structure FloatFormat where
  prec : Nat
  emin : Int
  emax : Nat

/-- The format of `double`. -/
def binary64 : FloatFormat := ⟨53, -1074, 1024⟩

/-- The format of `float`. -/
def binary32 : FloatFormat := ⟨24, -149, 128⟩

/-- One step of the binary search for the highest set bit: `k` bits are
stripped when the number has more than `k` bits. -/
def stage (k : Nat) (next : Nat → Nat → Nat) (n acc : Nat) : Nat :=
  bif Nat.ble (2 ^ k) n then next (n / 2 ^ k) (acc + k) else next n acc

/-- The position of the highest set bit of a number below `2 ^ 128`. -/
def ilog2small (n : Nat) : Nat :=
  stage 64 (stage 32 (stage 16 (stage 8 (stage 4 (stage 2 (stage 1 (fun _ acc => acc))))))) n 0

/-- The function `ilog2` with explicit fuel; it strips 128 bits a step. -/
def log2Fuel : Nat → Nat → Nat
  | 0, _ => 0
  | fuel + 1, n =>
    bif Nat.ble (2 ^ 128) n then log2Fuel fuel (n / 2 ^ 128) + 128 else ilog2small n

/-- The position of the highest set bit: `2 ^ ilog2 n ≤ n < 2 ^ (ilog2 n + 1)` for `n > 0`. -/
def ilog2 (n : Nat) : Nat :=
  bif Nat.ble (2 ^ 128) n then log2Fuel n n else ilog2small n

/-- Evaluation-order helper: `forceNat n k` is `k n`, with `n` evaluated first. -/
def forceNat {α : Type} (n : Nat) (k : Nat → α) : α :=
  match n with
  | 0 => k 0
  | m + 1 => k (m + 1)

/-- Evaluation-order helper: `forceInt i k` is `k i`, with `i` evaluated first. -/
def forceInt {α : Type} (i : Int) (k : Int → α) : α :=
  match i with
  | Int.ofNat n => forceNat n fun n => k (Int.ofNat n)
  | Int.negSucc n => forceNat n fun n => k (Int.negSucc n)

/-- The exponent `k` with `2 ^ k ≤ a / d < 2 ^ (k + 1)`, for positive `a` and `d`. -/
def floorLog2 (a d : Nat) : Int :=
  forceInt ((ilog2 a : Int) - (ilog2 d : Int)) fun k =>
  if d * 2 ^ k.toNat ≤ a * 2 ^ (-k).toNat then k else k - 1

/-- The integer nearest to `a / d`, a tie going to the even one. -/
def roundHalfEven (a d : Nat) : Nat :=
  let q := a / d
  let r := a % d
  if 2 * r < d then q
  else if d < 2 * r then q + 1
  else if q % 2 = 0 then q else q + 1

/-- Rounding of an exact value to the nearest value of the format `F` (ties to
even): the mantissa is rounded at the exponent `e` of the last place, which is
never below `F.emin` (gradual underflow); a result of magnitude `2 ^ F.emax` or
more is infinite. -/
def roundTo (F : FloatFormat) (x : Frac) : FloatVal :=
  forceInt x.num fun num =>
  forceNat x.den fun den =>
  if num = 0 then some ⟨0, 1⟩
  else
    forceNat num.natAbs fun a =>
    forceInt (max (floorLog2 a den - ((F.prec : Int) - 1)) F.emin) fun e =>
    forceNat (roundHalfEven (a * 2 ^ (-e).toNat) (den * 2 ^ e.toNat)) fun mant =>
    if 2 ^ F.emax * 2 ^ (-e).toNat ≤ mant * 2 ^ e.toNat then none
    else some ⟨num.sign * (mant * 2 ^ e.toNat : Nat), 2 ^ (-e).toNat⟩

/-- Floating-point multiplication in the format `F`. -/
def fmul (F : FloatFormat) (x y : FloatVal) : FloatVal :=
  match x, y with
  | some p, some q => roundTo F ⟨p.num * q.num, p.den * q.den⟩
  | _, _ => none

/-- Floating-point addition in the format `F`. -/
def fadd (F : FloatFormat) (x y : FloatVal) : FloatVal :=
  match x, y with
  | some p, some q => roundTo F ⟨p.num * q.den + q.num * p.den, p.den * q.den⟩
  | _, _ => none

/-- Conversion of an integer to the format `F`. -/
def ofInt (F : FloatFormat) (i : Int) : FloatVal := roundTo F ⟨i, 1⟩

/-- The value of the decimal literal `n / d` in the format `F`. -/
def lit (F : FloatFormat) (n : Int) (d : Nat) : FloatVal := roundTo F ⟨n, d⟩

/-- Truncation of a finite value toward zero. -/
def truncate (q : Frac) : Int := Int.tdiv q.num (q.den : Int)

/-- The conversion `static_cast<int>(x)`: truncation toward zero when the
result fits an `int`, and `undef x` otherwise. -/
def toInt (undef : FloatVal → Int) (x : FloatVal) : Int :=
  match x with
  | some q =>
    if -2147483648 ≤ truncate q ∧ truncate q ≤ 2147483647 then truncate q else undef x
  | none => undef x

/-- The conversion `static_cast<uint8_t>(x)`: truncation toward zero when the
result fits a `uint8_t`, and the low byte of `undef x` otherwise. -/
def toUInt8 (undef : FloatVal → Int) (x : FloatVal) : Nat :=
  match x with
  | some q =>
    if 0 ≤ truncate q ∧ truncate q ≤ 255 then (truncate q).toNat else toU8 (undef x)
  | none => toU8 (undef x)

/-! ## The pixel codec and the clamp helper -/

/-- The helper `clamp`: `static_cast<uint8_t>(std::max(0, std::min(255, value)))`. -/
def clamp (value : Int) : Nat := toU8 (max 0 (min 255 value))

/-- The helper `getARGB`: the channels `(a, r, g, b)` of a packed pixel. -/
def getARGB (pixel : Nat) : Nat × Nat × Nat × Nat :=
  ((pixel >>> 24) &&& 0xFF, (pixel >>> 16) &&& 0xFF, (pixel >>> 8) &&& 0xFF, pixel &&& 0xFF)

/-- The helper `makeARGB`: the packed pixel of four `uint8_t` channels; the
shifts are `uint32_t` shifts. -/
def makeARGB (a r g b : Nat) : Nat :=
  ((a <<< 24) % 4294967296) ||| ((r <<< 16) % 4294967296) ||| ((g <<< 8) % 4294967296) ||| b

/-! ## Colour filters -/

/-- The `double` expression `0.299 * r + 0.587 * g + 0.114 * b` of `applyGrayscale`;
`r`, `g`, `b` are `uint8_t` values converted to `double`. -/
def grayFloat (r g b : Nat) : FloatVal :=
  fadd binary64
    (fadd binary64
      (fmul binary64 (lit binary64 299 1000) (ofInt binary64 r))
      (fmul binary64 (lit binary64 587 1000) (ofInt binary64 g)))
    (fmul binary64 (lit binary64 114 1000) (ofInt binary64 b))

/-- The value `static_cast<uint8_t>(0.299 * r + 0.587 * g + 0.114 * b)` of `applyGrayscale`. -/
def grayValue (undef : FloatVal → Int) (r g b : Nat) : Nat :=
  toUInt8 undef (grayFloat r g b)

/-- The loop body of `applyGrayscale` on one packed pixel. -/
def grayscalePixel (undef : FloatVal → Int) (pixel : Nat) : Nat :=
  let (a, r, g, b) := getARGB pixel
  let gray := grayValue undef r g b
  makeARGB a gray gray gray

/-- The function `applyGrayscale(pixels, width, height, stride)`. -/
def applyGrayscale (undef : FloatVal → Int) (pixels : Mem) (width height stride : Int) : Mem :=
  forLoop height (fun y m =>
    let row := y * stride
    forLoop width (fun x m =>
      writeWord m (row + 4 * x) (grayscalePixel undef (readWord m (row + 4 * x)))) m) pixels

/-- The `double` expression `cr * r + cg * g + cb * b` of `applySepia`, the
coefficients being the decimal literals `cr / 1000`, `cg / 1000`, `cb / 1000`. -/
def sepiaFloat (cr cg cb : Int) (r g b : Nat) : FloatVal :=
  fadd binary64
    (fadd binary64
      (fmul binary64 (lit binary64 cr 1000) (ofInt binary64 r))
      (fmul binary64 (lit binary64 cg 1000) (ofInt binary64 g)))
    (fmul binary64 (lit binary64 cb 1000) (ofInt binary64 b))

/-- The value `static_cast<int>(cr * r + cg * g + cb * b)` of `applySepia`. -/
def sepiaValue (undef : FloatVal → Int) (cr cg cb : Int) (r g b : Nat) : Int :=
  toInt undef (sepiaFloat cr cg cb r g b)

/-- The loop body of `applySepia` on one packed pixel. -/
def sepiaPixel (undef : FloatVal → Int) (pixel : Nat) : Nat :=
  let (a, r, g, b) := getARGB pixel
  let newR := sepiaValue undef 393 769 189 r g b
  let newG := sepiaValue undef 349 686 168 r g b
  let newB := sepiaValue undef 272 534 131 r g b
  makeARGB a (clamp newR) (clamp newG) (clamp newB)

/-- The function `applySepia(pixels, width, height, stride)`. -/
def applySepia (undef : FloatVal → Int) (pixels : Mem) (width height stride : Int) : Mem :=
  forLoop height (fun y m =>
    let row := y * stride
    forLoop width (fun x m =>
      writeWord m (row + 4 * x) (sepiaPixel undef (readWord m (row + 4 * x)))) m) pixels

/-- The loop body of `applyInvert` on one packed pixel; `255 - r` is an `int`
converted to the `uint8_t` parameter of `makeARGB`. -/
def invertPixel (pixel : Nat) : Nat :=
  let (a, r, g, b) := getARGB pixel
  makeARGB a (toU8 (255 - (r : Int))) (toU8 (255 - (g : Int))) (toU8 (255 - (b : Int)))

/-- The function `applyInvert(pixels, width, height, stride)`. -/
def applyInvert (pixels : Mem) (width height stride : Int) : Mem :=
  forLoop height (fun y m =>
    let row := y * stride
    forLoop width (fun x m =>
      writeWord m (row + 4 * x) (invertPixel (readWord m (row + 4 * x)))) m) pixels

/-- The loop body of `adjustBrightness` on one packed pixel; `r + factor` is
32-bit `int` addition. -/
def brightnessPixel (factor : Int) (pixel : Nat) : Nat :=
  let (a, r, g, b) := getARGB pixel
  makeARGB a (clamp (wrapInt ((r : Int) + factor))) (clamp (wrapInt ((g : Int) + factor)))
    (clamp (wrapInt ((b : Int) + factor)))

/-- The function `adjustBrightness(pixels, width, height, stride, factor)`. -/
def adjustBrightness (pixels : Mem) (width height stride : Int) (factor : Int) : Mem :=
  forLoop height (fun y m =>
    let row := y * stride
    forLoop width (fun x m =>
      writeWord m (row + 4 * x) (brightnessPixel factor (readWord m (row + 4 * x)))) m) pixels

/-- The `float` expression `(c - 128) * factor + 128` of `adjustContrast`:
`c - 128` and `128` are `int`s converted to `float`, the product and the sum
are `float` operations. -/
def contrastFloat (factor : FloatVal) (c : Nat) : FloatVal :=
  fadd binary32 (fmul binary32 (ofInt binary32 ((c : Int) - 128)) factor) (ofInt binary32 128)

/-- The value `static_cast<int>((c - 128) * factor + 128)` of `adjustContrast`. -/
def contrastValue (undef : FloatVal → Int) (factor : FloatVal) (c : Nat) : Int :=
  toInt undef (contrastFloat factor c)

/-- The loop body of `adjustContrast` on one packed pixel. -/
def contrastPixel (undef : FloatVal → Int) (factor : FloatVal) (pixel : Nat) : Nat :=
  let (a, r, g, b) := getARGB pixel
  let newR := contrastValue undef factor r
  let newG := contrastValue undef factor g
  let newB := contrastValue undef factor b
  makeARGB a (clamp newR) (clamp newG) (clamp newB)

/-- The function `adjustContrast(pixels, width, height, stride, factor)`. -/
def adjustContrast (undef : FloatVal → Int) (pixels : Mem) (width height stride : Int)
    (factor : FloatVal) : Mem :=
  forLoop height (fun y m =>
    let row := y * stride
    forLoop width (fun x m =>
      writeWord m (row + 4 * x) (contrastPixel undef factor (readWord m (row + 4 * x)))) m) pixels

/-! ## Geometric transforms -/

/-- The function `rotate90CW(srcPixels, dstPixels, width, height, srcStride, dstStride)`;
the result is the destination buffer after the call. -/
def rotate90CW (srcPixels dstPixels : Mem) (width height srcStride dstStride : Int) : Mem :=
  forLoop height (fun y dst =>
    let srcRow := y * srcStride
    forLoop width (fun x dst =>
      let newX := height - 1 - y
      let newY := x
      let dstRow := newY * dstStride
      writeWord dst (dstRow + 4 * newX) (readWord srcPixels (srcRow + 4 * x))) dst) dstPixels

/-- The function `rotate90CCW(srcPixels, dstPixels, width, height, srcStride, dstStride)`;
the result is the destination buffer after the call. -/
def rotate90CCW (srcPixels dstPixels : Mem) (width height srcStride dstStride : Int) : Mem :=
  forLoop height (fun y dst =>
    let srcRow := y * srcStride
    forLoop width (fun x dst =>
      let newX := y
      let newY := width - 1 - x
      let dstRow := newY * dstStride
      writeWord dst (dstRow + 4 * newX) (readWord srcPixels (srcRow + 4 * x))) dst) dstPixels

/-- The first loop nest of `rotate180`: rows `y < height / 2` are exchanged,
reversed, with rows `height - 1 - y`. -/
def rotate180Rows (pixels : Mem) (width height stride : Int) : Mem :=
  forLoop (Int.tdiv height 2) (fun y m =>
    let topRow := y * stride
    let bottomRow := (height - 1 - y) * stride
    forLoop width (fun x m =>
      swapWords m (topRow + 4 * x) (bottomRow + 4 * (width - 1 - x))) m) pixels

/-- The function `rotate180(pixels, width, height, stride)`; `/` and `%` are
the truncating division and remainder of C++. -/
def rotate180 (pixels : Mem) (width height stride : Int) : Mem :=
  let m := rotate180Rows pixels width height stride
  if Int.tmod height 2 = 1 then
    let midY := Int.tdiv height 2
    let midRow := midY * stride
    forLoop (Int.tdiv width 2) (fun x m =>
      swapWords m (midRow + 4 * x) (midRow + 4 * (width - 1 - x))) m
  else m

/-- The function `cropBitmap(srcPixels, dstPixels, srcWidth, srcHeight, srcStride,
dstStride, cropX, cropY, cropWidth, cropHeight)`; the result is the pair of the
source and the destination buffer after the call. -/
def cropBitmap (srcPixels dstPixels : Mem) (srcWidth srcHeight srcStride dstStride : Int)
    (cropX cropY cropWidth cropHeight : Int) : Mem × Mem :=
  forLoop cropHeight (fun y (bufs : Mem × Mem) =>
    let srcRow := (cropY + y) * srcStride
    let dstRow := y * dstStride
    (bufs.1, memcpy bufs.2 dstRow bufs.1 (srcRow + 4 * cropX) (toSizeT (cropWidth * 4))))
    (srcPixels, dstPixels)

/-! ## Definitions used to state and prove the properties -/

/-- Byte `j` (0 the least significant) of a word. -/
def wordByte (w : Nat) (j : Int) : Byte := toByte (w / 256 ^ j.toNat)

/-- The common shape of the five colour filters: every pixel of the grid is
replaced by its image under `f`, row by row. -/
def mapPixels (f : Nat → Nat) (pixels : Mem) (width height stride : Int) : Mem :=
  forLoop height (fun y m =>
    let row := y * stride
    forLoop width (fun x m =>
      writeWord m (row + 4 * x) (f (readWord m (row + 4 * x)))) m) pixels

/-- The common shape of the two quarter turns: the source pixel in column `x`
of row `y` is written to column `newX x y` of row `newY x y` of the destination. -/
def remapPixels (newX newY : Int → Int → Int) (srcPixels dstPixels : Mem)
    (width height srcStride dstStride : Int) : Mem :=
  forLoop height (fun y dst =>
    forLoop width (fun x dst =>
      writeWord dst (newY x y * dstStride + 4 * newX x y)
        (readWord srcPixels (y * srcStride + 4 * x))) dst) dstPixels

/-- The state of an in-place pass with its access record: the buffer, the byte
offsets of the words written so far, and whether every word read so far was
read before any write of the pass touched it. -/
structure Traced where
  mem : Mem
  written : List Int
  fresh : Bool

/-- The exchange `swapWords` with its access record: the words at `p` and `q`
are read, then written; the reads are fresh when neither word overlaps a word
written earlier in the pass. -/
def swapWordsTraced (t : Traced) (p q : Int) : Traced :=
  { mem := swapWords t.mem p q
    written := q :: p :: t.written
    fresh := t.fresh && t.written.all (fun a =>
      decide ((a + 4 ≤ p ∨ p + 4 ≤ a) ∧ (a + 4 ≤ q ∨ q + 4 ≤ a))) }

/-- The function `rotate180` with the access record of its pass. -/
def rotate180Traced (pixels : Mem) (width height stride : Int) : Traced :=
  let t := forLoop (Int.tdiv height 2) (fun y t =>
    let topRow := y * stride
    let bottomRow := (height - 1 - y) * stride
    forLoop width (fun x t =>
      swapWordsTraced t (topRow + 4 * x) (bottomRow + 4 * (width - 1 - x))) t)
    { mem := pixels, written := [], fresh := true }
  if Int.tmod height 2 = 1 then
    let midY := Int.tdiv height 2
    let midRow := midY * stride
    forLoop (Int.tdiv width 2) (fun x t =>
      swapWordsTraced t (midRow + 4 * x) (midRow + 4 * (width - 1 - x))) t
  else t

/-- A sample buffer: the byte at offset `i` is `37 * i + 11` modulo 256. -/
def sampleMem : Mem := fun i => toByte (i.toNat * 37 + 11)

/-- A one-pixel image whose pixel has alpha 0, red 2, green 1 and blue 0. -/
def darkPixelMem : Mem := fun i => if i = 1 then 1 else if i = 2 then 2 else 0

/-- A one-pixel image whose pixel is opaque with red, green and blue all 4. -/
def dimPixelMem : Mem := fun i => if i = 3 then 255 else if 0 ≤ i ∧ i < 3 then 4 else 0

/-- A buffer of zero bytes. -/
def zeroMem : Mem := fun _ => 0

/-- An out-of-range conversion that yields zero. -/
def undefZero : FloatVal → Int := fun _ => 0

/-- The byte offset `i` lies in the pixel grid of a `width` by `height` image
with row stride `stride`. -/
def InGrid (width height stride : Int) (i : Int) : Prop :=
  ∃ y, 0 ≤ y ∧ y < height ∧ y * stride ≤ i ∧ i < y * stride + 4 * width

/-- An in-place operation on a `w` by `h` grid with stride `s` that is local to
the grid: it changes no byte outside the grid, and the bytes it leaves in the
grid depend on the bytes of the grid only (it reads nothing else). -/
def InPlaceLocal (w h s : Int) (op : Mem → Mem) : Prop :=
  (∀ (m : Mem) (i : Int), ¬ InGrid w h s i → op m i = m i) ∧
  (∀ m m' : Mem, (∀ i : Int, InGrid w h s i → m' i = m i) →
    ∀ i : Int, InGrid w h s i → op m' i = op m i)

/-- An out-of-place operation from a `w` by `h` source grid with stride `sS` to
a `W` by `H` destination grid with stride `dS` that is local to the grids: it
changes no destination byte outside the destination grid, and the destination
it leaves depends on the source through the bytes of the source grid only. -/
def OutOfPlaceLocal (w h sS W H dS : Int) (op : Mem → Mem → Mem) : Prop :=
  (∀ (src dst : Mem) (i : Int), ¬ InGrid W H dS i → op src dst i = dst i) ∧
  (∀ src src' dst : Mem, (∀ i : Int, InGrid w h sS i → src' i = src i) →
    op src' dst = op src dst)

/-- The rational value of a fraction. -/
def Frac.val (q : Frac) : ℚ := (q.num : ℚ) / (q.den : ℚ)

/-- The float `x` is finite and non-negative, and its value is within `ε` of `v`. -/
def Approx (x : FloatVal) (v ε : ℚ) : Prop :=
  ∃ q : Frac, x = some q ∧ 0 ≤ q.num ∧ 0 < q.den ∧ v - ε ≤ q.val ∧ q.val ≤ v + ε

/-! ## Loops -/

theorem forLoop_of_nonpos {σ : Type} (n : Int) (body : Int → σ → σ) (s : σ) (h : n ≤ 0) :
    forLoop n body s = s := by
  have : n.toNat = 0 := by omega
  simp [forLoop, this]

theorem forLoop_succ {σ : Type} (k : Nat) (body : Int → σ → σ) (s : σ) :
    forLoop ((k : Int) + 1) body s = body (k : Int) (forLoop (k : Int) body s) := by
  have h1 : ((k : Int) + 1).toNat = k + 1 := by omega
  have h2 : (k : Int).toNat = k := by omega
  simp [forLoop, h1, h2, List.range_succ, List.foldl_append]

/-- The invariant rule for counted loops: an invariant that holds before the
loop and is kept by every iteration `k < n` holds after the loop, with the
counter at `max n 0`. -/
theorem forLoop_inv {σ : Type} (P : Int → σ → Prop) (n : Int) (body : Int → σ → σ) (s : σ)
    (h0 : P 0 s) (hstep : ∀ (k : Int) (t : σ), 0 ≤ k → k < n → P k t → P (k + 1) (body k t)) :
    P (max n 0) (forLoop n body s) := by
  rcases le_or_lt n 0 with hn | hn
  · rw [forLoop_of_nonpos n body s hn, max_eq_right hn]; exact h0
  · have key : ∀ j : Nat, (j : Int) ≤ n → P (j : Int) (forLoop (j : Int) body s) := by
      intro j
      induction j with
      | zero => intro _; simpa [forLoop] using h0
      | succ j ih =>
        intro hj
        have hj1 : ((j + 1 : Nat) : Int) = (j : Int) + 1 := by push_cast; rfl
        rw [hj1, forLoop_succ]
        exact hstep j _ (by omega) (by omega) (ih (by omega))
    have hcast : ((n.toNat : Nat) : Int) = n := by omega
    have := key n.toNat (by omega)
    rw [hcast] at this
    rw [max_eq_left (le_of_lt hn)]
    exact this

theorem forLoop_succ_int {σ : Type} (k : Int) (hk : 0 ≤ k) (body : Int → σ → σ) (s : σ) :
    forLoop (k + 1) body s = body k (forLoop k body s) := by
  obtain ⟨n, rfl⟩ := Int.eq_ofNat_of_zero_le hk
  exact forLoop_succ n body s

theorem forLoop_max {σ : Type} (n : Int) (body : Int → σ → σ) (s : σ) :
    forLoop (max n 0) body s = forLoop n body s := by
  rcases le_or_lt n 0 with h | h
  · rw [max_eq_right h, forLoop_of_nonpos n body s h, forLoop_of_nonpos 0 body s le_rfl]
  · rw [max_eq_left (le_of_lt h)]

/-! ## Words and bytes -/

theorem toByte_val (n : Nat) : (toByte n).val = n % 256 := rfl

theorem wordByte_zero (w : Nat) : wordByte w 0 = toByte w := by
  simp [wordByte]

theorem wordByte_one (w : Nat) : wordByte w 1 = toByte (w / 256) := by
  simp [wordByte]

theorem wordByte_two (w : Nat) : wordByte w 2 = toByte (w / 65536) := by
  have : (2 : Int).toNat = 2 := rfl
  simp [wordByte, this]

theorem wordByte_three (w : Nat) : wordByte w 3 = toByte (w / 16777216) := by
  have : (3 : Int).toNat = 3 := rfl
  simp [wordByte, this]

theorem writeWord_outside (m : Mem) (off : Int) (w : Nat) (i : Int)
    (h : i < off ∨ off + 4 ≤ i) : writeWord m off w i = m i := by
  unfold writeWord
  rw [if_neg (by omega), if_neg (by omega), if_neg (by omega), if_neg (by omega)]

theorem writeWord_inside (m : Mem) (off : Int) (w : Nat) (j : Int) (h0 : 0 ≤ j) (h4 : j < 4) :
    writeWord m off w (off + j) = wordByte w j := by
  have hj : j = 0 ∨ j = 1 ∨ j = 2 ∨ j = 3 := by omega
  rcases hj with rfl | rfl | rfl | rfl <;>
    simp [writeWord, wordByte_zero, wordByte_one, wordByte_two, wordByte_three]

theorem readWord_congr (m1 m2 : Mem) (off : Int)
    (h : ∀ j : Int, 0 ≤ j → j < 4 → m1 (off + j) = m2 (off + j)) :
    readWord m1 off = readWord m2 off := by
  have h0 := h 0 (by omega) (by omega)
  have h1 := h 1 (by omega) (by omega)
  have h2 := h 2 (by omega) (by omega)
  have h3 := h 3 (by omega) (by omega)
  simp only [add_zero] at h0
  simp only [readWord, h0, h1, h2, h3]

theorem readWord_eq_of_bytes (m1 m2 : Mem) (o1 o2 : Int)
    (h : ∀ j : Int, 0 ≤ j → j < 4 → m1 (o1 + j) = m2 (o2 + j)) :
    readWord m1 o1 = readWord m2 o2 := by
  have h0 := h 0 (by omega) (by omega)
  have h1 := h 1 (by omega) (by omega)
  have h2 := h 2 (by omega) (by omega)
  have h3 := h 3 (by omega) (by omega)
  simp only [add_zero] at h0
  simp only [readWord, h0, h1, h2, h3]

theorem readWord_lt (m : Mem) (off : Int) : readWord m off < 4294967296 := by
  unfold readWord
  omega

theorem readWord_of_bytes (m : Mem) (off : Int) (w : Nat)
    (h : ∀ j : Int, 0 ≤ j → j < 4 → m (off + j) = wordByte w j) :
    readWord m off = w % 4294967296 := by
  have h0 := h 0 (by omega) (by omega)
  have h1 := h 1 (by omega) (by omega)
  have h2 := h 2 (by omega) (by omega)
  have h3 := h 3 (by omega) (by omega)
  simp only [add_zero] at h0
  simp only [readWord, h0, h1, h2, h3, wordByte_zero, wordByte_one, wordByte_two,
    wordByte_three, toByte_val]
  omega

theorem wordByte_readWord (m : Mem) (off : Int) (j : Int) (h0 : 0 ≤ j) (h4 : j < 4) :
    wordByte (readWord m off) j = m (off + j) := by
  have hj : j = 0 ∨ j = 1 ∨ j = 2 ∨ j = 3 := by omega
  apply Fin.ext
  rcases hj with rfl | rfl | rfl | rfl <;>
    (simp only [wordByte_zero, wordByte_one, wordByte_two, wordByte_three, toByte_val,
      readWord, add_zero]; omega)

theorem readWord_writeWord_same (m : Mem) (off : Int) (w : Nat) :
    readWord (writeWord m off w) off = w % 4294967296 :=
  readWord_of_bytes _ _ _ (fun j h0 h4 => writeWord_inside m off w j h0 h4)

theorem readWord_writeWord_apart (m : Mem) (off : Int) (w : Nat) (p : Int)
    (h : p + 4 ≤ off ∨ off + 4 ≤ p) : readWord (writeWord m off w) p = readWord m p :=
  readWord_congr _ _ _ (fun j _ _ => writeWord_outside m off w (p + j) (by omega))

/-! ## The colour filters as a pixelwise map -/

theorem row_le (s y k : Int) (hs : 0 ≤ s) (h : y + 1 ≤ k) : y * s + s ≤ k * s := by
  nlinarith

/-- One row of a pixelwise map: after the inner loop the first `width` words
from offset `R` hold the images of the original words, and no other byte has
changed. -/
theorem mapRow_spec (f : Nat → Nat) (R width : Int) (m0 : Mem) :
    (∀ x j : Int, 0 ≤ x → x < width → 0 ≤ j → j < 4 →
      forLoop width (fun x m => writeWord m (R + 4 * x) (f (readWord m (R + 4 * x)))) m0
        (R + 4 * x + j) = wordByte (f (readWord m0 (R + 4 * x))) j) ∧
    (∀ i : Int, i < R ∨ R + 4 * width ≤ i →
      forLoop width (fun x m => writeWord m (R + 4 * x) (f (readWord m (R + 4 * x)))) m0 i
        = m0 i) := by
  have key := forLoop_inv
    (fun (n : Int) (m : Mem) =>
      (∀ x j : Int, 0 ≤ x → x < n → 0 ≤ j → j < 4 →
        m (R + 4 * x + j) = wordByte (f (readWord m0 (R + 4 * x))) j) ∧
      (∀ i : Int, i < R ∨ R + 4 * n ≤ i → m i = m0 i))
    width (fun x m => writeWord m (R + 4 * x) (f (readWord m (R + 4 * x)))) m0
    ⟨fun x j h0 h1 => by omega, fun _ _ => rfl⟩
    (by
      intro k t hk0 _ ⟨h1, h2⟩
      have hr : readWord t (R + 4 * k) = readWord m0 (R + 4 * k) :=
        readWord_congr _ _ _ (fun j _ _ => h2 (R + 4 * k + j) (by omega))
      refine ⟨fun x j hx0 hx1 hj0 hj4 => ?_, fun i hi => ?_⟩
      · by_cases hxk : x = k
        · subst hxk
          show writeWord t (R + 4 * x) _ (R + 4 * x + j) = _
          rw [writeWord_inside _ _ _ _ hj0 hj4, hr]
        · show writeWord t (R + 4 * k) _ (R + 4 * x + j) = _
          rw [writeWord_outside _ _ _ _ (by omega)]
          exact h1 x j hx0 (by omega) hj0 hj4
      · show writeWord t (R + 4 * k) _ i = _
        rw [writeWord_outside _ _ _ _ (by omega)]
        exact h2 i (by omega))
  obtain ⟨k1, k2⟩ := key
  exact ⟨fun x j hx0 hx1 hj0 hj4 => k1 x j hx0 (by omega) hj0 hj4,
    fun i hi => k2 i (by omega)⟩

theorem inGrid_mono (width h1 h2 stride i : Int) (h : h1 ≤ h2) (hi : InGrid width h1 stride i) :
    InGrid width h2 stride i := by
  obtain ⟨y, hy0, hy1, ha, hb⟩ := hi
  exact ⟨y, hy0, by omega, ha, hb⟩

/-- A byte of the grid lies in exactly one pixel: bytes of rows below `k` stay
clear of row `k`. -/
theorem not_inGrid_row (width k stride : Int) (hs : 4 * width ≤ stride) (hw : 0 < width)
    (i : Int) (hi : k * stride ≤ i) : ¬ InGrid width k stride i := by
  rintro ⟨y, hy0, hy1, ha, hb⟩
  have := row_le stride y k (by omega) (by omega)
  omega

/-- The effect of a pixelwise map on the buffer: inside the grid every pixel is
replaced by its image under `f` (computed from the original pixel); outside
the grid nothing changes. -/
theorem mapPixels_spec (f : Nat → Nat) (m : Mem) (width height stride : Int)
    (hs : 4 * width ≤ stride) :
    (∀ x y j : Int, 0 ≤ x → x < width → 0 ≤ y → y < height → 0 ≤ j → j < 4 →
      mapPixels f m width height stride (y * stride + 4 * x + j)
        = wordByte (f (readWord m (y * stride + 4 * x))) j) ∧
    (∀ i : Int, ¬ InGrid width height stride i →
      mapPixels f m width height stride i = m i) := by
  have key := forLoop_inv
    (fun (n : Int) (t : Mem) =>
      (∀ x y j : Int, 0 ≤ x → x < width → 0 ≤ y → y < n → 0 ≤ j → j < 4 →
        t (y * stride + 4 * x + j) = wordByte (f (readWord m (y * stride + 4 * x))) j) ∧
      (∀ i : Int, ¬ InGrid width n stride i → t i = m i))
    height (fun y m =>
      forLoop width (fun x m =>
        writeWord m (y * stride + 4 * x) (f (readWord m (y * stride + 4 * x)))) m) m
    ⟨fun x y j _ _ h0 h1 => by omega, fun _ _ => rfl⟩
    (by
      intro k t hk0 _ ⟨h1, h2⟩
      obtain ⟨r1, r2⟩ := mapRow_spec f (k * stride) width t
      beta_reduce
      refine ⟨fun x y j hx0 hx1 hy0 hy1 hj0 hj4 => ?_, fun i hi => ?_⟩
      · have hw : 0 < width := by omega
        by_cases hyk : y = k
        · subst hyk
          rw [r1 x j hx0 hx1 hj0 hj4]
          congr 1
          congr 1
          exact readWord_congr _ _ _ (fun j' hj0' _ =>
            h2 _ (not_inGrid_row width y stride hs hw _ (by omega)))
        · have := row_le stride y k (by omega) (by omega)
          rw [r2 _ (by omega)]
          exact h1 x y j hx0 hx1 hy0 (by omega) hj0 hj4
      · have hrow : i < k * stride ∨ k * stride + 4 * width ≤ i := by
          by_contra hcon
          exact hi ⟨k, hk0, by omega, by omega, by omega⟩
        rw [r2 i hrow]
        exact h2 i (fun hin => hi (inGrid_mono width k (k + 1) stride i (by omega) hin)))
  obtain ⟨k1, k2⟩ := key
  refine ⟨fun x y j hx0 hx1 hy0 hy1 hj0 hj4 => k1 x y j hx0 hx1 hy0 (by omega) hj0 hj4,
    fun i hi => k2 i (fun hin => hi ?_)⟩
  obtain ⟨y, hy0, hy1, ha, hb⟩ := hin
  exact ⟨y, hy0, by omega, ha, hb⟩

/-- The word of every grid pixel after a pixelwise map. -/
theorem mapPixels_pixel (f : Nat → Nat) (m : Mem) (width height stride : Int)
    (hs : 4 * width ≤ stride) (x y : Int) (hx0 : 0 ≤ x) (hx1 : x < width) (hy0 : 0 ≤ y)
    (hy1 : y < height) :
    readWord (mapPixels f m width height stride) (y * stride + 4 * x)
      = f (readWord m (y * stride + 4 * x)) % 4294967296 :=
  readWord_of_bytes _ _ _ (fun j hj0 hj4 =>
    (mapPixels_spec f m width height stride hs).1 x y j hx0 hx1 hy0 hy1 hj0 hj4)

/-- Every byte of the grid belongs to a pixel of the grid. -/
theorem inGrid_cell (width height stride i : Int) (hi : InGrid width height stride i) :
    ∃ x y j : Int, 0 ≤ x ∧ x < width ∧ 0 ≤ y ∧ y < height ∧ 0 ≤ j ∧ j < 4 ∧
      i = y * stride + 4 * x + j := by
  obtain ⟨y, hy0, hy1, ha, hb⟩ := hi
  exact ⟨(i - y * stride) / 4, y, (i - y * stride) % 4, by omega, by omega, hy0, hy1,
    by omega, by omega, by omega⟩

/-! ## The pixel codec in arithmetic form -/

theorem and_255 (x : Nat) : x &&& 255 = x % 256 := by
  have h := Nat.and_pow_two_sub_one_eq_mod x 8
  norm_num at h
  exact h

theorem getARGB_eq (p : Nat) :
    getARGB p = (p / 16777216 % 256, p / 65536 % 256, p / 256 % 256, p % 256) := by
  simp only [getARGB, Nat.shiftRight_eq_div_pow, and_255]

theorem makeARGB_eq (a r g b : Nat) (ha : a < 256) (hr : r < 256) (hg : g < 256)
    (hb : b < 256) : makeARGB a r g b = a * 16777216 + r * 65536 + g * 256 + b := by
  have e1 : (a <<< 24) % 4294967296 = 2 ^ 24 * a := by
    rw [Nat.shiftLeft_eq]; omega
  have e2 : (r <<< 16) % 4294967296 = 2 ^ 16 * r := by
    rw [Nat.shiftLeft_eq]; omega
  have e3 : (g <<< 8) % 4294967296 = 2 ^ 8 * g := by
    rw [Nat.shiftLeft_eq]; omega
  have o1 : 2 ^ 24 * a ||| 2 ^ 16 * r = 2 ^ 16 * (2 ^ 8 * a + r) := by
    rw [← Nat.mul_add_lt_is_or (by omega) a]; omega
  have o2 : 2 ^ 16 * (2 ^ 8 * a + r) ||| 2 ^ 8 * g = 2 ^ 8 * (2 ^ 8 * (2 ^ 8 * a + r) + g) := by
    rw [← Nat.mul_add_lt_is_or (by omega) (2 ^ 8 * a + r)]; omega
  have o3 : 2 ^ 8 * (2 ^ 8 * (2 ^ 8 * a + r) + g) ||| b
      = 2 ^ 8 * (2 ^ 8 * (2 ^ 8 * a + r) + g) + b := by
    rw [← Nat.mul_add_lt_is_or (by omega) (2 ^ 8 * (2 ^ 8 * a + r) + g)]
  unfold makeARGB
  rw [e1, e2, e3, o1, o2, o3]
  omega

theorem toU8_of_byte (i : Int) (h0 : 0 ≤ i) (h1 : i ≤ 255) : (toU8 i : Int) = i := by
  unfold toU8
  omega

theorem toU8_lt (i : Int) : toU8 i < 256 := by
  unfold toU8
  omega

theorem clamp_lt (value : Int) : clamp value < 256 := toU8_lt _

/-- The alpha channel of a pixel packed from an alpha byte and three colour bytes. -/
theorem alpha_makeARGB (a r g b : Nat) (ha : a < 256) (hr : r < 256) (hg : g < 256)
    (hb : b < 256) : (getARGB (makeARGB a r g b)).1 = a := by
  rw [makeARGB_eq a r g b ha hr hg hb, getARGB_eq]
  show (a * 16777216 + r * 65536 + g * 256 + b) / 16777216 % 256 = a
  omega

theorem makeARGB_lt (a r g b : Nat) (ha : a < 256) (hr : r < 256) (hg : g < 256)
    (hb : b < 256) : makeARGB a r g b < 4294967296 := by
  rw [makeARGB_eq a r g b ha hr hg hb]
  omega

theorem invertPixel_eq (p : Nat) :
    invertPixel p = p / 16777216 % 256 * 16777216 + (255 - p / 65536 % 256) * 65536
      + (255 - p / 256 % 256) * 256 + (255 - p % 256) := by
  have h1 : toU8 (255 - ((p / 65536 % 256 : Nat) : Int)) = 255 - p / 65536 % 256 := by
    unfold toU8; omega
  have h2 : toU8 (255 - ((p / 256 % 256 : Nat) : Int)) = 255 - p / 256 % 256 := by
    unfold toU8; omega
  have h3 : toU8 (255 - ((p % 256 : Nat) : Int)) = 255 - p % 256 := by
    unfold toU8; omega
  unfold invertPixel
  rw [getARGB_eq]
  simp only [h1, h2, h3]
  rw [makeARGB_eq _ _ _ _ (by omega) (by omega) (by omega) (by omega)]

theorem invertPixel_lt (p : Nat) : invertPixel p < 4294967296 := by
  rw [invertPixel_eq]; omega

theorem invertPixel_invertPixel (p : Nat) (hp : p < 4294967296) :
    invertPixel (invertPixel p) = p := by
  rw [invertPixel_eq (invertPixel p), invertPixel_eq p]
  omega

theorem wordByte_mod (w : Nat) (j : Int) (h0 : 0 ≤ j) (h4 : j < 4) :
    wordByte (w % 4294967296) j = wordByte w j := by
  have hj : j = 0 ∨ j = 1 ∨ j = 2 ∨ j = 3 := by omega
  apply Fin.ext
  rcases hj with rfl | rfl | rfl | rfl <;>
    (simp only [wordByte_zero, wordByte_one, wordByte_two, wordByte_three, toByte_val]; omega)

/-- Two pixelwise maps in a row give back the buffer when the second undoes the
first on every 32-bit word. -/
theorem mapPixels_cancel (f g : Nat → Nat) (m : Mem) (width height stride : Int)
    (hs : 4 * width ≤ stride)
    (hfg : ∀ p : Nat, p < 4294967296 → f (g p % 4294967296) % 4294967296 = p) :
    mapPixels f (mapPixels g m width height stride) width height stride = m := by
  funext i
  by_cases hin : InGrid width height stride i
  · obtain ⟨x, y, j, hx0, hx1, hy0, hy1, hj0, hj4, rfl⟩ := inGrid_cell _ _ _ _ hin
    rw [(mapPixels_spec f _ width height stride hs).1 x y j hx0 hx1 hy0 hy1 hj0 hj4,
      mapPixels_pixel g m width height stride hs x y hx0 hx1 hy0 hy1,
      ← wordByte_mod _ j hj0 hj4, hfg _ (readWord_lt m _), wordByte_readWord m _ j hj0 hj4]
  · rw [(mapPixels_spec f _ width height stride hs).2 i hin,
      (mapPixels_spec g m width height stride hs).2 i hin]

/-- A pixelwise map that fixes every 32-bit word leaves the buffer as it was. -/
theorem mapPixels_fixed (f : Nat → Nat) (m : Mem) (width height stride : Int)
    (hs : 4 * width ≤ stride) (hf : ∀ p : Nat, p < 4294967296 → f p = p) :
    mapPixels f m width height stride = m := by
  funext i
  by_cases hin : InGrid width height stride i
  · obtain ⟨x, y, j, hx0, hx1, hy0, hy1, hj0, hj4, rfl⟩ := inGrid_cell _ _ _ _ hin
    rw [(mapPixels_spec f _ width height stride hs).1 x y j hx0 hx1 hy0 hy1 hj0 hj4,
      hf _ (readWord_lt m _), wordByte_readWord m _ j hj0 hj4]
  · rw [(mapPixels_spec f _ width height stride hs).2 i hin]

/-! ## Invert is an involution -/

/-- Claim C1: for every image whose rows do not overlap (`stride ≥ 4 * width`),
whatever its width, height and pixel values, applying `applyInvert` twice gives
back the original buffer, byte for byte; in particular every pixel has its
original alpha, red, green and blue. -/
theorem applyInvert_involutive (m : Mem) (width height stride : Int)
    (hs : 4 * width ≤ stride) :
    applyInvert (applyInvert m width height stride) width height stride = m ∧
    ∀ x y : Int, getARGB (pixelAt (applyInvert (applyInvert m width height stride)
      width height stride) stride x y) = getARGB (pixelAt m stride x y) := by
  have h : applyInvert (applyInvert m width height stride) width height stride = m :=
    mapPixels_cancel invertPixel invertPixel m width height stride hs (fun p hp => by
      rw [Nat.mod_eq_of_lt (invertPixel_lt p), invertPixel_invertPixel p hp,
        Nat.mod_eq_of_lt hp])
  exact ⟨h, fun x y => by rw [h]⟩

theorem applyInvert_involutive_witness :
    (4 : Int) * 2 ≤ 12 ∧
    (applyInvert (applyInvert sampleMem 2 2 12) 2 2 12 = sampleMem ∧
    ∀ x y : Int, getARGB (pixelAt (applyInvert (applyInvert sampleMem 2 2 12) 2 2 12) 12 x y)
      = getARGB (pixelAt sampleMem 12 x y)) :=
  ⟨by decide, applyInvert_involutive sampleMem 2 2 12 (by decide)⟩

/-! ## The colour filters keep the alpha channel -/

theorem toUInt8_lt (undef : FloatVal → Int) (x : FloatVal) : toUInt8 undef x < 256 := by
  unfold toUInt8
  split
  · split
    · omega
    · exact toU8_lt _
  · exact toU8_lt _

theorem alpha_lt (p : Nat) : (getARGB p).1 < 256 := by
  rw [getARGB_eq]
  show p / 16777216 % 256 < 256
  omega

theorem grayscalePixel_alpha (undef : FloatVal → Int) (p : Nat) :
    grayscalePixel undef p < 4294967296 ∧
      (getARGB (grayscalePixel undef p)).1 = (getARGB p).1 :=
  ⟨makeARGB_lt _ _ _ _ (alpha_lt p) (toUInt8_lt _ _) (toUInt8_lt _ _) (toUInt8_lt _ _),
    alpha_makeARGB _ _ _ _ (alpha_lt p) (toUInt8_lt _ _) (toUInt8_lt _ _) (toUInt8_lt _ _)⟩

theorem sepiaPixel_alpha (undef : FloatVal → Int) (p : Nat) :
    sepiaPixel undef p < 4294967296 ∧ (getARGB (sepiaPixel undef p)).1 = (getARGB p).1 :=
  ⟨makeARGB_lt _ _ _ _ (alpha_lt p) (clamp_lt _) (clamp_lt _) (clamp_lt _),
    alpha_makeARGB _ _ _ _ (alpha_lt p) (clamp_lt _) (clamp_lt _) (clamp_lt _)⟩

theorem invertPixel_alpha (p : Nat) :
    invertPixel p < 4294967296 ∧ (getARGB (invertPixel p)).1 = (getARGB p).1 :=
  ⟨makeARGB_lt _ _ _ _ (alpha_lt p) (toU8_lt _) (toU8_lt _) (toU8_lt _),
    alpha_makeARGB _ _ _ _ (alpha_lt p) (toU8_lt _) (toU8_lt _) (toU8_lt _)⟩

theorem brightnessPixel_alpha (factor : Int) (p : Nat) :
    brightnessPixel factor p < 4294967296 ∧
      (getARGB (brightnessPixel factor p)).1 = (getARGB p).1 :=
  ⟨makeARGB_lt _ _ _ _ (alpha_lt p) (clamp_lt _) (clamp_lt _) (clamp_lt _),
    alpha_makeARGB _ _ _ _ (alpha_lt p) (clamp_lt _) (clamp_lt _) (clamp_lt _)⟩

theorem contrastPixel_alpha (undef : FloatVal → Int) (factor : FloatVal) (p : Nat) :
    contrastPixel undef factor p < 4294967296 ∧
      (getARGB (contrastPixel undef factor p)).1 = (getARGB p).1 :=
  ⟨makeARGB_lt _ _ _ _ (alpha_lt p) (clamp_lt _) (clamp_lt _) (clamp_lt _),
    alpha_makeARGB _ _ _ _ (alpha_lt p) (clamp_lt _) (clamp_lt _) (clamp_lt _)⟩

/-- A pixelwise map whose pixel function keeps the alpha channel keeps the
alpha channel of every pixel of the grid. -/
theorem mapPixels_alpha (f : Nat → Nat) (m : Mem) (width height stride : Int)
    (hs : 4 * width ≤ stride)
    (hf : ∀ p : Nat, f p < 4294967296 ∧ (getARGB (f p)).1 = (getARGB p).1)
    (x y : Int) (hx0 : 0 ≤ x) (hx1 : x < width) (hy0 : 0 ≤ y) (hy1 : y < height) :
    (getARGB (pixelAt (mapPixels f m width height stride) stride x y)).1
      = (getARGB (pixelAt m stride x y)).1 := by
  unfold pixelAt
  rw [mapPixels_pixel f m width height stride hs x y hx0 hx1 hy0 hy1,
    Nat.mod_eq_of_lt (hf _).1, (hf _).2]

/-- Claim C7: for every image with `stride ≥ 4 * width` and each of the five
colour filters (`applyGrayscale`, `applySepia`, `applyInvert`,
`adjustBrightness` with any factor, `adjustContrast` with any factor, also a
non-finite one), the alpha channel (bits 24..31) of every pixel of the grid
after the filter equals its alpha channel before the filter. -/
theorem filters_preserve_alpha (undef : FloatVal → Int) (m : Mem)
    (width height stride : Int) (bfactor : Int) (cfactor : FloatVal)
    (hs : 4 * width ≤ stride) (x y : Int) (hx0 : 0 ≤ x) (hx1 : x < width) (hy0 : 0 ≤ y)
    (hy1 : y < height) :
    (getARGB (pixelAt (applyGrayscale undef m width height stride) stride x y)).1
        = (getARGB (pixelAt m stride x y)).1 ∧
    (getARGB (pixelAt (applySepia undef m width height stride) stride x y)).1
        = (getARGB (pixelAt m stride x y)).1 ∧
    (getARGB (pixelAt (applyInvert m width height stride) stride x y)).1
        = (getARGB (pixelAt m stride x y)).1 ∧
    (getARGB (pixelAt (adjustBrightness m width height stride bfactor) stride x y)).1
        = (getARGB (pixelAt m stride x y)).1 ∧
    (getARGB (pixelAt (adjustContrast undef m width height stride cfactor) stride x y)).1
        = (getARGB (pixelAt m stride x y)).1 :=
  ⟨mapPixels_alpha (grayscalePixel undef) m width height stride hs
      (grayscalePixel_alpha undef) x y hx0 hx1 hy0 hy1,
    mapPixels_alpha (sepiaPixel undef) m width height stride hs
      (sepiaPixel_alpha undef) x y hx0 hx1 hy0 hy1,
    mapPixels_alpha invertPixel m width height stride hs
      invertPixel_alpha x y hx0 hx1 hy0 hy1,
    mapPixels_alpha (brightnessPixel bfactor) m width height stride hs
      (brightnessPixel_alpha bfactor) x y hx0 hx1 hy0 hy1,
    mapPixels_alpha (contrastPixel undef cfactor) m width height stride hs
      (contrastPixel_alpha undef cfactor) x y hx0 hx1 hy0 hy1⟩

theorem filters_preserve_alpha_witness :
    ((4 : Int) * 2 ≤ 12 ∧ (0 : Int) ≤ 1 ∧ (1 : Int) < 2 ∧ (0 : Int) ≤ 1 ∧ (1 : Int) < 2) ∧
    ((getARGB (pixelAt (applyGrayscale undefZero sampleMem 2 2 12) 12 1 1)).1
        = (getARGB (pixelAt sampleMem 12 1 1)).1 ∧
    (getARGB (pixelAt (applySepia undefZero sampleMem 2 2 12) 12 1 1)).1
        = (getARGB (pixelAt sampleMem 12 1 1)).1 ∧
    (getARGB (pixelAt (applyInvert sampleMem 2 2 12) 12 1 1)).1
        = (getARGB (pixelAt sampleMem 12 1 1)).1 ∧
    (getARGB (pixelAt (adjustBrightness sampleMem 2 2 12 300) 12 1 1)).1
        = (getARGB (pixelAt sampleMem 12 1 1)).1 ∧
    (getARGB (pixelAt (adjustContrast undefZero sampleMem 2 2 12 none) 12 1 1)).1
        = (getARGB (pixelAt sampleMem 12 1 1)).1) :=
  ⟨by decide, filters_preserve_alpha undefZero sampleMem 2 2 12 300 none (by decide) 1 1
    (by decide) (by decide) (by decide) (by decide)⟩

/-! ## Brightness 0 and contrast 1.0 are the identity -/

theorem clamp_of_byte (c : Nat) (hc : c < 256) : clamp (c : Int) = c := by
  unfold clamp toU8
  omega

theorem brightnessPixel_zero (p : Nat) (hp : p < 4294967296) : brightnessPixel 0 p = p := by
  have hw : ∀ c : Nat, c < 256 → clamp (wrapInt ((c : Int) + 0)) = c := by
    intro c hc
    have : wrapInt ((c : Int) + 0) = (c : Int) := by unfold wrapInt; omega
    rw [this, clamp_of_byte c hc]
  unfold brightnessPixel
  rw [getARGB_eq]
  simp only []
  rw [hw _ (by omega), hw _ (by omega), hw _ (by omega),
    makeARGB_eq _ _ _ _ (by omega) (by omega) (by omega) (by omega)]
  omega

/-- With the `float` factor 1.0 the expression `(c - 128) * factor + 128`
evaluates to `c` itself for every channel value. -/
theorem contrastFloat_one :
    ∀ c : Nat, c < 256 →
      Option.map truncate (contrastFloat (lit binary32 1 1) c) = some (c : Int) := by
  decide!

theorem contrastValue_one (undef : FloatVal → Int) (c : Nat) (hc : c < 256) :
    contrastValue undef (lit binary32 1 1) c = (c : Int) := by
  have h := contrastFloat_one c hc
  unfold contrastValue toInt
  cases hq : contrastFloat (lit binary32 1 1) c with
  | none => rw [hq] at h; simp at h
  | some q =>
    rw [hq] at h
    simp only [Option.map_some', Option.some.injEq] at h
    simp only [h]
    rw [if_pos (by omega)]

theorem contrastPixel_one (undef : FloatVal → Int) (p : Nat) (hp : p < 4294967296) :
    contrastPixel undef (lit binary32 1 1) p = p := by
  unfold contrastPixel
  rw [getARGB_eq]
  simp only []
  rw [contrastValue_one undef _ (by omega), contrastValue_one undef _ (by omega),
    contrastValue_one undef _ (by omega), clamp_of_byte _ (by omega),
    clamp_of_byte _ (by omega), clamp_of_byte _ (by omega),
    makeARGB_eq _ _ _ _ (by omega) (by omega) (by omega) (by omega)]
  omega

/-- Claim C8: for every image with `stride ≥ 4 * width`, `adjustBrightness`
with factor 0 and `adjustContrast` with the `float` factor 1.0 each give back
the buffer unchanged, so every pixel keeps its red, green and blue channels
(and its alpha). -/
theorem brightness_zero_contrast_one (undef : FloatVal → Int) (m : Mem)
    (width height stride : Int) (hs : 4 * width ≤ stride) :
    adjustBrightness m width height stride 0 = m ∧
    adjustContrast undef m width height stride (lit binary32 1 1) = m :=
  ⟨mapPixels_fixed (brightnessPixel 0) m width height stride hs brightnessPixel_zero,
    mapPixels_fixed (contrastPixel undef (lit binary32 1 1)) m width height stride hs
      (contrastPixel_one undef)⟩

theorem brightness_zero_contrast_one_witness :
    (4 : Int) * 2 ≤ 12 ∧
    (adjustBrightness sampleMem 2 2 12 0 = sampleMem ∧
    adjustContrast undefZero sampleMem 2 2 12 (lit binary32 1 1) = sampleMem) :=
  ⟨by decide, brightness_zero_contrast_one undefZero sampleMem 2 2 12 (by decide)⟩

/-! ## Grayscale applied twice -/

theorem getARGB_makeARGB (a r g b : Nat) (ha : a < 256) (hr : r < 256) (hg : g < 256)
    (hb : b < 256) : getARGB (makeARGB a r g b) = (a, r, g, b) := by
  rw [makeARGB_eq a r g b ha hr hg hb, getARGB_eq]
  simp only [Prod.mk.injEq]
  omega

theorem grayscalePixel_def (undef : FloatVal → Int) (p : Nat) :
    grayscalePixel undef p = makeARGB (getARGB p).1
      (grayValue undef (getARGB p).2.1 (getARGB p).2.2.1 (getARGB p).2.2.2)
      (grayValue undef (getARGB p).2.1 (getARGB p).2.2.1 (getARGB p).2.2.2)
      (grayValue undef (getARGB p).2.1 (getARGB p).2.2.1 (getARGB p).2.2.2) := rfl

/-- The `double` sum `0.299 * v + 0.587 * v + 0.114 * v` truncates to `v` or to
`v - 1`, for every channel value `v`. -/
theorem grayFloat_diag :
    ∀ v : Nat, v < 256 →
      (Option.map truncate (grayFloat v v v) = some (v : Int) ∨
        (0 < v ∧ Option.map truncate (grayFloat v v v) = some ((v : Int) - 1))) := by
  decide!

theorem grayValue_diag (undef : FloatVal → Int) (v : Nat) (hv : v < 256) :
    grayValue undef v v v = v ∨ grayValue undef v v v + 1 = v := by
  have h := grayFloat_diag v hv
  unfold grayValue toUInt8
  cases hq : grayFloat v v v with
  | none => rw [hq] at h; simp at h
  | some q =>
    rw [hq] at h
    simp only [Option.map_some', Option.some.injEq] at h
    simp only []
    rcases h with h | ⟨h0, h⟩
    · rw [h, if_pos (by omega)]; left; omega
    · rw [h, if_pos (by omega)]; right; omega

/-- Claim C6, counterexample: the one-pixel image with red 2, green 1, blue 0
has gray value 1 after one `applyGrayscale` and gray value 0 after two, because
the `double` sum `0.299 + 0.587 + 0.114` lies just below 1 and is truncated. -/
theorem applyGrayscale_not_idempotent :
    applyGrayscale undefZero (applyGrayscale undefZero darkPixelMem 1 1 4) 1 1 4
        ≠ applyGrayscale undefZero darkPixelMem 1 1 4 ∧
    pixelAt (applyGrayscale undefZero darkPixelMem 1 1 4) 4 0 0 = 0x00010101 ∧
    pixelAt (applyGrayscale undefZero (applyGrayscale undefZero darkPixelMem 1 1 4) 1 1 4)
        4 0 0 = 0 ∧
    grayValue undefZero 1 1 1 = 0 := by
  refine ⟨fun h => ?_, by decide!, by decide!, by decide!⟩
  have h0 := congrFun h 0
  revert h0
  decide!

/-- Claim C6, amended: for every image with `stride ≥ 4 * width`, a second
`applyGrayscale` keeps every pixel gray and keeps its alpha, and leaves its
gray value `v` as it is or lowers it by one: for `r = g = b = v` in `[0, 255]`
the computed gray value is `v` or `v - 1`. -/
theorem applyGrayscale_twice (undef : FloatVal → Int) (m : Mem) (width height stride : Int)
    (hs : 4 * width ≤ stride) (x y : Int) (hx0 : 0 ≤ x) (hx1 : x < width) (hy0 : 0 ≤ y)
    (hy1 : y < height) :
    (∀ v : Nat, v < 256 → grayValue undef v v v = v ∨ grayValue undef v v v + 1 = v) ∧
    ∃ a v1 v2 : Nat,
      getARGB (pixelAt (applyGrayscale undef m width height stride) stride x y)
        = (a, v1, v1, v1) ∧
      getARGB (pixelAt (applyGrayscale undef (applyGrayscale undef m width height stride)
        width height stride) stride x y) = (a, v2, v2, v2) ∧
      (v2 = v1 ∨ v2 + 1 = v1) := by
  refine ⟨grayValue_diag undef, ?_⟩
  have e1 : pixelAt (applyGrayscale undef m width height stride) stride x y
      = grayscalePixel undef (pixelAt m stride x y) := by
    unfold pixelAt
    exact (mapPixels_pixel (grayscalePixel undef) m width height stride hs x y hx0 hx1 hy0
      hy1).trans (Nat.mod_eq_of_lt (grayscalePixel_alpha undef _).1)
  have e2 : pixelAt (applyGrayscale undef (applyGrayscale undef m width height stride)
      width height stride) stride x y
      = grayscalePixel undef (grayscalePixel undef (pixelAt m stride x y)) := by
    rw [← e1]
    unfold pixelAt
    exact (mapPixels_pixel (grayscalePixel undef) _ width height stride hs x y hx0 hx1 hy0
      hy1).trans (Nat.mod_eq_of_lt (grayscalePixel_alpha undef _).1)
  have g1 : ∀ p : Nat, getARGB (grayscalePixel undef p)
      = ((getARGB p).1, grayValue undef (getARGB p).2.1 (getARGB p).2.2.1 (getARGB p).2.2.2,
        grayValue undef (getARGB p).2.1 (getARGB p).2.2.1 (getARGB p).2.2.2,
        grayValue undef (getARGB p).2.1 (getARGB p).2.2.1 (getARGB p).2.2.2) := fun p => by
    rw [grayscalePixel_def]
    exact getARGB_makeARGB _ _ _ _ (alpha_lt p) (toUInt8_lt _ _) (toUInt8_lt _ _)
      (toUInt8_lt _ _)
  refine ⟨(getARGB (pixelAt m stride x y)).1,
    grayValue undef (getARGB (pixelAt m stride x y)).2.1
      (getARGB (pixelAt m stride x y)).2.2.1 (getARGB (pixelAt m stride x y)).2.2.2,
    grayValue undef
      (grayValue undef (getARGB (pixelAt m stride x y)).2.1
        (getARGB (pixelAt m stride x y)).2.2.1 (getARGB (pixelAt m stride x y)).2.2.2)
      (grayValue undef (getARGB (pixelAt m stride x y)).2.1
        (getARGB (pixelAt m stride x y)).2.2.1 (getARGB (pixelAt m stride x y)).2.2.2)
      (grayValue undef (getARGB (pixelAt m stride x y)).2.1
        (getARGB (pixelAt m stride x y)).2.2.1 (getARGB (pixelAt m stride x y)).2.2.2),
    ?_, ?_, ?_⟩
  · rw [e1, g1]
  · rw [e2, g1, g1]
  · exact grayValue_diag undef _ (toUInt8_lt _ _)

theorem applyGrayscale_twice_witness :
    ((4 : Int) * 1 ≤ 4 ∧ (0 : Int) ≤ 0 ∧ (0 : Int) < 1 ∧ (0 : Int) ≤ 0 ∧ (0 : Int) < 1) ∧
    ((∀ v : Nat, v < 256 →
      grayValue undefZero v v v = v ∨ grayValue undefZero v v v + 1 = v) ∧
    ∃ a v1 v2 : Nat,
      getARGB (pixelAt (applyGrayscale undefZero darkPixelMem 1 1 4) 4 0 0)
        = (a, v1, v1, v1) ∧
      getARGB (pixelAt (applyGrayscale undefZero (applyGrayscale undefZero darkPixelMem 1 1 4)
        1 1 4) 4 0 0) = (a, v2, v2, v2) ∧
      (v2 = v1 ∨ v2 + 1 = v1)) :=
  ⟨by decide, applyGrayscale_twice undefZero darkPixelMem 1 1 4 (by decide) 0 0 (by decide)
    (by decide) (by decide) (by decide)⟩

/-! ## Out-of-place index remapping -/

/-- Two different pixels of a grid whose rows do not overlap occupy disjoint
byte ranges. -/
theorem cell_apart (s W X1 Y1 X2 Y2 : Int) (hs : 4 * W ≤ s) (h1 : 0 ≤ X1) (h1' : X1 < W)
    (h2 : 0 ≤ X2) (h2' : X2 < W) (hne : X1 ≠ X2 ∨ Y1 ≠ Y2) :
    Y1 * s + 4 * X1 + 4 ≤ Y2 * s + 4 * X2 ∨ Y2 * s + 4 * X2 + 4 ≤ Y1 * s + 4 * X1 := by
  rcases lt_trichotomy Y1 Y2 with h | h | h
  · have := row_le s Y1 Y2 (by omega) (by omega)
    left; omega
  · subst h; omega
  · have := row_le s Y2 Y1 (by omega) (by omega)
    right; omega

/-- The effect of an index remapping whose target pixels lie in a destination
grid of width `W` with non-overlapping rows and are pairwise different: every
target pixel holds its source pixel, and every byte outside the target pixels
is unchanged. -/
theorem remapPixels_spec (newX newY : Int → Int → Int) (src dst : Mem)
    (width height srcStride dstStride W : Int) (hs : 4 * W ≤ dstStride)
    (hX : ∀ x y : Int, 0 ≤ x → x < width → 0 ≤ y → y < height →
      0 ≤ newX x y ∧ newX x y < W)
    (hinj : ∀ x y x' y' : Int, 0 ≤ x → x < width → 0 ≤ y → y < height →
      0 ≤ x' → x' < width → 0 ≤ y' → y' < height → (x ≠ x' ∨ y ≠ y') →
      (newX x y ≠ newX x' y' ∨ newY x y ≠ newY x' y')) :
    (∀ x y : Int, 0 ≤ x → x < width → 0 ≤ y → y < height →
      readWord (remapPixels newX newY src dst width height srcStride dstStride)
        (newY x y * dstStride + 4 * newX x y) = readWord src (y * srcStride + 4 * x)) ∧
    (∀ b : Int, (∀ x y : Int, 0 ≤ x → x < width → 0 ≤ y → y < height →
        (b < newY x y * dstStride + 4 * newX x y ∨
          newY x y * dstStride + 4 * newX x y + 4 ≤ b)) →
      remapPixels newX newY src dst width height srcStride dstStride b = dst b) := by
  have inner : ∀ (y : Int) (d : Mem), 0 ≤ y → y < height →
      (∀ x : Int, 0 ≤ x → x < width →
        readWord (forLoop width (fun x dst =>
          writeWord dst (newY x y * dstStride + 4 * newX x y)
            (readWord src (y * srcStride + 4 * x))) d)
          (newY x y * dstStride + 4 * newX x y) = readWord src (y * srcStride + 4 * x)) ∧
      (∀ b : Int, (∀ x : Int, 0 ≤ x → x < width →
          (b < newY x y * dstStride + 4 * newX x y ∨
            newY x y * dstStride + 4 * newX x y + 4 ≤ b)) →
        forLoop width (fun x dst =>
          writeWord dst (newY x y * dstStride + 4 * newX x y)
            (readWord src (y * srcStride + 4 * x))) d b = d b) := by
    intro y d hy0 hy1
    have key := forLoop_inv
      (fun (n : Int) (t : Mem) =>
        (∀ x : Int, 0 ≤ x → x < n →
          readWord t (newY x y * dstStride + 4 * newX x y)
            = readWord src (y * srcStride + 4 * x)) ∧
        (∀ b : Int, (∀ x : Int, 0 ≤ x → x < n →
            (b < newY x y * dstStride + 4 * newX x y ∨
              newY x y * dstStride + 4 * newX x y + 4 ≤ b)) → t b = d b))
      width (fun x dst =>
        writeWord dst (newY x y * dstStride + 4 * newX x y)
          (readWord src (y * srcStride + 4 * x))) d
      ⟨fun x h0 h1 => by omega, fun _ _ => rfl⟩
      (by
        intro k t hk0 hk1 ⟨h1, h2⟩
        beta_reduce
        refine ⟨fun x hx0 hx1 => ?_, fun b hb => ?_⟩
        · by_cases hxk : x = k
          · subst hxk
            rw [readWord_writeWord_same, Nat.mod_eq_of_lt (readWord_lt _ _)]
          · have hA := hX x y hx0 (by omega) hy0 hy1
            have hB := hX k y hk0 hk1 hy0 hy1
            have hne := hinj x y k y hx0 (by omega) hy0 hy1 hk0 hk1 hy0 hy1 (Or.inl hxk)
            have := cell_apart dstStride W _ _ _ _ hs hA.1 hA.2 hB.1 hB.2 hne
            rw [readWord_writeWord_apart _ _ _ _ this]
            exact h1 x hx0 (by omega)
        · rw [writeWord_outside _ _ _ _ (hb k hk0 (by omega))]
          exact h2 b (fun x hx0 hx1 => hb x hx0 (by omega)))
    obtain ⟨k1, k2⟩ := key
    exact ⟨fun x hx0 hx1 => k1 x hx0 (by omega),
      fun b hb => k2 b (fun x hx0 hx1 => hb x hx0 (by omega))⟩
  have key := forLoop_inv
    (fun (n : Int) (t : Mem) =>
      (∀ x y : Int, 0 ≤ x → x < width → 0 ≤ y → y < n →
        readWord t (newY x y * dstStride + 4 * newX x y)
          = readWord src (y * srcStride + 4 * x)) ∧
      (∀ b : Int, (∀ x y : Int, 0 ≤ x → x < width → 0 ≤ y → y < n →
          (b < newY x y * dstStride + 4 * newX x y ∨
            newY x y * dstStride + 4 * newX x y + 4 ≤ b)) → t b = dst b))
    height (fun y dst =>
      forLoop width (fun x dst =>
        writeWord dst (newY x y * dstStride + 4 * newX x y)
          (readWord src (y * srcStride + 4 * x))) dst) dst
    ⟨fun x y _ _ h0 h1 => by omega, fun _ _ => rfl⟩
    (by
      intro k t hk0 hk1 ⟨h1, h2⟩
      obtain ⟨r1, r2⟩ := inner k t hk0 hk1
      beta_reduce
      refine ⟨fun x y hx0 hx1 hy0 hy1 => ?_, fun b hb => ?_⟩
      · by_cases hyk : y = k
        · subst hyk
          exact r1 x hx0 hx1
        · rw [← h1 x y hx0 hx1 hy0 (by omega)]
          refine readWord_congr _ _ _ (fun j hj0 hj4 => r2 _ (fun x' hx0' hx1' => ?_))
          have hA := hX x y hx0 hx1 hy0 (by omega)
          have hB := hX x' k hx0' hx1' hk0 hk1
          have hne := hinj x y x' k hx0 hx1 hy0 (by omega) hx0' hx1' hk0 hk1 (Or.inr hyk)
          have := cell_apart dstStride W _ _ _ _ hs hA.1 hA.2 hB.1 hB.2 hne
          omega
      · rw [r2 b (fun x hx0 hx1 => hb x k hx0 hx1 hk0 (by omega))]
        exact h2 b (fun x y hx0 hx1 hy0 hy1 => hb x y hx0 hx1 hy0 (by omega)))
  obtain ⟨k1, k2⟩ := key
  exact ⟨fun x y hx0 hx1 hy0 hy1 => k1 x y hx0 hx1 hy0 (by omega),
    fun b hb => k2 b (fun x y hx0 hx1 hy0 hy1 => hb x y hx0 hx1 hy0 (by omega))⟩

theorem rotate90CW_eq_remap (src dst : Mem) (width height srcStride dstStride : Int) :
    rotate90CW src dst width height srcStride dstStride
      = remapPixels (fun _ y => height - 1 - y) (fun x _ => x) src dst width height
          srcStride dstStride := rfl

theorem rotate90CCW_eq_remap (src dst : Mem) (width height srcStride dstStride : Int) :
    rotate90CCW src dst width height srcStride dstStride
      = remapPixels (fun _ y => y) (fun x _ => width - 1 - x) src dst width height
          srcStride dstStride := rfl

/-- The pixels written by `rotate90CW`: the source pixel in column `x` of row
`y` lands in column `height - 1 - y` of row `x`. -/
theorem rotate90CW_spec (src dst : Mem) (width height srcStride dstStride : Int)
    (hs : 4 * height ≤ dstStride) (x y : Int) (hx0 : 0 ≤ x) (hx1 : x < width) (hy0 : 0 ≤ y)
    (hy1 : y < height) :
    pixelAt (rotate90CW src dst width height srcStride dstStride) dstStride
      (height - 1 - y) x = pixelAt src srcStride x y := by
  rw [rotate90CW_eq_remap]
  exact (remapPixels_spec (fun _ y => height - 1 - y) (fun x _ => x) src dst width height
    srcStride dstStride height hs
    (fun a b _ _ hb0 hb1 => by beta_reduce; constructor <;> omega)
    (fun a b a' b' _ _ _ _ _ _ _ _ hne => by beta_reduce; omega)).1 x y hx0 hx1 hy0 hy1

/-- The pixels written by `rotate90CCW`: the source pixel in column `x` of row
`y` lands in column `y` of row `width - 1 - x`. -/
theorem rotate90CCW_spec (src dst : Mem) (width height srcStride dstStride : Int)
    (hs : 4 * height ≤ dstStride) (x y : Int) (hx0 : 0 ≤ x) (hx1 : x < width) (hy0 : 0 ≤ y)
    (hy1 : y < height) :
    pixelAt (rotate90CCW src dst width height srcStride dstStride) dstStride
      y (width - 1 - x) = pixelAt src srcStride x y := by
  rw [rotate90CCW_eq_remap]
  exact (remapPixels_spec (fun _ y => y) (fun x _ => width - 1 - x) src dst width height
    srcStride dstStride height hs
    (fun a b _ _ hb0 hb1 => by beta_reduce; constructor <;> omega)
    (fun a b a' b' _ _ _ _ _ _ _ _ hne => by beta_reduce; omega)).1 x y hx0 hx1 hy0 hy1

/-- Claim C4: for every source image of width `w` and height `h` and every
destination whose rows hold `h` pixels without overlapping
(`dstStride ≥ 4 * h`), after `rotate90CW` the destination pixel in row `x`,
column `h - 1 - y` equals the source pixel in row `y`, column `x`, for all
`0 ≤ y < h` and `0 ≤ x < w`; in particular, for a 3 by 2 image the destination
pixel in row 0, column 0 equals the source pixel in column 0 of the last row. -/
theorem rotate90CW_mapping (src dst : Mem) (width height srcStride dstStride : Int)
    (hs : 4 * height ≤ dstStride) :
    (∀ x y : Int, 0 ≤ x → x < width → 0 ≤ y → y < height →
      pixelAt (rotate90CW src dst width height srcStride dstStride) dstStride
        (height - 1 - y) x = pixelAt src srcStride x y) ∧
    (∀ (src3 dst3 : Mem) (srcStride3 dstStride3 : Int), 4 * 2 ≤ dstStride3 →
      pixelAt (rotate90CW src3 dst3 3 2 srcStride3 dstStride3) dstStride3 0 0
        = pixelAt src3 srcStride3 0 (2 - 1)) :=
  ⟨fun x y hx0 hx1 hy0 hy1 =>
      rotate90CW_spec src dst width height srcStride dstStride hs x y hx0 hx1 hy0 hy1,
    fun src3 dst3 srcStride3 dstStride3 h3 =>
      rotate90CW_spec src3 dst3 3 2 srcStride3 dstStride3 h3 0 1 (by decide) (by decide)
        (by decide) (by decide)⟩

theorem rotate90CW_mapping_witness :
    (4 : Int) * 2 ≤ 8 ∧
    ((∀ x y : Int, 0 ≤ x → x < 3 → 0 ≤ y → y < 2 →
      pixelAt (rotate90CW sampleMem sampleMem 3 2 12 8) 8 (2 - 1 - y) x
        = pixelAt sampleMem 12 x y) ∧
    (∀ (src3 dst3 : Mem) (srcStride3 dstStride3 : Int), 4 * 2 ≤ dstStride3 →
      pixelAt (rotate90CW src3 dst3 3 2 srcStride3 dstStride3) dstStride3 0 0
        = pixelAt src3 srcStride3 0 (2 - 1))) :=
  ⟨by decide, rotate90CW_mapping sampleMem sampleMem 3 2 12 8 (by decide)⟩

/-- Claim C5: for every rectangular image of width `w` and height `h`,
`rotate90CCW` applied (with width `h`, height `w`) to the output of
`rotate90CW` reproduces the original pixel grid, and `rotate90CW` applied to
the output of `rotate90CCW` does so too; the intermediate buffer has rows of
`h` pixels (`midStride ≥ 4 * h`) and the final one rows of `w` pixels
(`outStride ≥ 4 * w`). -/
theorem rotate90_round_trip (src mid out : Mem) (width height srcStride midStride outStride : Int)
    (hm : 4 * height ≤ midStride) (ho : 4 * width ≤ outStride)
    (x y : Int) (hx0 : 0 ≤ x) (hx1 : x < width) (hy0 : 0 ≤ y) (hy1 : y < height) :
    pixelAt (rotate90CCW (rotate90CW src mid width height srcStride midStride) out
        height width midStride outStride) outStride x y = pixelAt src srcStride x y ∧
    pixelAt (rotate90CW (rotate90CCW src mid width height srcStride midStride) out
        height width midStride outStride) outStride x y = pixelAt src srcStride x y := by
  constructor
  · have h2 := rotate90CCW_spec (rotate90CW src mid width height srcStride midStride) out
      height width midStride outStride ho (height - 1 - y) x (by omega) (by omega) hx0 hx1
    have e : height - 1 - (height - 1 - y) = y := by omega
    rw [e] at h2
    rw [h2]
    exact rotate90CW_spec src mid width height srcStride midStride hm x y hx0 hx1 hy0 hy1
  · have h2 := rotate90CW_spec (rotate90CCW src mid width height srcStride midStride) out
      height width midStride outStride ho y (width - 1 - x) hy0 hy1 (by omega) (by omega)
    have e : width - 1 - (width - 1 - x) = x := by omega
    rw [e] at h2
    rw [h2]
    exact rotate90CCW_spec src mid width height srcStride midStride hm x y hx0 hx1 hy0 hy1

theorem rotate90_round_trip_witness :
    ((4 : Int) * 2 ≤ 8 ∧ (4 : Int) * 3 ≤ 12 ∧ (0 : Int) ≤ 2 ∧ (2 : Int) < 3 ∧ (0 : Int) ≤ 1 ∧
      (1 : Int) < 2) ∧
    (pixelAt (rotate90CCW (rotate90CW sampleMem sampleMem 3 2 12 8) sampleMem 2 3 8 12) 12 2 1
        = pixelAt sampleMem 12 2 1 ∧
    pixelAt (rotate90CW (rotate90CCW sampleMem sampleMem 3 2 12 8) sampleMem 2 3 8 12) 12 2 1
        = pixelAt sampleMem 12 2 1) :=
  ⟨by decide, rotate90_round_trip sampleMem sampleMem sampleMem 3 2 12 8 12 (by decide)
    (by decide) 2 1 (by decide) (by decide) (by decide) (by decide)⟩

/-! ## Crop -/

theorem toSizeT_of_int (i : Int) (h0 : 0 ≤ i) (h1 : i ≤ 8589934588) :
    ((toSizeT i : Nat) : Int) = i := by
  unfold toSizeT
  omega

/-- The effect of `cropBitmap` when the copied rows do not overlap in the
destination (`n ≤ dstStride` for the row length `n` in bytes): row `row` of the
destination holds the `n` bytes of the source that start at the crop origin of
row `cropY + row`, every other byte of the destination is unchanged, and the
source is unchanged. -/
theorem cropBitmap_bytes (src dst : Mem)
    (srcWidth srcHeight srcStride dstStride cropX cropY cropWidth cropHeight : Int)
    (hd : ((toSizeT (cropWidth * 4) : Nat) : Int) ≤ dstStride) :
    (∀ row j : Int, 0 ≤ row → row < cropHeight → 0 ≤ j → j < toSizeT (cropWidth * 4) →
      (cropBitmap src dst srcWidth srcHeight srcStride dstStride cropX cropY cropWidth
        cropHeight).2 (row * dstStride + j)
        = src ((cropY + row) * srcStride + 4 * cropX + j)) ∧
    (∀ b : Int, (∀ row : Int, 0 ≤ row → row < cropHeight →
        (b < row * dstStride ∨ row * dstStride + toSizeT (cropWidth * 4) ≤ b)) →
      (cropBitmap src dst srcWidth srcHeight srcStride dstStride cropX cropY cropWidth
        cropHeight).2 b = dst b) ∧
    (cropBitmap src dst srcWidth srcHeight srcStride dstStride cropX cropY cropWidth
      cropHeight).1 = src := by
  have key := forLoop_inv
    (fun (k : Int) (bufs : Mem × Mem) =>
      (∀ row j : Int, 0 ≤ row → row < k → 0 ≤ j → j < toSizeT (cropWidth * 4) →
        bufs.2 (row * dstStride + j) = src ((cropY + row) * srcStride + 4 * cropX + j)) ∧
      (∀ b : Int, (∀ row : Int, 0 ≤ row → row < k →
          (b < row * dstStride ∨ row * dstStride + toSizeT (cropWidth * 4) ≤ b)) →
        bufs.2 b = dst b) ∧
      bufs.1 = src)
    cropHeight (fun y (bufs : Mem × Mem) =>
      (bufs.1, memcpy bufs.2 (y * dstStride) bufs.1 ((cropY + y) * srcStride + 4 * cropX)
        (toSizeT (cropWidth * 4)))) (src, dst)
    ⟨fun row j h0 h1 => by omega, fun _ _ => rfl, rfl⟩
    (by
      intro k t hk0 hk1 ⟨h1, h2, h3⟩
      beta_reduce
      refine ⟨fun row j hr0 hr1 hj0 hj1 => ?_, fun b hb => ?_, h3⟩
      · show memcpy t.2 _ t.1 _ _ _ = _
        unfold memcpy
        by_cases hrk : row = k
        · subst hrk
          rw [if_pos (by omega), h3]
          congr 1
          omega
        · have := row_le dstStride row k (by omega) (by omega)
          rw [if_neg (by omega)]
          exact h1 row j hr0 (by omega) hj0 hj1
      · show memcpy t.2 _ t.1 _ _ _ = _
        unfold memcpy
        have := hb k hk0 (by omega)
        rw [if_neg (by omega)]
        exact h2 b (fun row hr0 hr1 => hb row hr0 (by omega)))
  obtain ⟨k1, k2, k3⟩ := key
  exact ⟨fun row j hr0 hr1 hj0 hj1 => k1 row j hr0 (by omega) hj0 hj1,
    fun b hb => k2 b (fun row hr0 hr1 => hb row hr0 (by omega)), k3⟩

/-- Claim C9: for every source image (`srcWidth` being an `int`) and every
crop rectangle with `cropX, cropY ≥ 0`, `cropWidth, cropHeight ≥ 0`,
`cropX + cropWidth ≤ srcWidth` and `cropY + cropHeight ≤ srcHeight`, and every
destination whose rows hold `cropWidth` pixels (`dstStride ≥ 4 * cropWidth`),
after `cropBitmap` the destination pixel in row `row`, column `col` equals the
source pixel in row `cropY + row`, column `cropX + col`, for all
`0 ≤ row < cropHeight` and `0 ≤ col < cropWidth`, whatever the two strides
are otherwise; the source buffer is unchanged. -/
theorem cropBitmap_pixels (src dst : Mem)
    (srcWidth srcHeight srcStride dstStride cropX cropY cropWidth cropHeight : Int)
    (hint : srcWidth ≤ 2147483647) (hx : 0 ≤ cropX) (_hy : 0 ≤ cropY) (hw : 0 ≤ cropWidth)
    (_hh : 0 ≤ cropHeight) (hxw : cropX + cropWidth ≤ srcWidth)
    (_hyh : cropY + cropHeight ≤ srcHeight) (hd : 4 * cropWidth ≤ dstStride) :
    (∀ row col : Int, 0 ≤ row → row < cropHeight → 0 ≤ col → col < cropWidth →
      pixelAt (cropBitmap src dst srcWidth srcHeight srcStride dstStride cropX cropY
        cropWidth cropHeight).2 dstStride col row
        = pixelAt src srcStride (cropX + col) (cropY + row)) ∧
    (cropBitmap src dst srcWidth srcHeight srcStride dstStride cropX cropY cropWidth
      cropHeight).1 = src := by
  have hn := toSizeT_of_int (cropWidth * 4) (by omega) (by omega)
  obtain ⟨k1, _, k3⟩ := cropBitmap_bytes src dst srcWidth srcHeight srcStride dstStride cropX
    cropY cropWidth cropHeight (by omega)
  refine ⟨fun row col hr0 hr1 hc0 hc1 => ?_, k3⟩
  unfold pixelAt
  refine readWord_eq_of_bytes _ _ _ _ (fun j hj0 hj4 => ?_)
  have := k1 row (4 * col + j) hr0 hr1 (by omega) (by omega)
  have e1 : row * dstStride + 4 * col + j = row * dstStride + (4 * col + j) := by omega
  have e2 : (cropY + row) * srcStride + 4 * (cropX + col) + j
      = (cropY + row) * srcStride + 4 * cropX + (4 * col + j) := by omega
  rw [e1, e2]
  exact this

theorem cropBitmap_pixels_witness :
    ((3 : Int) ≤ 2147483647 ∧ (0 : Int) ≤ 1 ∧ (0 : Int) ≤ 1 ∧ (0 : Int) ≤ 2 ∧ (0 : Int) ≤ 2 ∧
      (1 : Int) + 2 ≤ 3 ∧ (1 : Int) + 2 ≤ 3 ∧ (4 : Int) * 2 ≤ 8) ∧
    ((∀ row col : Int, 0 ≤ row → row < 2 → 0 ≤ col → col < 2 →
      pixelAt (cropBitmap sampleMem sampleMem 3 3 12 8 1 1 2 2).2 8 col row
        = pixelAt sampleMem 12 (1 + col) (1 + row)) ∧
    (cropBitmap sampleMem sampleMem 3 3 12 8 1 1 2 2).1 = sampleMem) :=
  ⟨by decide, cropBitmap_pixels sampleMem sampleMem 3 3 12 8 1 1 2 2 (by decide) (by decide)
    (by decide) (by decide) (by decide) (by decide) (by decide) (by decide)⟩

/-- Claim C10: for every source image (of non-negative `int` width, with a
destination whose rows hold `srcWidth` pixels), `cropBitmap` with
`cropX = 0`, `cropY = 0`, `cropWidth = srcWidth` and `cropHeight = srcHeight`
produces a destination whose pixel grid is identical to the source pixel grid. -/
theorem cropBitmap_full (src dst : Mem) (srcWidth srcHeight srcStride dstStride : Int)
    (hint : srcWidth ≤ 2147483647) (hd : 4 * srcWidth ≤ dstStride)
    (x y : Int) (hx0 : 0 ≤ x) (hx1 : x < srcWidth) (hy0 : 0 ≤ y) (hy1 : y < srcHeight) :
    pixelAt (cropBitmap src dst srcWidth srcHeight srcStride dstStride 0 0 srcWidth
      srcHeight).2 dstStride x y = pixelAt src srcStride x y := by
  have hn := toSizeT_of_int (srcWidth * 4) (by omega) (by omega)
  obtain ⟨k1, _, _⟩ := cropBitmap_bytes src dst srcWidth srcHeight srcStride dstStride 0
    0 srcWidth srcHeight (by omega)
  unfold pixelAt
  refine readWord_eq_of_bytes _ _ _ _ (fun j hj0 hj4 => ?_)
  have := k1 y (4 * x + j) hy0 hy1 (by omega) (by omega)
  have e1 : y * dstStride + 4 * x + j = y * dstStride + (4 * x + j) := by omega
  have e2 : y * srcStride + 4 * x + j = (0 + y) * srcStride + 4 * 0 + (4 * x + j) := by
    rw [zero_add]; omega
  rw [e1, e2]
  exact this

theorem cropBitmap_full_witness :
    ((3 : Int) ≤ 2147483647 ∧ (4 : Int) * 3 ≤ 12 ∧ (0 : Int) ≤ 2 ∧ (2 : Int) < 3 ∧
      (0 : Int) ≤ 1 ∧ (1 : Int) < 3) ∧
    pixelAt (cropBitmap sampleMem sampleMem 3 3 16 12 0 0 3 3).2 12 2 1
      = pixelAt sampleMem 16 2 1 :=
  ⟨by decide, cropBitmap_full sampleMem sampleMem 3 3 16 12 (by decide) (by decide) 2 1
    (by decide) (by decide) (by decide) (by decide)⟩

/-! ## Rotation by 180 degrees -/

theorem swapWords_outside (m : Mem) (p q b : Int) (hp : b < p ∨ p + 4 ≤ b)
    (hq : b < q ∨ q + 4 ≤ b) : swapWords m p q b = m b := by
  show writeWord (writeWord m p (readWord m q)) q (readWord m p) b = m b
  rw [writeWord_outside _ _ _ _ hq, writeWord_outside _ _ _ _ hp]

theorem swapWords_left (m : Mem) (p q : Int) (h : p + 4 ≤ q ∨ q + 4 ≤ p) :
    readWord (swapWords m p q) p = readWord m q := by
  show readWord (writeWord (writeWord m p (readWord m q)) q (readWord m p)) p = _
  rw [readWord_writeWord_apart _ _ _ _ h, readWord_writeWord_same,
    Nat.mod_eq_of_lt (readWord_lt _ _)]

theorem swapWords_right (m : Mem) (p q : Int) :
    readWord (swapWords m p q) q = readWord m p := by
  show readWord (writeWord (writeWord m p (readWord m q)) q (readWord m p)) q = _
  rw [readWord_writeWord_same, Nat.mod_eq_of_lt (readWord_lt _ _)]

theorem swapWords_apart (m : Mem) (p q r : Int) (hp : r + 4 ≤ p ∨ p + 4 ≤ r)
    (hq : r + 4 ≤ q ∨ q + 4 ≤ r) : readWord (swapWords m p q) r = readWord m r :=
  readWord_congr _ _ _ (fun j _ _ => swapWords_outside m p q (r + j) (by omega) (by omega))

/-- A loop of exchanges whose words are pairwise disjoint exchanges the
original contents of each pair and changes no other byte. -/
theorem swapLoop_spec (n : Int) (p q : Int → Int) (d : Mem)
    (hpq : ∀ i : Int, 0 ≤ i → i < n → (p i + 4 ≤ q i ∨ q i + 4 ≤ p i))
    (hap : ∀ i j : Int, 0 ≤ i → i < j → j < n →
      (p i + 4 ≤ p j ∨ p j + 4 ≤ p i) ∧ (p i + 4 ≤ q j ∨ q j + 4 ≤ p i) ∧
      (q i + 4 ≤ p j ∨ p j + 4 ≤ q i) ∧ (q i + 4 ≤ q j ∨ q j + 4 ≤ q i)) :
    (∀ i : Int, 0 ≤ i → i < n →
      readWord (forLoop n (fun i m => swapWords m (p i) (q i)) d) (p i) = readWord d (q i) ∧
      readWord (forLoop n (fun i m => swapWords m (p i) (q i)) d) (q i) = readWord d (p i)) ∧
    (∀ b : Int, (∀ i : Int, 0 ≤ i → i < n →
        (b < p i ∨ p i + 4 ≤ b) ∧ (b < q i ∨ q i + 4 ≤ b)) →
      forLoop n (fun i m => swapWords m (p i) (q i)) d b = d b) := by
  have key := forLoop_inv
    (fun (k : Int) (t : Mem) =>
      (∀ i : Int, 0 ≤ i → i < k →
        readWord t (p i) = readWord d (q i) ∧ readWord t (q i) = readWord d (p i)) ∧
      (∀ b : Int, (∀ i : Int, 0 ≤ i → i < k →
          (b < p i ∨ p i + 4 ≤ b) ∧ (b < q i ∨ q i + 4 ≤ b)) → t b = d b))
    n (fun i m => swapWords m (p i) (q i)) d
    ⟨fun i h0 h1 => by omega, fun _ _ => rfl⟩
    (by
      intro k t hk0 hk1 ⟨h1, h2⟩
      beta_reduce
      have hkk := hpq k hk0 hk1
      have fr : ∀ a : Int,
          (∀ i : Int, 0 ≤ i → i < k →
            (a + 4 ≤ p i ∨ p i + 4 ≤ a) ∧ (a + 4 ≤ q i ∨ q i + 4 ≤ a)) →
          readWord t a = readWord d a := fun a ha =>
        readWord_congr _ _ _ (fun j _ _ => h2 (a + j) (fun i hi0 hi1 => by
          have := ha i hi0 hi1
          omega))
      refine ⟨fun i hi0 hi1 => ?_, fun b hb => ?_⟩
      · by_cases hik : i = k
        · subst hik
          rw [swapWords_left _ _ _ hkk, swapWords_right]
          exact ⟨fr _ (fun j hj0 hj1 => by
              have := hap j i hj0 hj1 hk1
              omega),
            fr _ (fun j hj0 hj1 => by
              have := hap j i hj0 hj1 hk1
              omega)⟩
        · have := hap i k hi0 (by omega) hk1
          rw [swapWords_apart _ _ _ _ (by omega) (by omega),
            swapWords_apart _ _ _ _ (by omega) (by omega)]
          exact h1 i hi0 (by omega)
      · have := hb k hk0 (by omega)
        rw [swapWords_outside _ _ _ _ this.1 this.2]
        exact h2 b (fun i hi0 hi1 => hb i hi0 (by omega)))
  obtain ⟨k1, k2⟩ := key
  exact ⟨fun i hi0 hi1 => k1 i hi0 (by omega), fun b hb => k2 b (fun i hi0 hi1 =>
    hb i hi0 (by omega))⟩


/-- One row exchange of `rotate180`: row `k` and row `h - 1 - k` (a different
row) are exchanged, reversed; no other byte changes. -/
theorem swapRow_spec (t : Mem) (w h s k : Int) (hs : 4 * w ≤ s) (hk : k < h - 1 - k) :
    (∀ x : Int, 0 ≤ x → x < w →
      readWord (forLoop w (fun x m =>
          swapWords m (k * s + 4 * x) ((h - 1 - k) * s + 4 * (w - 1 - x))) t)
        (k * s + 4 * x) = readWord t ((h - 1 - k) * s + 4 * (w - 1 - x)) ∧
      readWord (forLoop w (fun x m =>
          swapWords m (k * s + 4 * x) ((h - 1 - k) * s + 4 * (w - 1 - x))) t)
        ((h - 1 - k) * s + 4 * (w - 1 - x)) = readWord t (k * s + 4 * x)) ∧
    (∀ b : Int, (∀ x : Int, 0 ≤ x → x < w →
        (b < k * s + 4 * x ∨ k * s + 4 * x + 4 ≤ b) ∧
        (b < (h - 1 - k) * s + 4 * (w - 1 - x) ∨ (h - 1 - k) * s + 4 * (w - 1 - x) + 4 ≤ b)) →
      forLoop w (fun x m =>
          swapWords m (k * s + 4 * x) ((h - 1 - k) * s + 4 * (w - 1 - x))) t b = t b) := by
  refine swapLoop_spec w (fun x => k * s + 4 * x)
    (fun x => (h - 1 - k) * s + 4 * (w - 1 - x)) t (fun i hi0 hi1 => ?_)
    (fun i j hi0 hij hj1 => ?_)
  · beta_reduce
    exact cell_apart s w i k (w - 1 - i) (h - 1 - k) hs hi0 hi1 (by omega) (by omega)
      (Or.inr (by omega))
  · beta_reduce
    refine ⟨?_, ?_, ?_, ?_⟩
    · exact cell_apart s w i k j k hs hi0 (by omega) (by omega) hj1 (Or.inl (by omega))
    · exact cell_apart s w i k (w - 1 - j) (h - 1 - k) hs hi0 (by omega) (by omega)
        (by omega) (Or.inr (by omega))
    · exact cell_apart s w (w - 1 - i) (h - 1 - k) j k hs (by omega) (by omega) (by omega)
        hj1 (Or.inr (by omega))
    · exact cell_apart s w (w - 1 - i) (h - 1 - k) (w - 1 - j) (h - 1 - k) hs (by omega)
        (by omega) (by omega) (by omega) (Or.inl (by omega))

/-- The first loop nest of `rotate180` with `K` row pairs (`2 * K ≤ h`): rows
below `K` and rows above `h - 1 - K` are exchanged, reversed; no other byte
changes. -/
theorem swapRows_spec (m : Mem) (w h s K : Int) (hs : 4 * w ≤ s) (hK : 2 * K ≤ h) :
    (∀ x y : Int, 0 ≤ x → x < w → 0 ≤ y → y < K →
      readWord (forLoop K (fun y m => forLoop w (fun x m =>
          swapWords m (y * s + 4 * x) ((h - 1 - y) * s + 4 * (w - 1 - x))) m) m)
        (y * s + 4 * x) = readWord m ((h - 1 - y) * s + 4 * (w - 1 - x)) ∧
      readWord (forLoop K (fun y m => forLoop w (fun x m =>
          swapWords m (y * s + 4 * x) ((h - 1 - y) * s + 4 * (w - 1 - x))) m) m)
        ((h - 1 - y) * s + 4 * (w - 1 - x)) = readWord m (y * s + 4 * x)) ∧
    (∀ b : Int, (∀ x y : Int, 0 ≤ x → x < w → 0 ≤ y → y < K →
        (b < y * s + 4 * x ∨ y * s + 4 * x + 4 ≤ b) ∧
        (b < (h - 1 - y) * s + 4 * (w - 1 - x) ∨ (h - 1 - y) * s + 4 * (w - 1 - x) + 4 ≤ b)) →
      forLoop K (fun y m => forLoop w (fun x m =>
          swapWords m (y * s + 4 * x) ((h - 1 - y) * s + 4 * (w - 1 - x))) m) m b = m b) := by
  have key := forLoop_inv
    (fun (k : Int) (t : Mem) =>
      (∀ x y : Int, 0 ≤ x → x < w → 0 ≤ y → y < k →
        readWord t (y * s + 4 * x) = readWord m ((h - 1 - y) * s + 4 * (w - 1 - x)) ∧
        readWord t ((h - 1 - y) * s + 4 * (w - 1 - x)) = readWord m (y * s + 4 * x)) ∧
      (∀ b : Int, (∀ x y : Int, 0 ≤ x → x < w → 0 ≤ y → y < k →
          (b < y * s + 4 * x ∨ y * s + 4 * x + 4 ≤ b) ∧
          (b < (h - 1 - y) * s + 4 * (w - 1 - x) ∨
            (h - 1 - y) * s + 4 * (w - 1 - x) + 4 ≤ b)) → t b = m b))
    K (fun y m => forLoop w (fun x m =>
      swapWords m (y * s + 4 * x) ((h - 1 - y) * s + 4 * (w - 1 - x))) m) m
    ⟨fun x y _ _ h0 h1 => by omega, fun _ _ => rfl⟩
    (by
      intro k t hk0 hk1 ⟨h1, h2⟩
      obtain ⟨r1, r2⟩ := swapRow_spec t w h s k hs (by omega)
      beta_reduce
      -- a word of the grid outside rows `k` and `h - 1 - k` is not touched by this row exchange
      have keep : ∀ X Y : Int, 0 ≤ X → X < w → Y ≠ k → Y ≠ h - 1 - k →
          readWord (forLoop w (fun x m =>
            swapWords m (k * s + 4 * x) ((h - 1 - k) * s + 4 * (w - 1 - x))) t)
            (Y * s + 4 * X) = readWord t (Y * s + 4 * X) := by
        intro X Y hX0 hX1 hYk hYk'
        refine readWord_congr _ _ _ (fun j hj0 hj4 => r2 _ (fun x hx0 hx1 => ?_))
        have a1 := cell_apart s w X Y x k hs hX0 hX1 hx0 hx1 (Or.inr hYk)
        have a2 := cell_apart s w X Y (w - 1 - x) (h - 1 - k) hs hX0 hX1 (by omega) (by omega)
          (Or.inr hYk')
        omega
      -- a word of rows `k` or `h - 1 - k` still has its original value before this exchange
      have orig : ∀ X Y : Int, 0 ≤ X → X < w → (Y = k ∨ Y = h - 1 - k) →
          readWord t (Y * s + 4 * X) = readWord m (Y * s + 4 * X) := by
        intro X Y hX0 hX1 hY
        refine readWord_congr _ _ _ (fun j hj0 hj4 => h2 _ (fun x y hx0 hx1 hy0 hy1 => ?_))
        have a1 := cell_apart s w X Y x y hs hX0 hX1 hx0 hx1 (Or.inr (by omega))
        have a2 := cell_apart s w X Y (w - 1 - x) (h - 1 - y) hs hX0 hX1 (by omega) (by omega)
          (Or.inr (by omega))
        omega
      refine ⟨fun x y hx0 hx1 hy0 hy1 => ?_, fun b hb => ?_⟩
      · by_cases hyk : y = k
        · subst hyk
          rw [(r1 x hx0 hx1).1, (r1 x hx0 hx1).2]
          exact ⟨orig (w - 1 - x) (h - 1 - y) (by omega) (by omega) (Or.inr rfl),
            orig x y hx0 hx1 (Or.inl rfl)⟩
        · rw [keep x y hx0 hx1 hyk (by omega),
            keep (w - 1 - x) (h - 1 - y) (by omega) (by omega) (by omega) (by omega)]
          exact h1 x y hx0 hx1 hy0 (by omega)
      · rw [r2 b (fun x hx0 hx1 => hb x k hx0 hx1 hk0 (by omega))]
        exact h2 b (fun x y hx0 hx1 hy0 hy1 => hb x y hx0 hx1 hy0 (by omega)))
  obtain ⟨k1, k2⟩ := key
  exact ⟨fun x y hx0 hx1 hy0 hy1 => k1 x y hx0 hx1 hy0 (by omega),
    fun b hb => k2 b (fun x y hx0 hx1 hy0 hy1 => hb x y hx0 hx1 hy0 (by omega))⟩


/-- The middle-row loop of `rotate180` with `N` exchanges (`2 * N ≤ w`): the
row at offset `R` is reversed in place; no other byte changes. -/
theorem swapMid_spec (t : Mem) (w R N : Int) (hN : 2 * N ≤ w) :
    (∀ x : Int, 0 ≤ x → x < N →
      readWord (forLoop N (fun x m => swapWords m (R + 4 * x) (R + 4 * (w - 1 - x))) t)
        (R + 4 * x) = readWord t (R + 4 * (w - 1 - x)) ∧
      readWord (forLoop N (fun x m => swapWords m (R + 4 * x) (R + 4 * (w - 1 - x))) t)
        (R + 4 * (w - 1 - x)) = readWord t (R + 4 * x)) ∧
    (∀ b : Int, (∀ x : Int, 0 ≤ x → x < N →
        (b < R + 4 * x ∨ R + 4 * x + 4 ≤ b) ∧
        (b < R + 4 * (w - 1 - x) ∨ R + 4 * (w - 1 - x) + 4 ≤ b)) →
      forLoop N (fun x m => swapWords m (R + 4 * x) (R + 4 * (w - 1 - x))) t b = t b) := by
  refine swapLoop_spec N (fun x => R + 4 * x) (fun x => R + 4 * (w - 1 - x)) t
    (fun i hi0 hi1 => ?_) (fun i j hi0 hij hj1 => ?_)
  · beta_reduce; omega
  · beta_reduce; omega

/-- The pixel grid after `rotate180`: the pixel in column `x` of row `y` is the
original pixel in column `w - 1 - x` of row `h - 1 - y`. -/
theorem rotate180_pixel (m : Mem) (w h s : Int) (hs : 4 * w ≤ s) (x y : Int)
    (hx0 : 0 ≤ x) (hx1 : x < w) (hy0 : 0 ≤ y) (hy1 : y < h) :
    pixelAt (rotate180 m w h s) s x y = pixelAt m s (w - 1 - x) (h - 1 - y) := by
  have hH : Int.tdiv h 2 = h / 2 := Int.tdiv_eq_ediv (by omega) (by omega)
  have hM : Int.tmod h 2 = h % 2 := Int.tmod_eq_emod (by omega) (by omega)
  have hW : Int.tdiv w 2 = w / 2 := Int.tdiv_eq_ediv (by omega) (by omega)
  obtain ⟨R1, R2⟩ := swapRows_spec m w h s (h / 2) hs (by omega)
  unfold pixelAt rotate180 rotate180Rows
  simp only [hH, hM, hW]
  generalize hR : forLoop (h / 2) (fun y m => forLoop w (fun x m =>
    swapWords m (y * s + 4 * x) ((h - 1 - y) * s + 4 * (w - 1 - x))) m) m = R at R1 R2 ⊢
  -- rows other than the middle one
  have rowsPix : ∀ X Y : Int, 0 ≤ X → X < w → 0 ≤ Y → Y < h → (Y ≠ h / 2 ∨ h % 2 = 0) →
      readWord R (Y * s + 4 * X) = readWord m ((h - 1 - Y) * s + 4 * (w - 1 - X)) := by
    intro X Y hX0 hX1 hY0 hY1 hY
    by_cases hlt : Y < h / 2
    · exact (R1 X Y hX0 hX1 hY0 hlt).1
    · have := (R1 (w - 1 - X) (h - 1 - Y) (by omega) (by omega) (by omega) (by omega)).2
      have e1 : h - 1 - (h - 1 - Y) = Y := by omega
      have e2 : w - 1 - (w - 1 - X) = X := by omega
      rw [e1, e2] at this
      exact this
  -- the middle row of an image of odd height is untouched by the first loop nest
  have midOrig : h % 2 = 1 → ∀ X : Int, 0 ≤ X → X < w →
      readWord R (h / 2 * s + 4 * X) = readWord m (h / 2 * s + 4 * X) := by
    intro hodd X hX0 hX1
    refine readWord_congr _ _ _ (fun j hj0 hj4 => R2 _ (fun x' y' hx0' hx1' hy0' hy1' => ?_))
    have a1 := cell_apart s w X (h / 2) x' y' hs hX0 hX1 hx0' hx1' (Or.inr (by omega))
    have a2 := cell_apart s w X (h / 2) (w - 1 - x') (h - 1 - y') hs hX0 hX1 (by omega)
      (by omega) (Or.inr (by omega))
    omega
  split
  · rename_i hodd
    obtain ⟨M1, M2⟩ := swapMid_spec R w (h / 2 * s) (w / 2) (by omega)
    by_cases hy : y = h / 2
    · subst hy
      have e3 : h - 1 - h / 2 = h / 2 := by omega
      rw [e3]
      rcases lt_trichotomy x (w - 1 - x) with hlt | heq | hgt
      · rw [(M1 x hx0 (by omega)).1]
        exact midOrig hodd _ (by omega) (by omega)
      · rw [← heq]
        rw [← midOrig hodd x hx0 hx1]
        refine readWord_congr _ _ _ (fun j hj0 hj4 => M2 _ (fun x' hx0' hx1' => ?_))
        omega
      · have := (M1 (w - 1 - x) (by omega) (by omega)).2
        have e2 : w - 1 - (w - 1 - x) = x := by omega
        rw [e2] at this
        rw [this]
        exact midOrig hodd _ (by omega) (by omega)
    · rw [← rowsPix x y hx0 hx1 hy0 hy1 (Or.inl hy)]
      refine readWord_congr _ _ _ (fun j hj0 hj4 => M2 _ (fun x' hx0' hx1' => ?_))
      have a1 := cell_apart s w x y x' (h / 2) hs hx0 hx1 hx0' (by omega) (Or.inr hy)
      have a2 := cell_apart s w x y (w - 1 - x') (h / 2) hs hx0 hx1 (by omega) (by omega)
        (Or.inr hy)
      omega
  · rename_i heven
    exact rowsPix x y hx0 hx1 hy0 hy1 (Or.inr (by omega))

/-- A traced loop of exchanges whose words are pairwise disjoint and disjoint
from the words written before the loop: the buffer is that of the plain loop,
the record grows by the words of the loop, and freshness is kept. -/
theorem swapLoopTraced_spec (n : Int) (p q : Int → Int) (t0 : Traced)
    (hap : ∀ i j : Int, 0 ≤ i → i < j → j < n →
      (p i + 4 ≤ p j ∨ p j + 4 ≤ p i) ∧ (p i + 4 ≤ q j ∨ q j + 4 ≤ p i) ∧
      (q i + 4 ≤ p j ∨ p j + 4 ≤ q i) ∧ (q i + 4 ≤ q j ∨ q j + 4 ≤ q i))
    (h0 : ∀ a ∈ t0.written, ∀ j : Int, 0 ≤ j → j < n →
      (a + 4 ≤ p j ∨ p j + 4 ≤ a) ∧ (a + 4 ≤ q j ∨ q j + 4 ≤ a)) :
    (forLoop n (fun i t => swapWordsTraced t (p i) (q i)) t0).mem
      = forLoop n (fun i m => swapWords m (p i) (q i)) t0.mem ∧
    (∀ a ∈ (forLoop n (fun i t => swapWordsTraced t (p i) (q i)) t0).written,
      a ∈ t0.written ∨ ∃ i : Int, 0 ≤ i ∧ i < n ∧ (a = p i ∨ a = q i)) ∧
    (forLoop n (fun i t => swapWordsTraced t (p i) (q i)) t0).fresh = t0.fresh := by
  have key := forLoop_inv
    (fun (k : Int) (t : Traced) =>
      t.mem = forLoop k (fun i m => swapWords m (p i) (q i)) t0.mem ∧
      (∀ a ∈ t.written, a ∈ t0.written ∨ ∃ i : Int, 0 ≤ i ∧ i < k ∧ (a = p i ∨ a = q i)) ∧
      t.fresh = t0.fresh)
    n (fun i t => swapWordsTraced t (p i) (q i)) t0
    ⟨(forLoop_of_nonpos 0 _ _ le_rfl).symm, fun a ha => Or.inl ha, rfl⟩
    (by
      intro k t hk0 hk1 ⟨h1, h2, h3⟩
      beta_reduce
      refine ⟨?_, ?_, ?_⟩
      · rw [forLoop_succ_int k hk0]
        show swapWords t.mem (p k) (q k) = _
        rw [h1]
      · intro a ha
        have ha' : a = q k ∨ a = p k ∨ a ∈ t.written := by
          simpa [swapWordsTraced] using ha
        rcases ha' with h | h | h
        · exact Or.inr ⟨k, hk0, by omega, Or.inr h⟩
        · exact Or.inr ⟨k, hk0, by omega, Or.inl h⟩
        · rcases h2 a h with h' | ⟨i, hi0, hi1, hi⟩
          · exact Or.inl h'
          · exact Or.inr ⟨i, hi0, by omega, hi⟩
      · show (t.fresh && t.written.all _) = t0.fresh
        rw [h3]
        have hall : t.written.all (fun a =>
            decide ((a + 4 ≤ p k ∨ p k + 4 ≤ a) ∧ (a + 4 ≤ q k ∨ q k + 4 ≤ a))) = true := by
          rw [List.all_eq_true]
          intro a ha
          rw [decide_eq_true_eq]
          rcases h2 a ha with h' | ⟨i, hi0, hi1, hi⟩
          · exact h0 a h' k hk0 hk1
          · have := hap i k hi0 hi1 hk1
            rcases hi with rfl | rfl <;> omega
        rw [hall, Bool.and_true])
  obtain ⟨k1, k2, k3⟩ := key
  rw [forLoop_max] at k1
  refine ⟨k1, fun a ha => ?_, k3⟩
  rcases k2 a ha with h | ⟨i, hi0, hi1, hi⟩
  · exact Or.inl h
  · exact Or.inr ⟨i, hi0, by omega, hi⟩


/-- The truncating half `h / 2` and remainder `h % 2` of C++: the half of a
negative number is not positive, and the remainder is 1 only for positive odd
numbers. -/
theorem tdiv_two_facts (h : Int) :
    (2 * Int.tdiv h 2 ≤ h ∨ Int.tdiv h 2 ≤ 0) ∧
    (Int.tmod h 2 = 1 → h = 2 * Int.tdiv h 2 + 1 ∧ 0 < h) ∧
    (0 ≤ h → Int.tmod h 2 ≠ 1 → h = 2 * Int.tdiv h 2) := by
  rcases le_or_lt 0 h with hh | hh
  · have e1 : Int.tdiv h 2 = h / 2 := Int.tdiv_eq_ediv hh (by omega)
    have e2 : Int.tmod h 2 = h % 2 := Int.tmod_eq_emod hh (by omega)
    rw [e1, e2]
    omega
  · have e0 : Int.tdiv h 2 = -((-h) / 2) := by
      have e := Int.neg_tdiv (-h) 2
      rw [neg_neg] at e
      have e' : Int.tdiv (-h) 2 = (-h) / 2 := Int.tdiv_eq_ediv (by omega) (by omega)
      rw [e, e']
    have e1 := Int.tmod_add_tdiv h 2
    rw [e0] at e1 ⊢
    omega

/-- The words exchanged in row `k` and row `h - 1 - k` (a different row) at
two different steps are pairwise disjoint. -/
theorem rowPair_apart (s w h k i j : Int) (hs : 4 * w ≤ s) (hk : k < h - 1 - k)
    (hi0 : 0 ≤ i) (hij : i < j) (hj1 : j < w) :
    (k * s + 4 * i + 4 ≤ k * s + 4 * j ∨ k * s + 4 * j + 4 ≤ k * s + 4 * i) ∧
    (k * s + 4 * i + 4 ≤ (h - 1 - k) * s + 4 * (w - 1 - j) ∨
      (h - 1 - k) * s + 4 * (w - 1 - j) + 4 ≤ k * s + 4 * i) ∧
    ((h - 1 - k) * s + 4 * (w - 1 - i) + 4 ≤ k * s + 4 * j ∨
      k * s + 4 * j + 4 ≤ (h - 1 - k) * s + 4 * (w - 1 - i)) ∧
    ((h - 1 - k) * s + 4 * (w - 1 - i) + 4 ≤ (h - 1 - k) * s + 4 * (w - 1 - j) ∨
      (h - 1 - k) * s + 4 * (w - 1 - j) + 4 ≤ (h - 1 - k) * s + 4 * (w - 1 - i)) :=
  ⟨cell_apart s w i k j k hs hi0 (by omega) (by omega) hj1 (Or.inl (by omega)),
    cell_apart s w i k (w - 1 - j) (h - 1 - k) hs hi0 (by omega) (by omega) (by omega)
      (Or.inr (by omega)),
    cell_apart s w (w - 1 - i) (h - 1 - k) j k hs (by omega) (by omega) (by omega) hj1
      (Or.inr (by omega)),
    cell_apart s w (w - 1 - i) (h - 1 - k) (w - 1 - j) (h - 1 - k) hs (by omega) (by omega)
      (by omega) (by omega) (Or.inl (by omega))⟩

/-- The traced first loop nest of `rotate180` with `K` row pairs: the buffer is
that of the plain loop nest, only words of rows below `K` or above
`h - 1 - K` are recorded, and every read is fresh. -/
theorem swapRowsTraced_spec (m : Mem) (w h s K : Int) (hs : 4 * w ≤ s)
    (hK : 2 * K ≤ h ∨ K ≤ 0) :
    (forLoop K (fun y t => forLoop w (fun x t =>
        swapWordsTraced t (y * s + 4 * x) ((h - 1 - y) * s + 4 * (w - 1 - x))) t)
        { mem := m, written := [], fresh := true }).mem
      = forLoop K (fun y m => forLoop w (fun x m =>
        swapWords m (y * s + 4 * x) ((h - 1 - y) * s + 4 * (w - 1 - x))) m) m ∧
    (∀ a ∈ (forLoop K (fun y t => forLoop w (fun x t =>
        swapWordsTraced t (y * s + 4 * x) ((h - 1 - y) * s + 4 * (w - 1 - x))) t)
        { mem := m, written := [], fresh := true }).written,
      ∃ X Y : Int, 0 ≤ X ∧ X < w ∧ ((0 ≤ Y ∧ Y < K) ∨ (h - 1 - K < Y ∧ Y ≤ h - 1)) ∧
        a = Y * s + 4 * X) ∧
    (forLoop K (fun y t => forLoop w (fun x t =>
        swapWordsTraced t (y * s + 4 * x) ((h - 1 - y) * s + 4 * (w - 1 - x))) t)
        { mem := m, written := [], fresh := true }).fresh = true := by
  have key := forLoop_inv
    (fun (k : Int) (t : Traced) =>
      t.mem = forLoop k (fun y m => forLoop w (fun x m =>
        swapWords m (y * s + 4 * x) ((h - 1 - y) * s + 4 * (w - 1 - x))) m) m ∧
      (∀ a ∈ t.written, ∃ X Y : Int, 0 ≤ X ∧ X < w ∧
        ((0 ≤ Y ∧ Y < k) ∨ (h - 1 - k < Y ∧ Y ≤ h - 1)) ∧ a = Y * s + 4 * X) ∧
      t.fresh = true)
    K (fun y t => forLoop w (fun x t =>
      swapWordsTraced t (y * s + 4 * x) ((h - 1 - y) * s + 4 * (w - 1 - x))) t)
    { mem := m, written := [], fresh := true }
    ⟨(forLoop_of_nonpos 0 _ _ le_rfl).symm, fun a ha => by simp at ha, rfl⟩
    (by
      intro k t hk0 hk1 ⟨h1, h2, h3⟩
      have hkk : k < h - 1 - k := by omega
      obtain ⟨r1, r2, r3⟩ := swapLoopTraced_spec w (fun x => k * s + 4 * x)
        (fun x => (h - 1 - k) * s + 4 * (w - 1 - x)) t
        (fun i j hi0 hij hj1 => rowPair_apart s w h k i j hs hkk hi0 hij hj1)
        (fun a ha j hj0 hj1 => by
          obtain ⟨X, Y, hX0, hX1, hY, rfl⟩ := h2 a ha
          beta_reduce
          have a1 := cell_apart s w X Y j k hs hX0 hX1 hj0 hj1 (Or.inr (by omega))
          have a2 := cell_apart s w X Y (w - 1 - j) (h - 1 - k) hs hX0 hX1 (by omega)
            (by omega) (Or.inr (by omega))
          omega)
      beta_reduce at r1 r2 r3 ⊢
      refine ⟨?_, ?_, ?_⟩
      · rw [forLoop_succ_int k hk0, r1, h1]
      · intro a ha
        rcases r2 a ha with h' | ⟨i, hi0, hi1, hi⟩
        · obtain ⟨X, Y, hX0, hX1, hY, rfl⟩ := h2 a h'
          exact ⟨X, Y, hX0, hX1, by omega, rfl⟩
        · rcases hi with rfl | rfl
          · exact ⟨i, k, hi0, hi1, by omega, rfl⟩
          · exact ⟨w - 1 - i, h - 1 - k, by omega, by omega, by omega, rfl⟩
      · rw [r3, h3])
  obtain ⟨k1, k2, k3⟩ := key
  rw [forLoop_max] at k1
  refine ⟨k1, fun a ha => ?_, k3⟩
  obtain ⟨X, Y, hX0, hX1, hY, rfl⟩ := k2 a ha
  exact ⟨X, Y, hX0, hX1, by omega, rfl⟩

/-- The pass of `rotate180` reads no word that it has written before: the
traced pass computes the same buffer as `rotate180` and keeps every read fresh. -/
theorem rotate180Traced_spec (m : Mem) (w h s : Int) (hs : 4 * w ≤ s) :
    (rotate180Traced m w h s).mem = rotate180 m w h s ∧
    (rotate180Traced m w h s).fresh = true := by
  obtain ⟨hK, hodd, _⟩ := tdiv_two_facts h
  obtain ⟨hN, _, _⟩ := tdiv_two_facts w
  obtain ⟨R1, R2, R3⟩ := swapRowsTraced_spec m w h s (Int.tdiv h 2) hs hK
  unfold rotate180Traced rotate180 rotate180Rows
  simp only []
  split
  · rename_i ho
    obtain ⟨e1, e2⟩ := hodd ho
    obtain ⟨M1, _, M3⟩ := swapLoopTraced_spec (Int.tdiv w 2)
      (fun x => Int.tdiv h 2 * s + 4 * x) (fun x => Int.tdiv h 2 * s + 4 * (w - 1 - x))
      (forLoop (Int.tdiv h 2) (fun y t => forLoop w (fun x t =>
        swapWordsTraced t (y * s + 4 * x) ((h - 1 - y) * s + 4 * (w - 1 - x))) t)
        { mem := m, written := [], fresh := true })
      (fun i j hi0 hij hj1 => by beta_reduce; omega)
      (fun a ha j hj0 hj1 => by
        obtain ⟨X, Y, hX0, hX1, hY, rfl⟩ := R2 a ha
        beta_reduce
        have a1 := cell_apart s w X Y j (Int.tdiv h 2) hs hX0 hX1 hj0 (by omega)
          (Or.inr (by omega))
        have a2 := cell_apart s w X Y (w - 1 - j) (Int.tdiv h 2) hs hX0 hX1 (by omega)
          (by omega) (Or.inr (by omega))
        omega)
    exact ⟨by rw [M1, R1], by rw [M3, R3]⟩
  · exact ⟨R1, R3⟩

/-- Claim C2: for every image of width `w` and height `h` with
`stride ≥ 4 * w`, after `rotate180` the pixel in column `x` of row `y` equals
the original pixel in column `w - 1 - x` of row `h - 1 - y`, for all
`0 ≤ x < w` and `0 ≤ y < h`, for even and for odd heights; the center pixel of
an odd-by-odd image keeps its value; and the pass reads no word that it has
already written (the traced pass computes the same buffer and every one of its
reads is fresh). -/
theorem rotate180_mapping (m : Mem) (w h s : Int) (hs : 4 * w ≤ s) :
    (∀ x y : Int, 0 ≤ x → x < w → 0 ≤ y → y < h →
      pixelAt (rotate180 m w h s) s x y = pixelAt m s (w - 1 - x) (h - 1 - y)) ∧
    (0 < w → 0 < h → w % 2 = 1 → h % 2 = 1 →
      pixelAt (rotate180 m w h s) s (w / 2) (h / 2) = pixelAt m s (w / 2) (h / 2)) ∧
    ((rotate180Traced m w h s).mem = rotate180 m w h s ∧
      (rotate180Traced m w h s).fresh = true) := by
  refine ⟨fun x y hx0 hx1 hy0 hy1 => rotate180_pixel m w h s hs x y hx0 hx1 hy0 hy1,
    fun hw hh hwo hho => ?_, rotate180Traced_spec m w h s hs⟩
  have e := rotate180_pixel m w h s hs (w / 2) (h / 2) (by omega) (by omega) (by omega)
    (by omega)
  have e1 : w - 1 - w / 2 = w / 2 := by omega
  have e2 : h - 1 - h / 2 = h / 2 := by omega
  rw [e1, e2] at e
  exact e

theorem rotate180_mapping_witness :
    (4 : Int) * 3 ≤ 12 ∧
    ((∀ x y : Int, 0 ≤ x → x < 3 → 0 ≤ y → y < 3 →
      pixelAt (rotate180 sampleMem 3 3 12) 12 x y
        = pixelAt sampleMem 12 (3 - 1 - x) (3 - 1 - y)) ∧
    ((0 : Int) < 3 → (0 : Int) < 3 → (3 : Int) % 2 = 1 → (3 : Int) % 2 = 1 →
      pixelAt (rotate180 sampleMem 3 3 12) 12 (3 / 2) (3 / 2)
        = pixelAt sampleMem 12 (3 / 2) (3 / 2)) ∧
    ((rotate180Traced sampleMem 3 3 12).mem = rotate180 sampleMem 3 3 12 ∧
      (rotate180Traced sampleMem 3 3 12).fresh = true)) :=
  ⟨by decide, rotate180_mapping sampleMem 3 3 12 (by decide)⟩

/-- Claim C3: for every image with `stride ≥ 4 * width`, of any width and
height (both parities), applying `rotate180` twice yields a buffer whose pixel
grid is identical to the original. -/
theorem rotate180_involutive (m : Mem) (w h s : Int) (hs : 4 * w ≤ s) (x y : Int)
    (hx0 : 0 ≤ x) (hx1 : x < w) (hy0 : 0 ≤ y) (hy1 : y < h) :
    pixelAt (rotate180 (rotate180 m w h s) w h s) s x y = pixelAt m s x y := by
  rw [rotate180_pixel _ w h s hs x y hx0 hx1 hy0 hy1,
    rotate180_pixel m w h s hs (w - 1 - x) (h - 1 - y) (by omega) (by omega) (by omega)
      (by omega)]
  have e1 : w - 1 - (w - 1 - x) = x := by omega
  have e2 : h - 1 - (h - 1 - y) = y := by omega
  rw [e1, e2]

theorem rotate180_involutive_witness :
    ((4 : Int) * 3 ≤ 12 ∧ (0 : Int) ≤ 2 ∧ (2 : Int) < 3 ∧ (0 : Int) ≤ 1 ∧ (1 : Int) < 2) ∧
    pixelAt (rotate180 (rotate180 sampleMem 3 2 12) 3 2 12) 12 2 1
      = pixelAt sampleMem 12 2 1 :=
  ⟨by decide, rotate180_involutive sampleMem 3 2 12 (by decide) 2 1 (by decide) (by decide)
    (by decide) (by decide)⟩

/-! ## The pixel codec is a bijection -/

theorem makeARGB_getARGB (p : Nat) (hp : p < 4294967296) :
    makeARGB (getARGB p).1 (getARGB p).2.1 (getARGB p).2.2.1 (getARGB p).2.2.2 = p := by
  rw [getARGB_eq]
  simp only []
  rw [makeARGB_eq _ _ _ _ (by omega) (by omega) (by omega) (by omega)]
  omega

/-- Claim C17: the pixel codec is a bijection between 32-bit words and channel
4-tuples: `makeARGB (getARGB p) = p` for every 32-bit `p`, and
`getARGB (makeARGB a r g b) = (a, r, g, b)` for all channel values in
`[0, 255]`; alpha occupies bits 24..31, red bits 16..23, green bits 8..15 and
blue bits 0..7. -/
theorem codec_bijection :
    (∀ p : Nat, p < 4294967296 →
      makeARGB (getARGB p).1 (getARGB p).2.1 (getARGB p).2.2.1 (getARGB p).2.2.2 = p) ∧
    (∀ a r g b : Nat, a < 256 → r < 256 → g < 256 → b < 256 →
      getARGB (makeARGB a r g b) = (a, r, g, b)) ∧
    (∀ a r g b : Nat, a < 256 → r < 256 → g < 256 → b < 256 →
      makeARGB a r g b = a * 2 ^ 24 + r * 2 ^ 16 + g * 2 ^ 8 + b) ∧
    (∀ p : Nat, getARGB p
      = (p / 2 ^ 24 % 2 ^ 8, p / 2 ^ 16 % 2 ^ 8, p / 2 ^ 8 % 2 ^ 8, p % 2 ^ 8)) :=
  ⟨makeARGB_getARGB, getARGB_makeARGB,
    fun a r g b ha hr hg hb => by rw [makeARGB_eq a r g b ha hr hg hb]; norm_num,
    fun p => by rw [getARGB_eq]; norm_num⟩

theorem codec_bijection_witness :
    ((305419896 : Nat) < 4294967296 ∧ (18 : Nat) < 256 ∧ (52 : Nat) < 256 ∧ (86 : Nat) < 256 ∧
      (120 : Nat) < 256) ∧
    makeARGB (getARGB 305419896).1 (getARGB 305419896).2.1 (getARGB 305419896).2.2.1
      (getARGB 305419896).2.2.2 = 305419896 ∧
    getARGB (makeARGB 18 52 86 120) = (18, 52, 86, 120) :=
  ⟨by decide, codec_bijection.1 305419896 (by decide),
    codec_bijection.2.1 18 52 86 120 (by decide) (by decide) (by decide) (by decide)⟩

/-! ## Brightness saturates -/

theorem getARGB_lt (p : Nat) :
    (getARGB p).1 < 256 ∧ (getARGB p).2.1 < 256 ∧ (getARGB p).2.2.1 < 256 ∧
      (getARGB p).2.2.2 < 256 := by
  rw [getARGB_eq]
  simp only []
  omega

/-- The channel computed by `adjustBrightness`, when `c + factor` fits an `int`. -/
theorem brightness_channel (c : Nat) (factor : Int) (_hc : c ≤ 255)
    (hlo : -2147483648 ≤ (c : Int) + factor) (hhi : (c : Int) + factor ≤ 2147483647) :
    (255 < (c : Int) + factor → clamp (wrapInt ((c : Int) + factor)) = 255) ∧
    ((c : Int) + factor < 0 → clamp (wrapInt ((c : Int) + factor)) = 0) ∧
    (0 ≤ (c : Int) + factor → (c : Int) + factor ≤ 255 →
      ((clamp (wrapInt ((c : Int) + factor)) : Nat) : Int) = (c : Int) + factor) := by
  have hw : wrapInt ((c : Int) + factor) = (c : Int) + factor := by
    unfold wrapInt; omega
  rw [hw]
  unfold clamp toU8
  refine ⟨fun h => ?_, fun h => ?_, fun h0 h1 => ?_⟩ <;> omega

theorem brightnessPixel_def (factor : Int) (p : Nat) :
    brightnessPixel factor p = makeARGB (getARGB p).1
      (clamp (wrapInt (((getARGB p).2.1 : Int) + factor)))
      (clamp (wrapInt (((getARGB p).2.2.1 : Int) + factor)))
      (clamp (wrapInt (((getARGB p).2.2.2 : Int) + factor))) := rfl

/-- Claim C12: `adjustBrightness` replaces every channel `c` of every pixel of
the grid by `clamp (c + factor)`, the alpha staying; when `c + factor` does not
overflow a 32-bit `int` this value is 255 for `c + factor > 255`, 0 for
`c + factor < 0` and `c + factor` otherwise (saturated, never wrapped modulo
256); factor 300 on `r = 200` yields 255. -/
theorem adjustBrightness_saturates (m : Mem) (width height stride factor : Int)
    (hs : 4 * width ≤ stride) (x y : Int) (hx0 : 0 ≤ x) (hx1 : x < width) (hy0 : 0 ≤ y)
    (hy1 : y < height) :
    getARGB (pixelAt (adjustBrightness m width height stride factor) stride x y)
      = ((getARGB (pixelAt m stride x y)).1,
        clamp (wrapInt (((getARGB (pixelAt m stride x y)).2.1 : Int) + factor)),
        clamp (wrapInt (((getARGB (pixelAt m stride x y)).2.2.1 : Int) + factor)),
        clamp (wrapInt (((getARGB (pixelAt m stride x y)).2.2.2 : Int) + factor))) ∧
    (∀ (c : Nat) (f : Int), c ≤ 255 → -2147483648 ≤ (c : Int) + f →
      (c : Int) + f ≤ 2147483647 →
      (255 < (c : Int) + f → clamp (wrapInt ((c : Int) + f)) = 255) ∧
      ((c : Int) + f < 0 → clamp (wrapInt ((c : Int) + f)) = 0) ∧
      (0 ≤ (c : Int) + f → (c : Int) + f ≤ 255 →
        ((clamp (wrapInt ((c : Int) + f)) : Nat) : Int) = (c : Int) + f)) ∧
    clamp (wrapInt (((200 : Nat) : Int) + 300)) = 255 := by
  refine ⟨?_, brightness_channel, ?_⟩
  · have e : pixelAt (adjustBrightness m width height stride factor) stride x y
        = brightnessPixel factor (pixelAt m stride x y) := by
      unfold pixelAt
      exact (mapPixels_pixel (brightnessPixel factor) m width height stride hs x y hx0 hx1
        hy0 hy1).trans (Nat.mod_eq_of_lt (brightnessPixel_alpha factor _).1)
    rw [e, brightnessPixel_def]
    exact getARGB_makeARGB _ _ _ _ (alpha_lt _) (clamp_lt _) (clamp_lt _) (clamp_lt _)
  · exact (brightness_channel 200 300 (by decide) (by decide) (by decide)).1 (by decide)

theorem adjustBrightness_saturates_witness :
    ((4 : Int) * 2 ≤ 12 ∧ (0 : Int) ≤ 1 ∧ (1 : Int) < 2 ∧ (0 : Int) ≤ 1 ∧ (1 : Int) < 2) ∧
    getARGB (pixelAt (adjustBrightness sampleMem 2 2 12 300) 12 1 1)
      = ((getARGB (pixelAt sampleMem 12 1 1)).1,
        clamp (wrapInt (((getARGB (pixelAt sampleMem 12 1 1)).2.1 : Int) + 300)),
        clamp (wrapInt (((getARGB (pixelAt sampleMem 12 1 1)).2.2.1 : Int) + 300)),
        clamp (wrapInt (((getARGB (pixelAt sampleMem 12 1 1)).2.2.2 : Int) + 300))) :=
  ⟨by decide, (adjustBrightness_saturates sampleMem 2 2 12 300 (by decide) 1 1 (by decide)
    (by decide) (by decide) (by decide)).1⟩

/-! ## Contrast 2.0 -/

/-- With the `float` factor 2.0 the expression `(c - 128) * factor + 128`
evaluates to `2 * c - 128` for every channel value. -/
theorem contrastFloat_two :
    ∀ c : Nat, c < 256 →
      Option.map truncate (contrastFloat (lit binary32 2 1) c) = some (2 * (c : Int) - 128) := by
  decide!

theorem contrastValue_two (undef : FloatVal → Int) (c : Nat) (hc : c < 256) :
    contrastValue undef (lit binary32 2 1) c = ((c : Int) - 128) * 2 + 128 := by
  have h := contrastFloat_two c hc
  unfold contrastValue toInt
  cases hq : contrastFloat (lit binary32 2 1) c with
  | none => rw [hq] at h; simp at h
  | some q =>
    rw [hq] at h
    simp only [Option.map_some', Option.some.injEq] at h
    simp only [h]
    rw [if_pos (by omega)]
    omega

theorem contrastPixel_def (undef : FloatVal → Int) (factor : FloatVal) (p : Nat) :
    contrastPixel undef factor p = makeARGB (getARGB p).1
      (clamp (contrastValue undef factor (getARGB p).2.1))
      (clamp (contrastValue undef factor (getARGB p).2.2.1))
      (clamp (contrastValue undef factor (getARGB p).2.2.2)) := rfl

/-- Claim C13: with the contrast factor 2.0 `adjustContrast` replaces every
channel `c` of every pixel of the grid by `clamp ((c - 128) * 2 + 128)`, which
is `clamp (2 * c - 128)`; `c = 200` yields 255 and every `c ≤ 64` yields 0. -/
theorem adjustContrast_two (undef : FloatVal → Int) (m : Mem) (width height stride : Int)
    (hs : 4 * width ≤ stride) (x y : Int) (hx0 : 0 ≤ x) (hx1 : x < width) (hy0 : 0 ≤ y)
    (hy1 : y < height) :
    getARGB (pixelAt (adjustContrast undef m width height stride (lit binary32 2 1)) stride x y)
      = ((getARGB (pixelAt m stride x y)).1,
        clamp ((((getARGB (pixelAt m stride x y)).2.1 : Int) - 128) * 2 + 128),
        clamp ((((getARGB (pixelAt m stride x y)).2.2.1 : Int) - 128) * 2 + 128),
        clamp ((((getARGB (pixelAt m stride x y)).2.2.2 : Int) - 128) * 2 + 128)) ∧
    (∀ c : Nat, c ≤ 255 →
      clamp (contrastValue undef (lit binary32 2 1) c) = clamp (((c : Int) - 128) * 2 + 128) ∧
      clamp (((c : Int) - 128) * 2 + 128) = clamp (2 * (c : Int) - 128)) ∧
    clamp (contrastValue undef (lit binary32 2 1) 200) = 255 ∧
    (∀ c : Nat, c ≤ 64 → clamp (contrastValue undef (lit binary32 2 1) c) = 0) := by
  refine ⟨?_, fun c hc => ⟨by rw [contrastValue_two undef c (by omega)], ?_⟩, ?_,
    fun c hc => ?_⟩
  · have e : pixelAt (adjustContrast undef m width height stride (lit binary32 2 1)) stride x y
        = contrastPixel undef (lit binary32 2 1) (pixelAt m stride x y) := by
      unfold pixelAt
      exact (mapPixels_pixel (contrastPixel undef (lit binary32 2 1)) m width height stride hs
        x y hx0 hx1 hy0 hy1).trans (Nat.mod_eq_of_lt (contrastPixel_alpha undef _ _).1)
    obtain ⟨_, h1, h2, h3⟩ := getARGB_lt (pixelAt m stride x y)
    rw [e, contrastPixel_def, contrastValue_two undef _ h1, contrastValue_two undef _ h2,
      contrastValue_two undef _ h3]
    exact getARGB_makeARGB _ _ _ _ (alpha_lt _) (clamp_lt _) (clamp_lt _) (clamp_lt _)
  · congr 1; ring
  · rw [contrastValue_two undef 200 (by decide)]; decide
  · rw [contrastValue_two undef c (by omega)]
    unfold clamp toU8
    omega

theorem adjustContrast_two_witness :
    ((4 : Int) * 2 ≤ 12 ∧ (0 : Int) ≤ 1 ∧ (1 : Int) < 2 ∧ (0 : Int) ≤ 1 ∧ (1 : Int) < 2) ∧
    clamp (contrastValue undefZero (lit binary32 2 1) 200) = 255 :=
  ⟨by decide, (adjustContrast_two undefZero sampleMem 2 2 12 (by decide) 1 1 (by decide)
    (by decide) (by decide) (by decide)).2.2.1⟩

/-! ## Two quarter turns make a half turn -/

/-- Claim C18: for every image of width `w` and height `h`, applying
`rotate90CW` twice (the second time with width `h` and height `w`) produces the
same `w` by `h` pixel grid as `rotate180` applied in place to the original
image; the buffers have non-overlapping rows (`midStride ≥ 4 * h`,
`outStride ≥ 4 * w`, `srcStride ≥ 4 * w`). -/
theorem rotate90CW_twice (src mid out : Mem) (w h srcStride midStride outStride : Int)
    (hsrc : 4 * w ≤ srcStride) (hm : 4 * h ≤ midStride) (ho : 4 * w ≤ outStride)
    (x y : Int) (hx0 : 0 ≤ x) (hx1 : x < w) (hy0 : 0 ≤ y) (hy1 : y < h) :
    pixelAt (rotate90CW (rotate90CW src mid w h srcStride midStride) out h w midStride
        outStride) outStride x y
      = pixelAt (rotate180 src w h srcStride) srcStride x y := by
  have h2 := rotate90CW_spec (rotate90CW src mid w h srcStride midStride) out h w midStride
    outStride ho y (w - 1 - x) hy0 hy1 (by omega) (by omega)
  have e : w - 1 - (w - 1 - x) = x := by omega
  rw [e] at h2
  have h1 := rotate90CW_spec src mid w h srcStride midStride hm (w - 1 - x) (h - 1 - y)
    (by omega) (by omega) (by omega) (by omega)
  have e' : h - 1 - (h - 1 - y) = y := by omega
  rw [e'] at h1
  rw [h2, h1, rotate180_pixel src w h srcStride hsrc x y hx0 hx1 hy0 hy1]

theorem rotate90CW_twice_witness :
    ((4 : Int) * 3 ≤ 12 ∧ (4 : Int) * 2 ≤ 8 ∧ (4 : Int) * 3 ≤ 16 ∧ (0 : Int) ≤ 2 ∧ (2 : Int) < 3 ∧
      (0 : Int) ≤ 1 ∧ (1 : Int) < 2) ∧
    pixelAt (rotate90CW (rotate90CW sampleMem sampleMem 3 2 12 8) sampleMem 2 3 8 16) 16 2 1
      = pixelAt (rotate180 sampleMem 3 2 12) 12 2 1 :=
  ⟨by decide, rotate90CW_twice sampleMem sampleMem sampleMem 3 2 12 8 16 (by decide)
    (by decide) (by decide) 2 1 (by decide) (by decide) (by decide) (by decide)⟩

/-! ## Empty images -/

/-- A loop whose iterations all leave the state as it is leaves the state as it is. -/
theorem forLoop_fixed {σ : Type} (n : Int) (body : Int → σ → σ) (s : σ)
    (h : ∀ (k : Int) (t : σ), 0 ≤ k → k < n → body k t = t) : forLoop n body s = s :=
  forLoop_inv (fun _ t => t = s) n body s rfl (fun k t hk0 hk1 ht => by
    show body k t = s
    rw [h k t hk0 hk1, ht])

theorem mapPixels_empty (f : Nat → Nat) (m : Mem) (width height stride : Int)
    (he : width ≤ 0 ∨ height ≤ 0) : mapPixels f m width height stride = m := by
  rcases he with hw | hh
  · exact forLoop_fixed _ _ _ (fun k t _ _ => forLoop_of_nonpos _ _ _ hw)
  · exact forLoop_of_nonpos _ _ _ hh

theorem remapPixels_empty (newX newY : Int → Int → Int) (src dst : Mem)
    (width height srcStride dstStride : Int) (he : width ≤ 0 ∨ height ≤ 0) :
    remapPixels newX newY src dst width height srcStride dstStride = dst := by
  rcases he with hw | hh
  · exact forLoop_fixed _ _ _ (fun k t _ _ => forLoop_of_nonpos _ _ _ hw)
  · exact forLoop_of_nonpos _ _ _ hh

theorem rotate180_empty (m : Mem) (width height stride : Int)
    (he : width ≤ 0 ∨ height ≤ 0) : rotate180 m width height stride = m := by
  obtain ⟨_, hodd, _⟩ := tdiv_two_facts height
  obtain ⟨hN, _, _⟩ := tdiv_two_facts width
  have hrows : rotate180Rows m width height stride = m := by
    rcases he with hw | hh
    · exact forLoop_fixed _ _ _ (fun k t _ _ => forLoop_of_nonpos _ _ _ hw)
    · obtain ⟨hK, _, _⟩ := tdiv_two_facts height
      exact forLoop_of_nonpos _ _ _ (by omega)
  unfold rotate180
  simp only [hrows]
  split
  · rename_i ho
    obtain ⟨_, hpos⟩ := hodd ho
    exact forLoop_of_nonpos _ _ _ (by omega)
  · rfl

theorem rotate180Traced_empty (m : Mem) (width height stride : Int)
    (he : width ≤ 0 ∨ height ≤ 0) :
    rotate180Traced m width height stride = { mem := m, written := [], fresh := true } := by
  obtain ⟨_, hodd, _⟩ := tdiv_two_facts height
  obtain ⟨hN, _, _⟩ := tdiv_two_facts width
  have hrows : forLoop (Int.tdiv height 2) (fun y t =>
      forLoop width (fun x t =>
        swapWordsTraced t (y * stride + 4 * x)
          ((height - 1 - y) * stride + 4 * (width - 1 - x))) t)
      ({ mem := m, written := [], fresh := true } : Traced)
      = { mem := m, written := [], fresh := true } := by
    rcases he with hw | hh
    · exact forLoop_fixed _ _ _ (fun k t _ _ => forLoop_of_nonpos _ _ _ hw)
    · obtain ⟨hK, _, _⟩ := tdiv_two_facts height
      exact forLoop_of_nonpos _ _ _ (by omega)
  unfold rotate180Traced
  simp only [hrows]
  split
  · rename_i ho
    obtain ⟨_, hpos⟩ := hodd ho
    exact forLoop_of_nonpos _ _ _ (by omega)
  · rfl

/-- Claim C19: whenever `width ≤ 0` or `height ≤ 0` (negative odd heights
included), each of `applyGrayscale`, `applySepia`, `applyInvert`,
`adjustBrightness`, `adjustContrast`, `rotate180`, `rotate90CW` and
`rotate90CCW` leaves its buffer (the destination, for the quarter turns)
exactly as it was; the pass of `rotate180` records no access at all; the
functions are total, they signal nothing. -/
theorem empty_image_untouched (undef : FloatVal → Int) (m src dst : Mem)
    (width height stride srcStride dstStride bfactor : Int) (cfactor : FloatVal)
    (he : width ≤ 0 ∨ height ≤ 0) :
    applyGrayscale undef m width height stride = m ∧
    applySepia undef m width height stride = m ∧
    applyInvert m width height stride = m ∧
    adjustBrightness m width height stride bfactor = m ∧
    adjustContrast undef m width height stride cfactor = m ∧
    rotate180 m width height stride = m ∧
    rotate180Traced m width height stride = { mem := m, written := [], fresh := true } ∧
    rotate90CW src dst width height srcStride dstStride = dst ∧
    rotate90CCW src dst width height srcStride dstStride = dst :=
  ⟨mapPixels_empty (grayscalePixel undef) m width height stride he,
    mapPixels_empty (sepiaPixel undef) m width height stride he,
    mapPixels_empty invertPixel m width height stride he,
    mapPixels_empty (brightnessPixel bfactor) m width height stride he,
    mapPixels_empty (contrastPixel undef cfactor) m width height stride he,
    rotate180_empty m width height stride he,
    rotate180Traced_empty m width height stride he,
    remapPixels_empty (fun _ y => height - 1 - y) (fun x _ => x) src dst width height
      srcStride dstStride he,
    remapPixels_empty (fun _ y => y) (fun x _ => width - 1 - x) src dst width height
      srcStride dstStride he⟩

theorem empty_image_untouched_witness :
    ((4 : Int) ≤ 0 ∨ (-3 : Int) ≤ 0) ∧
    rotate180 sampleMem 4 (-3) 16 = sampleMem ∧
    applyInvert sampleMem 4 (-3) 16 = sampleMem :=
  ⟨by decide,
    (empty_image_untouched undefZero sampleMem sampleMem sampleMem 4 (-3) 16 16 16 0 none
      (by decide)).2.2.2.2.2.1,
    (empty_image_untouched undefZero sampleMem sampleMem sampleMem 4 (-3) 16 16 16 0 none
      (by decide)).2.2.1⟩

/-! ## Crop without bounds validation -/

/-- Claim C11, failing input: a 2 by 2 source of 16 bytes (stride 8), a 2 by 1
destination of 8 bytes (stride 8) and the rectangle `cropX = 1`, `cropY = 0`,
`cropWidth = 2`, `cropHeight = 1`, which exceeds the source width
(`cropX + cropWidth = 3 > 2`).  The call reads bytes 4..11 of the source and
writes bytes 0..7 of the destination, all inside the two buffers.  `cropBitmap`
does not reject it: byte `i` of the destination becomes byte `4 + i` of the
source, so the pixel in column 1 of the destination is the first pixel of the
next source row, and the destination is no longer what it was; no other byte
changes and the source is unchanged. -/
theorem cropBitmap_out_of_bounds_writes :
    (2 : Int) < 1 + 2 ∧
    (cropBitmap sampleMem zeroMem 2 2 8 8 1 0 2 1).2 ≠ zeroMem ∧
    pixelAt (cropBitmap sampleMem zeroMem 2 2 8 8 1 0 2 1).2 8 1 0 = pixelAt sampleMem 8 0 1 ∧
    pixelAt sampleMem 8 0 1 ≠ pixelAt zeroMem 8 1 0 ∧
    (∀ i : Int, 0 ≤ i → i < 8 →
      (cropBitmap sampleMem zeroMem 2 2 8 8 1 0 2 1).2 i = sampleMem (4 + i)) ∧
    (∀ i : Int, i < 0 ∨ 8 ≤ i →
      (cropBitmap sampleMem zeroMem 2 2 8 8 1 0 2 1).2 i = zeroMem i) ∧
    (cropBitmap sampleMem zeroMem 2 2 8 8 1 0 2 1).1 = sampleMem := by
  have hn : ((toSizeT ((2 : Int) * 4) : Nat) : Int) = 8 := by decide
  obtain ⟨k1, k2, k3⟩ := cropBitmap_bytes sampleMem zeroMem 2 2 8 8 1 0 2 1 (by omega)
  refine ⟨by decide, fun h => ?_, by decide!, by decide!, fun i hi0 hi8 => ?_,
    fun i hi => ?_, k3⟩
  · have h4 := congrFun h 4
    revert h4
    decide!
  · have h := k1 0 i (by decide) (by decide) hi0 (by omega)
    have e1 : (0 : Int) * 8 + i = i := by omega
    have e2 : ((0 : Int) + 0) * 8 + 4 * 1 + i = 4 + i := by omega
    rw [e1, e2] at h
    exact h
  · exact k2 i (fun row hr0 hr1 => by omega)

/-! ## Nothing outside the pixel grid is touched -/

theorem forLoop_congr {σ : Type} (n : Int) (body1 body2 : Int → σ → σ) (s : σ)
    (h : ∀ (k : Int) (t : σ), 0 ≤ k → k < n → body1 k t = body2 k t) :
    forLoop n body1 s = forLoop n body2 s := by
  have key := forLoop_inv (fun k t => t = forLoop k body2 s) n body1 s
    (forLoop_of_nonpos 0 body2 s le_rfl).symm (fun k t hk0 hk1 ht => by
      show body1 k t = forLoop (k + 1) body2 s
      rw [forLoop_succ_int k hk0, h k t hk0 hk1, ht])
  beta_reduce at key
  rw [forLoop_max] at key
  exact key

/-- A byte outside the grid lies outside every pixel of the grid. -/
theorem outside_cell (w h s i x y : Int) (hi : ¬ InGrid w h s i) (hx0 : 0 ≤ x) (hx1 : x < w)
    (hy0 : 0 ≤ y) (hy1 : y < h) : i < y * s + 4 * x ∨ y * s + 4 * x + 4 ≤ i := by
  by_contra hcon
  exact hi ⟨y, hy0, hy1, by omega, by omega⟩

/-- The bytes of a pixel of the grid lie in the grid. -/
theorem inGrid_of_cell (w h s x y j : Int) (hx0 : 0 ≤ x) (hx1 : x < w) (hy0 : 0 ≤ y)
    (hy1 : y < h) (hj0 : 0 ≤ j) (hj4 : j < 4) : InGrid w h s (y * s + 4 * x + j) :=
  ⟨y, hy0, hy1, by omega, by omega⟩

/-- The padding bytes at the end of a row lie outside the grid. -/
theorem padding_not_inGrid (w h s y i : Int) (_hy0 : 0 ≤ y) (_hy1 : y < h)
    (h0 : y * s + 4 * w ≤ i) (h1 : i < (y + 1) * s) : ¬ InGrid w h s i := by
  rintro ⟨y', hy0', hy1', ha, hb⟩
  have e : (y + 1) * s = y * s + s := by ring
  rcases lt_trichotomy y' y with hlt | heq | hgt
  · have := row_le s y' y (by omega) (by omega)
    omega
  · subst heq; omega
  · have := row_le s y y' (by omega) (by omega)
    omega

/-- Two buffers whose grid pixels are equal word by word agree on every byte of
the grid. -/
theorem grid_bytes_of_pixels (A B : Mem) (w h s : Int)
    (hp : ∀ x y : Int, 0 ≤ x → x < w → 0 ≤ y → y < h →
      readWord A (y * s + 4 * x) = readWord B (y * s + 4 * x))
    (i : Int) (hi : InGrid w h s i) : A i = B i := by
  obtain ⟨x, y, j, hx0, hx1, hy0, hy1, hj0, hj4, rfl⟩ := inGrid_cell _ _ _ _ hi
  rw [← wordByte_readWord A _ j hj0 hj4, ← wordByte_readWord B _ j hj0 hj4,
    hp x y hx0 hx1 hy0 hy1]

/-- Two buffers that agree on every byte of the grid have equal grid pixels. -/
theorem pixels_of_grid_bytes (A B : Mem) (w h s : Int)
    (hb : ∀ i : Int, InGrid w h s i → A i = B i) (x y : Int) (hx0 : 0 ≤ x) (hx1 : x < w)
    (hy0 : 0 ≤ y) (hy1 : y < h) :
    readWord A (y * s + 4 * x) = readWord B (y * s + 4 * x) :=
  readWord_congr _ _ _ (fun j hj0 hj4 =>
    hb _ (inGrid_of_cell w h s x y j hx0 hx1 hy0 hy1 hj0 hj4))

/-- A pixelwise map reads and writes the grid only. -/
theorem mapPixels_local (f : Nat → Nat) (m : Mem) (w h s : Int) (hs : 4 * w ≤ s) :
    (∀ i : Int, ¬ InGrid w h s i → mapPixels f m w h s i = m i) ∧
    (∀ m' : Mem, (∀ i : Int, InGrid w h s i → m' i = m i) →
      ∀ i : Int, InGrid w h s i → mapPixels f m' w h s i = mapPixels f m w h s i) := by
  refine ⟨(mapPixels_spec f m w h s hs).2, fun m' hm => ?_⟩
  refine grid_bytes_of_pixels _ _ w h s (fun x y hx0 hx1 hy0 hy1 => ?_)
  rw [mapPixels_pixel f m' w h s hs x y hx0 hx1 hy0 hy1,
    mapPixels_pixel f m w h s hs x y hx0 hx1 hy0 hy1,
    pixels_of_grid_bytes m' m w h s hm x y hx0 hx1 hy0 hy1]

/-- The pass of `rotate180` changes no byte outside the grid. -/
theorem rotate180_frame (m : Mem) (w h s : Int) (hs : 4 * w ≤ s) (i : Int)
    (hi : ¬ InGrid w h s i) : rotate180 m w h s i = m i := by
  rcases le_or_lt w 0 with hw | hw
  · rw [rotate180_empty m w h s (Or.inl hw)]
  rcases le_or_lt h 0 with hh | hh
  · rw [rotate180_empty m w h s (Or.inr hh)]
  have hH : Int.tdiv h 2 = h / 2 := Int.tdiv_eq_ediv (by omega) (by omega)
  have hM : Int.tmod h 2 = h % 2 := Int.tmod_eq_emod (by omega) (by omega)
  have hW : Int.tdiv w 2 = w / 2 := Int.tdiv_eq_ediv (by omega) (by omega)
  obtain ⟨_, R2⟩ := swapRows_spec m w h s (h / 2) hs (by omega)
  have hrows := R2 i (fun x y hx0 hx1 hy0 hy1 =>
    ⟨outside_cell w h s i x y hi hx0 hx1 hy0 (by omega),
      outside_cell w h s i (w - 1 - x) (h - 1 - y) hi (by omega) (by omega) (by omega)
        (by omega)⟩)
  unfold rotate180 rotate180Rows
  simp only [hH, hM, hW]
  split
  · obtain ⟨_, M2⟩ := swapMid_spec (forLoop (h / 2) (fun y m => forLoop w (fun x m =>
      swapWords m (y * s + 4 * x) ((h - 1 - y) * s + 4 * (w - 1 - x))) m) m) w (h / 2 * s)
      (w / 2) (by omega)
    rw [M2 i (fun x hx0 hx1 =>
      ⟨outside_cell w h s i x (h / 2) hi hx0 (by omega) (by omega) (by omega),
        outside_cell w h s i (w - 1 - x) (h / 2) hi (by omega) (by omega) (by omega)
          (by omega)⟩)]
    exact hrows
  · exact hrows

/-- The pass of `rotate180` reads and writes the grid only. -/
theorem rotate180_local (m : Mem) (w h s : Int) (hs : 4 * w ≤ s) :
    (∀ i : Int, ¬ InGrid w h s i → rotate180 m w h s i = m i) ∧
    (∀ m' : Mem, (∀ i : Int, InGrid w h s i → m' i = m i) →
      ∀ i : Int, InGrid w h s i → rotate180 m' w h s i = rotate180 m w h s i) := by
  refine ⟨rotate180_frame m w h s hs, fun m' hm => ?_⟩
  refine grid_bytes_of_pixels _ _ w h s (fun x y hx0 hx1 hy0 hy1 => ?_)
  have e1 := rotate180_pixel m' w h s hs x y hx0 hx1 hy0 hy1
  have e2 := rotate180_pixel m w h s hs x y hx0 hx1 hy0 hy1
  unfold pixelAt at e1 e2
  rw [e1, e2]
  exact pixels_of_grid_bytes m' m w h s hm (w - 1 - x) (h - 1 - y) (by omega) (by omega)
    (by omega) (by omega)


/-- The quarter turns write the destination grid only (`h` pixels wide, `w`
pixels high) and read the source grid only. -/
theorem remapPixels_local (newX newY : Int → Int → Int) (src dst : Mem)
    (w h srcStride dstStride W H : Int) (hs : 4 * W ≤ dstStride)
    (hX : ∀ x y : Int, 0 ≤ x → x < w → 0 ≤ y → y < h →
      0 ≤ newX x y ∧ newX x y < W ∧ 0 ≤ newY x y ∧ newY x y < H)
    (hinj : ∀ x y x' y' : Int, 0 ≤ x → x < w → 0 ≤ y → y < h →
      0 ≤ x' → x' < w → 0 ≤ y' → y' < h → (x ≠ x' ∨ y ≠ y') →
      (newX x y ≠ newX x' y' ∨ newY x y ≠ newY x' y')) :
    (∀ i : Int, ¬ InGrid W H dstStride i →
      remapPixels newX newY src dst w h srcStride dstStride i = dst i) ∧
    (∀ src' : Mem, (∀ i : Int, InGrid w h srcStride i → src' i = src i) →
      remapPixels newX newY src' dst w h srcStride dstStride
        = remapPixels newX newY src dst w h srcStride dstStride) := by
  constructor
  · intro i hi
    refine (remapPixels_spec newX newY src dst w h srcStride dstStride W hs
      (fun x y hx0 hx1 hy0 hy1 => ⟨(hX x y hx0 hx1 hy0 hy1).1, (hX x y hx0 hx1 hy0 hy1).2.1⟩)
      hinj).2 i (fun x y hx0 hx1 hy0 hy1 => ?_)
    obtain ⟨a1, a2, a3, a4⟩ := hX x y hx0 hx1 hy0 hy1
    exact outside_cell W H dstStride i _ _ hi a1 a2 a3 a4
  · intro src' hsrc
    unfold remapPixels
    refine forLoop_congr _ _ _ _ (fun y t hy0 hy1 => ?_)
    refine forLoop_congr _ _ _ _ (fun x t' hx0 hx1 => ?_)
    beta_reduce
    rw [pixels_of_grid_bytes src' src w h srcStride hsrc x y hx0 hx1 hy0 hy1]

/-- Under its bounds contract `cropBitmap` writes the destination grid only
(`cropWidth` by `cropHeight`) and reads the source grid only. -/
theorem cropBitmap_local (src dst : Mem)
    (srcWidth srcHeight srcStride dstStride cropX cropY cropWidth cropHeight : Int)
    (hint : srcWidth ≤ 2147483647) (hx : 0 ≤ cropX) (hy : 0 ≤ cropY) (hw : 0 ≤ cropWidth)
    (hxw : cropX + cropWidth ≤ srcWidth) (hyh : cropY + cropHeight ≤ srcHeight)
    (hd : 4 * cropWidth ≤ dstStride) :
    (∀ i : Int, ¬ InGrid cropWidth cropHeight dstStride i →
      (cropBitmap src dst srcWidth srcHeight srcStride dstStride cropX cropY cropWidth
        cropHeight).2 i = dst i) ∧
    (∀ src' : Mem, (∀ i : Int, InGrid srcWidth srcHeight srcStride i → src' i = src i) →
      (cropBitmap src' dst srcWidth srcHeight srcStride dstStride cropX cropY cropWidth
        cropHeight).2
        = (cropBitmap src dst srcWidth srcHeight srcStride dstStride cropX cropY cropWidth
          cropHeight).2) := by
  have hn := toSizeT_of_int (cropWidth * 4) (by omega) (by omega)
  obtain ⟨k1, k2, _⟩ := cropBitmap_bytes src dst srcWidth srcHeight srcStride dstStride cropX
    cropY cropWidth cropHeight (by omega)
  constructor
  · intro i hi
    refine k2 i (fun row hr0 hr1 => ?_)
    by_contra hcon
    exact hi ⟨row, hr0, hr1, by omega, by omega⟩
  · intro src' hsrc
    obtain ⟨k1', k2', _⟩ := cropBitmap_bytes src' dst srcWidth srcHeight srcStride dstStride
      cropX cropY cropWidth cropHeight (by omega)
    funext i
    by_cases hi : InGrid cropWidth cropHeight dstStride i
    · obtain ⟨row, hr0, hr1, ha, hb⟩ := hi
      have e : i = row * dstStride + (i - row * dstStride) := by omega
      rw [e, k1 row _ hr0 hr1 (by omega) (by omega), k1' row _ hr0 hr1 (by omega) (by omega)]
      exact hsrc _ ⟨cropY + row, by omega, by omega, by omega, by omega⟩
    · have ho : ∀ row : Int, 0 ≤ row → row < cropHeight →
          (i < row * dstStride ∨ row * dstStride + toSizeT (cropWidth * 4) ≤ i) := by
        intro row hr0 hr1
        by_contra hcon
        exact hi ⟨row, hr0, hr1, by omega, by omega⟩
      rw [k2 i ho, k2' i ho]


/-- Claim C16: for every buffer whose rows do not overlap (`stride ≥ 4 * width`,
padded or not), no operation touches a byte outside the pixel grid.  The
in-place operations (`applyGrayscale`, `applySepia`, `applyInvert`,
`adjustBrightness`, `adjustContrast`, `rotate180`) change no byte outside the
grid, in particular no padding byte at offsets
`[y * stride + 4 * width, (y + 1) * stride)`, and what they leave in the grid
depends on the grid only.  `rotate90CW`, `rotate90CCW` and `cropBitmap` (under
its bounds contract) change no destination byte outside the destination grid,
and the destination depends on the source through the source grid only. -/
theorem grid_locality (undef : FloatVal → Int) (bfactor : Int) (cfactor : FloatVal)
    (w h s srcStride dstStride : Int) (hs : 4 * w ≤ s) (hd : 4 * h ≤ dstStride)
    (srcWidth srcHeight cSrcStride cDstStride cropX cropY cropWidth cropHeight : Int)
    (hint : srcWidth ≤ 2147483647) (hx : 0 ≤ cropX) (hy : 0 ≤ cropY) (hw : 0 ≤ cropWidth)
    (_hh : 0 ≤ cropHeight) (hxw : cropX + cropWidth ≤ srcWidth)
    (hyh : cropY + cropHeight ≤ srcHeight) (hcd : 4 * cropWidth ≤ cDstStride) :
    InPlaceLocal w h s (fun m => applyGrayscale undef m w h s) ∧
    InPlaceLocal w h s (fun m => applySepia undef m w h s) ∧
    InPlaceLocal w h s (fun m => applyInvert m w h s) ∧
    InPlaceLocal w h s (fun m => adjustBrightness m w h s bfactor) ∧
    InPlaceLocal w h s (fun m => adjustContrast undef m w h s cfactor) ∧
    InPlaceLocal w h s (fun m => rotate180 m w h s) ∧
    (∀ y i : Int, 0 ≤ y → y < h → y * s + 4 * w ≤ i → i < (y + 1) * s → ¬ InGrid w h s i) ∧
    OutOfPlaceLocal w h srcStride h w dstStride
      (fun src dst => rotate90CW src dst w h srcStride dstStride) ∧
    OutOfPlaceLocal w h srcStride h w dstStride
      (fun src dst => rotate90CCW src dst w h srcStride dstStride) ∧
    OutOfPlaceLocal srcWidth srcHeight cSrcStride cropWidth cropHeight cDstStride
      (fun src dst => (cropBitmap src dst srcWidth srcHeight cSrcStride cDstStride cropX cropY
        cropWidth cropHeight).2) := by
  have filt : ∀ f : Nat → Nat, InPlaceLocal w h s (fun m => mapPixels f m w h s) := fun f =>
    ⟨fun m => (mapPixels_local f m w h s hs).1, fun m m' => (mapPixels_local f m w h s hs).2 m'⟩
  refine ⟨filt _, filt _, filt _, filt _, filt _,
    ⟨fun m => (rotate180_local m w h s hs).1, fun m m' => (rotate180_local m w h s hs).2 m'⟩,
    fun y i hy0 hy1 h0 h1 => padding_not_inGrid w h s y i hy0 hy1 h0 h1, ?_, ?_, ?_⟩
  · have key := fun src dst => remapPixels_local (fun _ y => h - 1 - y) (fun x _ => x) src dst
      w h srcStride dstStride h w hd
      (fun a b _ _ hb0 hb1 => by beta_reduce; omega)
      (fun a b a' b' _ _ _ _ _ _ _ _ hne => by beta_reduce; omega)
    exact ⟨fun src dst => (key src dst).1, fun src src' dst => (key src dst).2 src'⟩
  · have key := fun src dst => remapPixels_local (fun _ y => y) (fun x _ => w - 1 - x) src dst
      w h srcStride dstStride h w hd
      (fun a b _ _ hb0 hb1 => by beta_reduce; omega)
      (fun a b a' b' _ _ _ _ _ _ _ _ hne => by beta_reduce; omega)
    exact ⟨fun src dst => (key src dst).1, fun src src' dst => (key src dst).2 src'⟩
  · have key := fun src dst => cropBitmap_local src dst srcWidth srcHeight cSrcStride
      cDstStride cropX cropY cropWidth cropHeight hint hx hy hw hxw hyh hcd
    exact ⟨fun src dst => (key src dst).1, fun src src' dst => (key src dst).2 src'⟩

theorem grid_locality_witness :
    ((4 : Int) * 3 ≤ 16 ∧ (4 : Int) * 2 ≤ 12 ∧ (3 : Int) ≤ 2147483647 ∧ (0 : Int) ≤ 1 ∧
      (0 : Int) ≤ 1 ∧ (0 : Int) ≤ 2 ∧ (0 : Int) ≤ 2 ∧ (1 : Int) + 2 ≤ 3 ∧ (1 : Int) + 2 ≤ 3 ∧
      (4 : Int) * 2 ≤ 12) ∧
    InPlaceLocal 3 2 16 (fun m => rotate180 m 3 2 16) ∧
    InPlaceLocal 3 2 16 (fun m => applySepia undefZero m 3 2 16) :=
  ⟨by decide,
    (grid_locality undefZero 300 none 3 2 16 16 12 (by decide) (by decide) 3 3 16 12 1 1 2 2
      (by decide) (by decide) (by decide) (by decide) (by decide) (by decide) (by decide)
      (by decide)).2.2.2.2.2.1,
    (grid_locality undefZero 300 none 3 2 16 16 12 (by decide) (by decide) 3 3 16 12 1 1 2 2
      (by decide) (by decide) (by decide) (by decide) (by decide) (by decide) (by decide)
      (by decide)).2.1⟩

/-! ## The `double` arithmetic of the weighted sums -/

theorem forceNat_eq {α : Type} (n : Nat) (k : Nat → α) : forceNat n k = k n := by
  cases n <;> rfl

theorem forceInt_eq {α : Type} (i : Int) (k : Int → α) : forceInt i k = k i := by
  cases i <;> simp [forceInt, forceNat_eq]

/-- What a search step may assume of the step after it, and guarantees in turn:
for a positive number below `2 ^ k` the result is `acc` plus the position of
the highest set bit. -/
theorem stage_spec (k : Nat) (next : Nat → Nat → Nat)
    (hnext : ∀ n acc : Nat, 0 < n → n < 2 ^ k →
      ∃ l, next n acc = acc + l ∧ 2 ^ l ≤ n ∧ n < 2 ^ (l + 1)) :
    ∀ n acc : Nat, 0 < n → n < 2 ^ (k + k) →
      ∃ l, stage k next n acc = acc + l ∧ 2 ^ l ≤ n ∧ n < 2 ^ (l + 1) := by
  intro n acc hn0 hn
  have hk : 0 < 2 ^ k := Nat.pow_pos (by decide)
  unfold stage
  by_cases hge : 2 ^ k ≤ n
  · have hb : Nat.ble (2 ^ k) n = true := Nat.ble_eq_true_of_le hge
    rw [hb, cond_true]
    have hq0 : 0 < n / 2 ^ k := Nat.div_pos hge hk
    have hq1 : n / 2 ^ k < 2 ^ k := Nat.div_lt_of_lt_mul (by rw [← pow_add]; exact hn)
    obtain ⟨l, e, h1, h2⟩ := hnext (n / 2 ^ k) (acc + k) hq0 hq1
    refine ⟨k + l, by rw [e]; omega, ?_, ?_⟩
    · calc 2 ^ (k + l) = 2 ^ l * 2 ^ k := by rw [pow_add, mul_comm]
        _ ≤ n / 2 ^ k * 2 ^ k := Nat.mul_le_mul_right _ h1
        _ ≤ n := Nat.div_mul_le_self n (2 ^ k)
    · have h3 : n < 2 ^ k * (n / 2 ^ k + 1) := Nat.lt_mul_div_succ n hk
      calc n < 2 ^ k * (n / 2 ^ k + 1) := h3
        _ ≤ 2 ^ k * 2 ^ (l + 1) := Nat.mul_le_mul_left _ h2
        _ = 2 ^ (k + l + 1) := by rw [← pow_add]; congr 1
  · have hb : Nat.ble (2 ^ k) n = false := by
      rw [Bool.eq_false_iff]; intro h; exact hge (Nat.le_of_ble_eq_true h)
    rw [hb, cond_false]
    exact hnext n acc hn0 (by omega)

theorem ilog2small_spec (n : Nat) (hn0 : 0 < n) (hn : n < 2 ^ 128) :
    2 ^ ilog2small n ≤ n ∧ n < 2 ^ (ilog2small n + 1) := by
  have base : ∀ n acc : Nat, 0 < n → n < 2 ^ 1 →
      ∃ l, (fun (_ : Nat) (acc : Nat) => acc) n acc = acc + l ∧ 2 ^ l ≤ n ∧ n < 2 ^ (l + 1) :=
    fun n acc h0 h1 => ⟨0, rfl, by omega, by omega⟩
  have s1 := stage_spec 1 _ base
  have s2 := stage_spec 2 _ s1
  have s4 := stage_spec 4 _ s2
  have s8 := stage_spec 8 _ s4
  have s16 := stage_spec 16 _ s8
  have s32 := stage_spec 32 _ s16
  have s64 := stage_spec 64 _ s32
  obtain ⟨l, e, h1, h2⟩ := s64 n 0 hn0 hn
  have e' : ilog2small n = l := by
    unfold ilog2small; rw [e]; omega
  rw [e']
  exact ⟨h1, h2⟩

theorem log2Fuel_spec : ∀ (fuel n : Nat), 0 < n → n ≤ fuel →
    2 ^ log2Fuel fuel n ≤ n ∧ n < 2 ^ (log2Fuel fuel n + 1) := by
  intro fuel
  induction fuel with
  | zero => intro n h0 h1; omega
  | succ fuel ih =>
    intro n hn0 hn
    have hk : 0 < 2 ^ 128 := Nat.pow_pos (by decide)
    unfold log2Fuel
    by_cases hge : 2 ^ 128 ≤ n
    · have hb : Nat.ble (2 ^ 128) n = true := Nat.ble_eq_true_of_le hge
      rw [hb, cond_true]
      have hq0 : 0 < n / 2 ^ 128 := Nat.div_pos hge hk
      have hq1 : n / 2 ^ 128 ≤ fuel := by
        have : n / 2 ^ 128 < n := Nat.div_lt_self hn0 (by norm_num)
        omega
      obtain ⟨h1, h2⟩ := ih (n / 2 ^ 128) hq0 hq1
      constructor
      · calc 2 ^ (log2Fuel fuel (n / 2 ^ 128) + 128)
            = 2 ^ log2Fuel fuel (n / 2 ^ 128) * 2 ^ 128 := by rw [pow_add]
          _ ≤ n / 2 ^ 128 * 2 ^ 128 := Nat.mul_le_mul_right _ h1
          _ ≤ n := Nat.div_mul_le_self n (2 ^ 128)
      · have h3 : n < 2 ^ 128 * (n / 2 ^ 128 + 1) := Nat.lt_mul_div_succ n hk
        calc n < 2 ^ 128 * (n / 2 ^ 128 + 1) := h3
          _ ≤ 2 ^ 128 * 2 ^ (log2Fuel fuel (n / 2 ^ 128) + 1) := Nat.mul_le_mul_left _ h2
          _ = 2 ^ (log2Fuel fuel (n / 2 ^ 128) + 128 + 1) := by
            rw [← pow_add]; congr 1; omega
    · have hb : Nat.ble (2 ^ 128) n = false := by
        rw [Bool.eq_false_iff]; intro h; exact hge (Nat.le_of_ble_eq_true h)
      rw [hb, cond_false]
      exact ilog2small_spec n hn0 (by omega)

/-- The function `ilog2` finds the highest set bit. -/
theorem ilog2_spec (n : Nat) (hn0 : 0 < n) : 2 ^ ilog2 n ≤ n ∧ n < 2 ^ (ilog2 n + 1) := by
  unfold ilog2
  by_cases hge : 2 ^ 128 ≤ n
  · have hb : Nat.ble (2 ^ 128) n = true := Nat.ble_eq_true_of_le hge
    rw [hb, cond_true]
    exact log2Fuel_spec n n hn0 le_rfl
  · have hb : Nat.ble (2 ^ 128) n = false := by
      rw [Bool.eq_false_iff]; intro h; exact hge (Nat.le_of_ble_eq_true h)
    rw [hb, cond_false]
    exact ilog2small_spec n hn0 (by omega)

/-- The rounded quotient is within one half of the exact quotient. -/
theorem roundHalfEven_error (a d : Nat) (hd : 0 < d) :
    2 * (roundHalfEven a d * d) ≤ 2 * a + d ∧ 2 * a ≤ 2 * (roundHalfEven a d * d) + d := by
  have h1 := Nat.div_add_mod a d
  have h2 := Nat.mod_lt a hd
  have h3 : (a / d + 1) * d = d * (a / d) + d := by ring
  have h4 : a / d * d = d * (a / d) := by ring
  unfold roundHalfEven
  simp only []
  split
  · rw [h4]; omega
  · split
    · rw [h3]; omega
    · split
      · rw [h4]; omega
      · rw [h3]; omega

/-- The exponent found by `floorLog2` is not too large: `2 ^ k ≤ a / d`. -/
theorem floorLog2_le (a d : Nat) (ha : 0 < a) (hd : 0 < d) :
    d * 2 ^ (floorLog2 a d).toNat ≤ a * 2 ^ (-(floorLog2 a d)).toNat := by
  unfold floorLog2
  rw [forceInt_eq]
  split
  · assumption
  · obtain ⟨ha1, -⟩ := ilog2_spec a ha
    obtain ⟨-, hd2⟩ := ilog2_spec d hd
    generalize ilog2 a = la at *
    generalize ilog2 d = ld at *
    by_cases hk : ld + 1 ≤ la
    · have e1 : ((la : Int) - (ld : Int) - 1).toNat = la - ld - 1 := by omega
      have e2 : (-((la : Int) - (ld : Int) - 1)).toNat = 0 := by omega
      rw [e1, e2, pow_zero, mul_one]
      have h3 : 2 ^ (ld + 1) * 2 ^ (la - ld - 1) = 2 ^ la := by
        rw [← pow_add]; congr 1; omega
      have h4 : d * 2 ^ (la - ld - 1) ≤ 2 ^ (ld + 1) * 2 ^ (la - ld - 1) :=
        Nat.mul_le_mul_right _ hd2.le
      omega
    · have e1 : ((la : Int) - (ld : Int) - 1).toNat = 0 := by omega
      have e2 : (-((la : Int) - (ld : Int) - 1)).toNat = ld + 1 - la := by omega
      rw [e1, e2, pow_zero, mul_one]
      have h3 : 2 ^ la * 2 ^ (ld + 1 - la) = 2 ^ (ld + 1) := by
        rw [← pow_add]; congr 1; omega
      have h4 : 2 ^ la * 2 ^ (ld + 1 - la) ≤ a * 2 ^ (ld + 1 - la) :=
        Nat.mul_le_mul_right _ ha1
      omega

theorem floorLog2_le_nine (a d : Nat) (ha : 0 < a) (hd : 0 < d) (hlt : a < 1024 * d) :
    floorLog2 a d ≤ 9 := by
  have h := floorLog2_le a d ha hd
  by_contra hc
  push_neg at hc
  obtain ⟨m, hm⟩ : ∃ m : Nat, floorLog2 a d = (m : Int) := ⟨(floorLog2 a d).toNat, by omega⟩
  rw [hm] at h hc
  have e1 : ((m : Int)).toNat = m := by omega
  have e2 : (-(m : Int)).toNat = 0 := by omega
  rw [e1, e2, pow_zero, mul_one] at h
  have hm10 : 10 ≤ m := by omega
  have h2 : 2 ^ 10 ≤ 2 ^ m := Nat.pow_le_pow_right (by decide) hm10
  have h3 : d * 2 ^ 10 ≤ d * 2 ^ m := Nat.mul_le_mul_left _ h2
  omega

theorem roundTo_pos (num : Int) (den : Nat) (hn : num ≠ 0) :
    roundTo binary64 ⟨num, den⟩ =
      (if 2 ^ binary64.emax * 2 ^ (-(max (floorLog2 num.natAbs den - 52) (-1074))).toNat
          ≤ roundHalfEven (num.natAbs * 2 ^ (-(max (floorLog2 num.natAbs den - 52) (-1074))).toNat)
              (den * 2 ^ (max (floorLog2 num.natAbs den - 52) (-1074)).toNat)
            * 2 ^ (max (floorLog2 num.natAbs den - 52) (-1074)).toNat then none
       else some ⟨num.sign *
          ((roundHalfEven (num.natAbs * 2 ^ (-(max (floorLog2 num.natAbs den - 52) (-1074))).toNat)
              (den * 2 ^ (max (floorLog2 num.natAbs den - 52) (-1074)).toNat)
            * 2 ^ (max (floorLog2 num.natAbs den - 52) (-1074)).toNat : Nat) : Int),
          2 ^ (-(max (floorLog2 num.natAbs den - 52) (-1074))).toNat⟩) := by
  unfold roundTo
  simp only [forceInt_eq, forceNat_eq, if_neg hn]
  rfl

/-- Rounding a non-negative fraction below 1024 to `double` yields a finite
non-negative value within `2 ^ (-44)` of the fraction. -/
theorem roundTo_approx (x : Frac) (h0 : 0 ≤ x.num) (hd : 0 < x.den) (hlt : x.val < 1024) :
    Approx (roundTo binary64 x) x.val (1 / 2 ^ 44) := by
  obtain ⟨num, den⟩ := x
  simp only [Frac.val] at *
  have hdq : (0 : ℚ) < (den : ℚ) := by exact_mod_cast hd
  by_cases hn : num = 0
  · subst hn
    refine ⟨⟨0, 1⟩, ?_, le_rfl, Nat.one_pos, ?_, ?_⟩
    · unfold roundTo
      simp [forceInt_eq, forceNat_eq]
    · simp [Frac.val]
    · simp [Frac.val]
  · rw [roundTo_pos num den hn]
    obtain ⟨a, ha⟩ : ∃ a : Nat, num = (a : Int) := ⟨num.toNat, by omega⟩
    subst ha
    have ha0 : 0 < a := by omega
    have hsign : (a : Int).sign = 1 := Int.sign_eq_one_of_pos (by omega)
    rw [Int.natAbs_ofNat, hsign]
    have hlt' : a < 1024 * den := by
      rw [div_lt_iff₀ hdq] at hlt
      have : ((a : Int) : ℚ) = (a : ℚ) := by norm_cast
      rw [this] at hlt
      exact_mod_cast hlt
    have hf := floorLog2_le_nine a den ha0 hd hlt'
    generalize floorLog2 a den = f at hf
    obtain ⟨s, hs, hs43⟩ : ∃ s : Nat, max (f - 52) (-1074) = -(s : Int) ∧ 43 ≤ s :=
      ⟨(-(max (f - 52) (-1074))).toNat, by omega, by omega⟩
    rw [hs]
    have e1 : (-(s : Int)).toNat = 0 := by omega
    have e2 : (- -(s : Int)).toNat = s := by omega
    rw [e1, e2, pow_zero, mul_one, mul_one]
    obtain ⟨r1, r2⟩ := roundHalfEven_error (a * 2 ^ s) den hd
    generalize roundHalfEven (a * 2 ^ s) den = mant at r1 r2
    have hpow : (2 : Nat) ^ 44 ≤ 2 * 2 ^ s := by
      have : (2 : Nat) ^ 43 ≤ 2 ^ s := Nat.pow_le_pow_right (by decide) hs43
      omega
    have hbig : 1024 * 2 ^ s + 1 < 2 ^ binary64.emax * 2 ^ s := by
      have h1 : 0 < 2 ^ s := Nat.pow_pos (by decide)
      have h0 : (2 : Nat) ^ 11 ≤ 2 ^ binary64.emax := Nat.pow_le_pow_right (by decide) (by decide)
      have h2 : 2 ^ 11 * 2 ^ s ≤ 2 ^ binary64.emax * 2 ^ s := Nat.mul_le_mul_right _ h0
      omega
    have hm : mant ≤ 1024 * 2 ^ s := by
      by_contra hc
      push_neg at hc
      have h1 : (1024 * 2 ^ s + 1) * den ≤ mant * den := Nat.mul_le_mul_right _ hc
      have h2 : (a + 1) * 2 ^ s ≤ 1024 * den * 2 ^ s := Nat.mul_le_mul_right _ hlt'
      have h4 : (a + 1) * 2 ^ s = a * 2 ^ s + 2 ^ s := by ring
      have h5 : 0 < 2 ^ s := Nat.pow_pos (by decide)
      have h3 : (1024 * 2 ^ s + 1) * den = 1024 * den * 2 ^ s + den := by ring
      omega
    rw [if_neg (by omega)]
    have hsq : (0 : ℚ) < (2 : ℚ) ^ s := by positivity
    have r1q : 2 * ((mant : ℚ) * den) ≤ 2 * ((a : ℚ) * 2 ^ s) + den := by exact_mod_cast r1
    have r2q : 2 * ((a : ℚ) * 2 ^ s) ≤ 2 * ((mant : ℚ) * den) + den := by exact_mod_cast r2
    have hpq : (2 : ℚ) ^ 44 ≤ 2 * 2 ^ s := by exact_mod_cast hpow
    have hA : ((a : Int) : ℚ) / den
        = (mant : ℚ) / 2 ^ s + ((a : ℚ) * 2 ^ s - mant * den) / (den * 2 ^ s) := by
      push_cast
      field_simp
      ring
    have hE0 : (1 : ℚ) / (2 * 2 ^ s) ≤ 1 / 2 ^ 44 :=
      one_div_le_one_div_of_le (by positivity) hpq
    have hE1 : ((a : ℚ) * 2 ^ s - mant * den) / (den * 2 ^ s) ≤ 1 / (2 * 2 ^ s) := by
      rw [div_le_div_iff₀ (by positivity) (by positivity)]
      nlinarith [mul_nonneg (sub_nonneg.2 r2q) hsq.le]
    have hE2 : -(1 / (2 * 2 ^ s)) ≤ ((a : ℚ) * 2 ^ s - mant * den) / (den * 2 ^ s) := by
      rw [neg_le, ← neg_div, div_le_div_iff₀ (by positivity) (by positivity)]
      nlinarith [mul_nonneg (sub_nonneg.2 r1q) hsq.le]
    refine ⟨_, rfl, ?_, Nat.pow_pos (by decide), ?_, ?_⟩
    · show (0 : Int) ≤ 1 * (mant : Int)
      omega
    · simp only [Frac.val]
      push_cast
      rw [one_mul]
      push_cast at hA
      linarith
    · simp only [Frac.val]
      push_cast
      rw [one_mul]
      push_cast at hA
      linarith

theorem Approx.mono {x : FloatVal} {v ε ε' : ℚ} (h : Approx x v ε) (hε : ε ≤ ε') :
    Approx x v ε' := by
  obtain ⟨q, e, h0, hd, h1, h2⟩ := h
  exact ⟨q, e, h0, hd, by linarith, by linarith⟩

theorem lit_approx (n : Int) (d : Nat) (h0 : 0 ≤ n) (hd : 0 < d) (hlt : n < 1024 * d) :
    Approx (lit binary64 n d) ((n : ℚ) / d) (1 / 2 ^ 44) := by
  have hdq : (0 : ℚ) < (d : ℚ) := by exact_mod_cast hd
  have h := roundTo_approx ⟨n, d⟩ h0 hd (by
    simp only [Frac.val]
    rw [div_lt_iff₀ hdq]
    exact_mod_cast hlt)
  exact h

theorem ofInt_approx (r : Nat) (hr : r < 1024) :
    Approx (ofInt binary64 r) (r : ℚ) (1 / 2 ^ 44) := by
  have h := lit_approx (r : Int) 1 (by omega) Nat.one_pos (by omega)
  simpa using h

theorem fmul_approx (x y : FloatVal) (u v ε₁ ε₂ : ℚ) (hx : Approx x u ε₁) (hy : Approx y v ε₂)
    (hu : 0 ≤ u) (hε₁ : 0 ≤ ε₁) (hlt : (u + ε₁) * (v + ε₂) < 1024) :
    Approx (fmul binary64 x y) (u * v) (ε₁ * (v + ε₂) + u * ε₂ + 1 / 2 ^ 44) := by
  obtain ⟨p, rfl, hp0, hpd, hp1, hp2⟩ := hx
  obtain ⟨q, rfl, hq0, hqd, hq1, hq2⟩ := hy
  have hpdq : (0 : ℚ) < (p.den : ℚ) := by exact_mod_cast hpd
  have hqdq : (0 : ℚ) < (q.den : ℚ) := by exact_mod_cast hqd
  have hpv : 0 ≤ p.val := div_nonneg (by exact_mod_cast hp0) hpdq.le
  have hqv : 0 ≤ q.val := div_nonneg (by exact_mod_cast hq0) hqdq.le
  have hval : Frac.val ⟨p.num * q.num, p.den * q.den⟩ = p.val * q.val := by
    simp only [Frac.val]
    push_cast
    rw [mul_div_mul_comm]
  have hup : p.val * q.val ≤ (u + ε₁) * (v + ε₂) :=
    mul_le_mul hp2 hq2 hqv (by linarith)
  have h := roundTo_approx ⟨p.num * q.num, p.den * q.den⟩ (mul_nonneg hp0 hq0)
    (Nat.mul_pos hpd hqd) (by rw [hval]; linarith)
  rw [hval] at h
  obtain ⟨z, e, hz0, hzd, hz1, hz2⟩ := h
  refine ⟨z, e, hz0, hzd, ?_, ?_⟩
  · have h3 : (u - ε₁) * q.val ≤ p.val * q.val := mul_le_mul_of_nonneg_right hp1 hqv
    have h4 : u * (v - ε₂) ≤ u * q.val := mul_le_mul_of_nonneg_left hq1 hu
    have h5 : ε₁ * q.val ≤ ε₁ * (v + ε₂) := mul_le_mul_of_nonneg_left hq2 hε₁
    nlinarith
  · nlinarith

theorem fadd_approx (x y : FloatVal) (u v ε₁ ε₂ : ℚ) (hx : Approx x u ε₁) (hy : Approx y v ε₂)
    (hlt : u + ε₁ + (v + ε₂) < 1024) :
    Approx (fadd binary64 x y) (u + v) (ε₁ + ε₂ + 1 / 2 ^ 44) := by
  obtain ⟨p, rfl, hp0, hpd, hp1, hp2⟩ := hx
  obtain ⟨q, rfl, hq0, hqd, hq1, hq2⟩ := hy
  have hpdq : (0 : ℚ) < (p.den : ℚ) := by exact_mod_cast hpd
  have hqdq : (0 : ℚ) < (q.den : ℚ) := by exact_mod_cast hqd
  have hval : Frac.val ⟨p.num * q.den + q.num * p.den, p.den * q.den⟩ = p.val + q.val := by
    simp only [Frac.val]
    push_cast
    rw [div_add_div _ _ hpdq.ne' hqdq.ne']
    ring
  have h := roundTo_approx ⟨p.num * q.den + q.num * p.den, p.den * q.den⟩
    (add_nonneg (mul_nonneg hp0 (by omega)) (mul_nonneg hq0 (by omega)))
    (Nat.mul_pos hpd hqd) (by rw [hval]; linarith)
  rw [hval] at h
  obtain ⟨z, e, hz0, hzd, hz1, hz2⟩ := h
  exact ⟨z, e, hz0, hzd, by linarith, by linarith⟩

/-- One product `c/1000 * v` of a weighted sum, for a weight in `[0, 1]` and a byte. -/
theorem term_approx (c : Int) (v : Nat) (hc0 : 0 ≤ c) (hc1 : c ≤ 1000) (hv : v ≤ 255) :
    Approx (fmul binary64 (lit binary64 c 1000) (ofInt binary64 v))
      ((c : ℚ) / 1000 * v) (1 / 2 ^ 35) := by
  have hcq0 : (0 : ℚ) ≤ (c : ℚ) := by exact_mod_cast hc0
  have hcq1 : (c : ℚ) ≤ 1000 := by exact_mod_cast hc1
  have hvq : (v : ℚ) ≤ 255 := by exact_mod_cast hv
  have hvq0 : (0 : ℚ) ≤ (v : ℚ) := by positivity
  have hu0 : (0 : ℚ) ≤ (c : ℚ) / 1000 := by positivity
  have hu1 : (c : ℚ) / 1000 ≤ 1 := by rw [div_le_one (by norm_num)]; exact hcq1
  have hδ : (1 : ℚ) / 2 ^ 44 ≤ 1 := by norm_num
  have h := fmul_approx _ _ _ _ _ _
    (by simpa using lit_approx c 1000 hc0 (by decide) (by omega))
    (ofInt_approx v (by omega)) hu0 (by positivity) (by
      have : ((c : ℚ) / 1000 + 1 / 2 ^ 44) * ((v : ℚ) + 1 / 2 ^ 44) ≤ 2 * 256 :=
        mul_le_mul (by linarith) (by linarith) (by positivity) (by norm_num)
      linarith)
  refine h.mono ?_
  have h1 : (1 : ℚ) / 2 ^ 44 * ((v : ℚ) + 1 / 2 ^ 44) ≤ 1 / 2 ^ 44 * 256 :=
    mul_le_mul_of_nonneg_left (by linarith) (by positivity)
  have h2 : (c : ℚ) / 1000 * (1 / 2 ^ 44) ≤ 1 * (1 / 2 ^ 44) :=
    mul_le_mul_of_nonneg_right hu1 (by positivity)
  norm_num at h1 h2 ⊢
  linarith

theorem term_bounds (c : Int) (v : Nat) (hc0 : 0 ≤ c) (hc1 : c ≤ 1000) (hv : v ≤ 255) :
    (0 : ℚ) ≤ (c : ℚ) / 1000 * v ∧ (c : ℚ) / 1000 * v ≤ 255 := by
  have hcq0 : (0 : ℚ) ≤ (c : ℚ) := by exact_mod_cast hc0
  have hcq1 : (c : ℚ) ≤ 1000 := by exact_mod_cast hc1
  have hvq : (v : ℚ) ≤ 255 := by exact_mod_cast hv
  have hu1 : (c : ℚ) / 1000 ≤ 1 := by rw [div_le_one (by norm_num)]; exact hcq1
  refine ⟨by positivity, ?_⟩
  calc (c : ℚ) / 1000 * v ≤ 1 * 255 := mul_le_mul hu1 hvq (by positivity) (by norm_num)
    _ = 255 := by norm_num

/-- The `double` weighted sum is finite, non-negative and within `2 ^ (-32)` of
the exact weighted sum. -/
theorem sepiaFloat_approx (cr cg cb : Int) (r g b : Nat)
    (hr0 : 0 ≤ cr) (hr1 : cr ≤ 1000) (hg0 : 0 ≤ cg) (hg1 : cg ≤ 1000)
    (hb0 : 0 ≤ cb) (hb1 : cb ≤ 1000) (hr : r ≤ 255) (hg : g ≤ 255) (hb : b ≤ 255) :
    Approx (sepiaFloat cr cg cb r g b)
      (((cr * r + cg * g + cb * b : Int) : ℚ) / 1000) (1 / 2 ^ 32) := by
  obtain ⟨r0, r1⟩ := term_bounds cr r hr0 hr1 hr
  obtain ⟨g0, g1⟩ := term_bounds cg g hg0 hg1 hg
  obtain ⟨b0, b1⟩ := term_bounds cb b hb0 hb1 hb
  have h1 := fadd_approx _ _ _ _ _ _ (term_approx cr r hr0 hr1 hr) (term_approx cg g hg0 hg1 hg)
    (by norm_num at *; linarith)
  have h2 := fadd_approx _ _ _ _ _ _ h1 (term_approx cb b hb0 hb1 hb)
    (by norm_num at *; linarith)
  have e : ((cr * r + cg * g + cb * b : Int) : ℚ) / 1000
      = (cr : ℚ) / 1000 * r + (cg : ℚ) / 1000 * g + (cb : ℚ) / 1000 * b := by
    push_cast
    ring
  rw [e]
  unfold sepiaFloat
  exact h2.mono (by norm_num)

/-- Truncation of a non-negative fraction is the floor of its value. -/
theorem truncate_eq_floor (q : Frac) (h0 : 0 ≤ q.num) : truncate q = ⌊q.val⌋ := by
  unfold truncate Frac.val
  rw [Int.tdiv_eq_ediv h0 (by omega), Rat.floor_intCast_div_natCast]

/-- Truncating a value that is within `2 ^ (-32)` of `N / 1000` gives the
integer quotient `N / 1000`, or one less when `N` is a multiple of 1000. -/
theorem truncate_char (q : Frac) (N : Int) (h0 : 0 ≤ q.num)
    (h1 : (N : ℚ) / 1000 - 1 / 2 ^ 32 ≤ q.val) (h2 : q.val ≤ (N : ℚ) / 1000 + 1 / 2 ^ 32) :
    0 ≤ truncate q ∧
      (truncate q = N / 1000 ∨ (truncate q + 1 = N / 1000 ∧ N % 1000 = 0)) := by
  rw [truncate_eq_floor q h0]
  have hq0 : 0 ≤ q.val := by
    unfold Frac.val
    exact div_nonneg (by exact_mod_cast h0) (by positivity)
  have f0 : 0 ≤ ⌊q.val⌋ := Int.floor_nonneg.2 hq0
  have f1 : ((⌊q.val⌋ : Int) : ℚ) ≤ q.val := Int.floor_le _
  have f2 : q.val < ((⌊q.val⌋ : Int) : ℚ) + 1 := Int.lt_floor_add_one _
  generalize ⌊q.val⌋ = t at f0 f1 f2
  have hδ : (1000 : ℚ) * (1 / 2 ^ 32) < 1 := by norm_num
  have g1 : 1000 * t < N + 1 := by
    have : (1000 : ℚ) * t < N + 1 := by linarith
    exact_mod_cast this
  have g2 : N - 1 < 1000 * (t + 1) := by
    have : (N : ℚ) - 1 < 1000 * (t + 1) := by linarith
    exact_mod_cast this
  refine ⟨f0, ?_⟩
  omega

/-- The value `static_cast<int>(cr/1000 * r + cg/1000 * g + cb/1000 * b)`, for
weights in `[0, 1]` and bytes `r`, `g`, `b`: the conversion is in range, and the
result is the integer quotient `(cr * r + cg * g + cb * b) / 1000`, or one less
when the weighted sum is a multiple of 1000. -/
theorem sepiaValue_char (undef : FloatVal → Int) (cr cg cb : Int) (r g b : Nat)
    (hr0 : 0 ≤ cr) (hr1 : cr ≤ 1000) (hg0 : 0 ≤ cg) (hg1 : cg ≤ 1000)
    (hb0 : 0 ≤ cb) (hb1 : cb ≤ 1000) (hr : r ≤ 255) (hg : g ≤ 255) (hb : b ≤ 255) :
    0 ≤ sepiaValue undef cr cg cb r g b ∧
      (sepiaValue undef cr cg cb r g b = (cr * r + cg * g + cb * b) / 1000 ∨
        (sepiaValue undef cr cg cb r g b + 1 = (cr * r + cg * g + cb * b) / 1000 ∧
          (cr * r + cg * g + cb * b) % 1000 = 0)) := by
  obtain ⟨q, e, h0, -, h1, h2⟩ := sepiaFloat_approx cr cg cb r g b hr0 hr1 hg0 hg1 hb0 hb1 hr hg hb
  obtain ⟨t0, t1⟩ := truncate_char q _ h0 h1 h2
  have n1 : cr * r ≤ 1000 * 255 := mul_le_mul hr1 (by omega) (by omega) (by omega)
  have n2 : cg * g ≤ 1000 * 255 := mul_le_mul hg1 (by omega) (by omega) (by omega)
  have n3 : cb * b ≤ 1000 * 255 := mul_le_mul hb1 (by omega) (by omega) (by omega)
  have hv : sepiaValue undef cr cg cb r g b = truncate q := by
    unfold sepiaValue toInt
    rw [e]
    simp only []
    rw [if_pos (by omega)]
  rw [hv]
  exact ⟨t0, t1⟩

/-- The gray value of `applyGrayscale`: the conversion to `uint8_t` is in range,
and the result is `(299 * r + 587 * g + 114 * b) / 1000`, or one less when the
weighted sum is a multiple of 1000. -/
theorem grayValue_char (undef : FloatVal → Int) (r g b : Nat)
    (hr : r ≤ 255) (hg : g ≤ 255) (hb : b ≤ 255) :
    grayValue undef r g b = (299 * r + 587 * g + 114 * b) / 1000 ∨
      (grayValue undef r g b + 1 = (299 * r + 587 * g + 114 * b) / 1000 ∧
        (299 * r + 587 * g + 114 * b) % 1000 = 0) := by
  obtain ⟨q, e, h0, -, h1, h2⟩ :=
    sepiaFloat_approx 299 587 114 r g b (by decide) (by decide) (by decide) (by decide)
      (by decide) (by decide) hr hg hb
  obtain ⟨t0, t1⟩ := truncate_char q _ h0 h1 h2
  have e' : grayFloat r g b = some q := e
  have hv : grayValue undef r g b = (truncate q).toNat := by
    unfold grayValue toUInt8
    rw [e']
    simp only []
    rw [if_pos (by omega)]
  rw [hv]
  omega

theorem clamp_of_nonneg (t : Int) (h : 0 ≤ t) : ((clamp t : Nat) : Int) = min t 255 := by
  unfold clamp toU8
  omega

theorem sepiaPixel_def (undef : FloatVal → Int) (p : Nat) :
    sepiaPixel undef p = makeARGB (getARGB p).1
      (clamp (sepiaValue undef 393 769 189 (getARGB p).2.1 (getARGB p).2.2.1 (getARGB p).2.2.2))
      (clamp (sepiaValue undef 349 686 168 (getARGB p).2.1 (getARGB p).2.2.1 (getARGB p).2.2.2))
      (clamp (sepiaValue undef 272 534 131 (getARGB p).2.1 (getARGB p).2.2.1 (getARGB p).2.2.2)) :=
  rfl

/-- The pixel that `applySepia` leaves at a grid position. -/
theorem applySepia_pixel (undef : FloatVal → Int) (m : Mem) (width height stride : Int)
    (hs : 4 * width ≤ stride) (x y : Int) (hx0 : 0 ≤ x) (hx1 : x < width) (hy0 : 0 ≤ y)
    (hy1 : y < height) :
    getARGB (pixelAt (applySepia undef m width height stride) stride x y)
      = ((getARGB (pixelAt m stride x y)).1,
        clamp (sepiaValue undef 393 769 189 (getARGB (pixelAt m stride x y)).2.1
          (getARGB (pixelAt m stride x y)).2.2.1 (getARGB (pixelAt m stride x y)).2.2.2),
        clamp (sepiaValue undef 349 686 168 (getARGB (pixelAt m stride x y)).2.1
          (getARGB (pixelAt m stride x y)).2.2.1 (getARGB (pixelAt m stride x y)).2.2.2),
        clamp (sepiaValue undef 272 534 131 (getARGB (pixelAt m stride x y)).2.1
          (getARGB (pixelAt m stride x y)).2.2.1 (getARGB (pixelAt m stride x y)).2.2.2)) := by
  have e : pixelAt (applySepia undef m width height stride) stride x y
      = sepiaPixel undef (pixelAt m stride x y) := by
    unfold pixelAt
    exact (mapPixels_pixel (sepiaPixel undef) m width height stride hs x y hx0 hx1
      hy0 hy1).trans (Nat.mod_eq_of_lt (sepiaPixel_alpha undef _).1)
  rw [e, sepiaPixel_def]
  exact getARGB_makeARGB _ _ _ _ (alpha_lt _) (clamp_lt _) (clamp_lt _) (clamp_lt _)

/-- The pixel that `applyGrayscale` leaves at a grid position. -/
theorem applyGrayscale_pixel (undef : FloatVal → Int) (m : Mem) (width height stride : Int)
    (hs : 4 * width ≤ stride) (x y : Int) (hx0 : 0 ≤ x) (hx1 : x < width) (hy0 : 0 ≤ y)
    (hy1 : y < height) :
    getARGB (pixelAt (applyGrayscale undef m width height stride) stride x y)
      = ((getARGB (pixelAt m stride x y)).1,
        grayValue undef (getARGB (pixelAt m stride x y)).2.1
          (getARGB (pixelAt m stride x y)).2.2.1 (getARGB (pixelAt m stride x y)).2.2.2,
        grayValue undef (getARGB (pixelAt m stride x y)).2.1
          (getARGB (pixelAt m stride x y)).2.2.1 (getARGB (pixelAt m stride x y)).2.2.2,
        grayValue undef (getARGB (pixelAt m stride x y)).2.1
          (getARGB (pixelAt m stride x y)).2.2.1 (getARGB (pixelAt m stride x y)).2.2.2) := by
  have e : pixelAt (applyGrayscale undef m width height stride) stride x y
      = grayscalePixel undef (pixelAt m stride x y) := by
    unfold pixelAt
    exact (mapPixels_pixel (grayscalePixel undef) m width height stride hs x y hx0 hx1
      hy0 hy1).trans (Nat.mod_eq_of_lt (grayscalePixel_alpha undef _).1)
  rw [e, grayscalePixel_def]
  exact getARGB_makeARGB _ _ _ _ (alpha_lt _) (toUInt8_lt _ _) (toUInt8_lt _ _) (toUInt8_lt _ _)

/-- The gray value is the truncated `double` sum, which lies in `[0, 255]`. -/
theorem grayValue_in_range (undef : FloatVal → Int) (r g b : Nat)
    (hr : r ≤ 255) (hg : g ≤ 255) (hb : b ≤ 255) :
    ∃ q : Frac, grayFloat r g b = some q ∧ 0 ≤ truncate q ∧ truncate q ≤ 255 ∧
      ((grayValue undef r g b : Nat) : Int) = truncate q := by
  obtain ⟨q, e, h0, -, h1, h2⟩ :=
    sepiaFloat_approx 299 587 114 r g b (by decide) (by decide) (by decide) (by decide)
      (by decide) (by decide) hr hg hb
  obtain ⟨t0, t1⟩ := truncate_char q _ h0 h1 h2
  have e' : grayFloat r g b = some q := e
  have hle : truncate q ≤ 255 := by omega
  refine ⟨q, e', t0, hle, ?_⟩
  unfold grayValue toUInt8
  rw [e']
  simp only []
  rw [if_pos ⟨t0, hle⟩]
  omega

/-- Two truncated weighted sums are ordered as the exact sums are, provided the
exact sums differ whenever the larger is positive. -/
theorem trunc_order (tA tB NA NB : Int) (hAB : NB ≤ NA) (hstrict : 0 < NA → NB < NA)
    (hA0 : 0 ≤ tA)
    (hA : tA = NA / 1000 ∨ (tA + 1 = NA / 1000 ∧ NA % 1000 = 0))
    (hB : tB = NB / 1000 ∨ (tB + 1 = NB / 1000 ∧ NB % 1000 = 0)) : tB ≤ tA := by
  rcases hA with hA | ⟨hA, hA'⟩ <;> rcases hB with hB | ⟨hB, hB'⟩ <;> omega

theorem clamp_mono_of_nonneg (s t : Int) (hs : 0 ≤ s) (hst : s ≤ t) : clamp s ≤ clamp t := by
  have h1 := clamp_of_nonneg s hs
  have h2 := clamp_of_nonneg t (by omega)
  omega

/-- The three sepia channels of one pixel are ordered. -/
theorem sepiaValue_ordered (undef : FloatVal → Int) (r g b : Nat)
    (hr : r ≤ 255) (hg : g ≤ 255) (hb : b ≤ 255) :
    clamp (sepiaValue undef 349 686 168 r g b) ≤ clamp (sepiaValue undef 393 769 189 r g b) ∧
    clamp (sepiaValue undef 272 534 131 r g b) ≤ clamp (sepiaValue undef 349 686 168 r g b) := by
  obtain ⟨r0, r1⟩ := sepiaValue_char undef 393 769 189 r g b (by decide) (by decide)
    (by decide) (by decide) (by decide) (by decide) hr hg hb
  obtain ⟨g0, g1⟩ := sepiaValue_char undef 349 686 168 r g b (by decide) (by decide)
    (by decide) (by decide) (by decide) (by decide) hr hg hb
  obtain ⟨b0, b1⟩ := sepiaValue_char undef 272 534 131 r g b (by decide) (by decide)
    (by decide) (by decide) (by decide) (by decide) hr hg hb
  exact ⟨clamp_mono_of_nonneg _ _ g0
      (trunc_order _ _ _ _ (by omega) (fun _ => by omega) r0 r1 g1),
    clamp_mono_of_nonneg _ _ b0
      (trunc_order _ _ _ _ (by omega) (fun _ => by omega) g0 g1 b1)⟩

theorem gray_bounds_arith (t r g b : Nat)
    (h : t = (299 * r + 587 * g + 114 * b) / 1000 ∨
      (t + 1 = (299 * r + 587 * g + 114 * b) / 1000 ∧
        (299 * r + 587 * g + 114 * b) % 1000 = 0)) :
    t ≤ max r (max g b) ∧ min r (min g b) ≤ t + 1 ∧ (t < min r (min g b) → r = g ∧ g = b) := by
  refine ⟨?_, ?_, ?_⟩
  · omega
  · omega
  · omega

/-! ## Sepia -/

/-- Claim C14: `applySepia` replaces every pixel `(a, r, g, b)` of the grid by
`(a, clamp newR, clamp newG, clamp newB)`, where `newR`, `newG`, `newB` are the
truncated `double` sums `.393r+.769g+.189b`, `.349r+.686g+.168b` and
`.272r+.534g+.131b` of the original `r`, `g`, `b`.  Each truncated sum is
non-negative and equals the integer quotient of the exact weighted sum by 1000
(or one less, when the exact sum is a multiple of 1000), so the conversion to
`int` is always in range; each channel is clamped on its own, to the lesser of
the sum and 255; and white `0xFFFFFFFF` maps to `(255, 255, 255, 238)`. -/
theorem applySepia_channels (undef : FloatVal → Int) (m : Mem) (width height stride : Int)
    (hs : 4 * width ≤ stride) (x y : Int) (hx0 : 0 ≤ x) (hx1 : x < width) (hy0 : 0 ≤ y)
    (hy1 : y < height) :
    getARGB (pixelAt (applySepia undef m width height stride) stride x y)
      = ((getARGB (pixelAt m stride x y)).1,
        clamp (sepiaValue undef 393 769 189 (getARGB (pixelAt m stride x y)).2.1
          (getARGB (pixelAt m stride x y)).2.2.1 (getARGB (pixelAt m stride x y)).2.2.2),
        clamp (sepiaValue undef 349 686 168 (getARGB (pixelAt m stride x y)).2.1
          (getARGB (pixelAt m stride x y)).2.2.1 (getARGB (pixelAt m stride x y)).2.2.2),
        clamp (sepiaValue undef 272 534 131 (getARGB (pixelAt m stride x y)).2.1
          (getARGB (pixelAt m stride x y)).2.2.1 (getARGB (pixelAt m stride x y)).2.2.2)) ∧
    (∀ (cr cg cb : Int) (r g b : Nat), 0 ≤ cr → cr ≤ 1000 → 0 ≤ cg → cg ≤ 1000 → 0 ≤ cb →
      cb ≤ 1000 → r ≤ 255 → g ≤ 255 → b ≤ 255 →
      0 ≤ sepiaValue undef cr cg cb r g b ∧
      (sepiaValue undef cr cg cb r g b = (cr * r + cg * g + cb * b) / 1000 ∨
        (sepiaValue undef cr cg cb r g b + 1 = (cr * r + cg * g + cb * b) / 1000 ∧
          (cr * r + cg * g + cb * b) % 1000 = 0)) ∧
      ((clamp (sepiaValue undef cr cg cb r g b) : Nat) : Int)
        = min (sepiaValue undef cr cg cb r g b) 255) ∧
    getARGB (sepiaPixel undef 0xFFFFFFFF) = (255, 255, 255, 238) := by
  refine ⟨applySepia_pixel undef m width height stride hs x y hx0 hx1 hy0 hy1, ?_, ?_⟩
  · intro cr cg cb r g b hr0 hr1 hg0 hg1 hb0 hb1 hr hg hb
    obtain ⟨h0, h1⟩ := sepiaValue_char undef cr cg cb r g b hr0 hr1 hg0 hg1 hb0 hb1 hr hg hb
    exact ⟨h0, h1, clamp_of_nonneg _ h0⟩
  · have hR := sepiaValue_char undef 393 769 189 255 255 255 (by decide) (by decide)
      (by decide) (by decide) (by decide) (by decide) (by decide) (by decide) (by decide)
    have hG := sepiaValue_char undef 349 686 168 255 255 255 (by decide) (by decide)
      (by decide) (by decide) (by decide) (by decide) (by decide) (by decide) (by decide)
    have hB := sepiaValue_char undef 272 534 131 255 255 255 (by decide) (by decide)
      (by decide) (by decide) (by decide) (by decide) (by decide) (by decide) (by decide)
    have eR : sepiaValue undef 393 769 189 255 255 255 = 344 := by omega
    have eG : sepiaValue undef 349 686 168 255 255 255 = 306 := by omega
    have eB : sepiaValue undef 272 534 131 255 255 255 = 238 := by omega
    have eW : getARGB 0xFFFFFFFF = (255, 255, 255, 255) := by decide
    rw [sepiaPixel_def, eW]
    simp only []
    rw [eR, eG, eB]
    decide

theorem applySepia_channels_witness :
    ((4 : Int) * 2 ≤ 12 ∧ (0 : Int) ≤ 1 ∧ (1 : Int) < 2 ∧ (0 : Int) ≤ 1 ∧ (1 : Int) < 2) ∧
    getARGB (pixelAt (applySepia undefZero sampleMem 2 2 12) 12 1 1)
      = ((getARGB (pixelAt sampleMem 12 1 1)).1,
        clamp (sepiaValue undefZero 393 769 189 (getARGB (pixelAt sampleMem 12 1 1)).2.1
          (getARGB (pixelAt sampleMem 12 1 1)).2.2.1 (getARGB (pixelAt sampleMem 12 1 1)).2.2.2),
        clamp (sepiaValue undefZero 349 686 168 (getARGB (pixelAt sampleMem 12 1 1)).2.1
          (getARGB (pixelAt sampleMem 12 1 1)).2.2.1 (getARGB (pixelAt sampleMem 12 1 1)).2.2.2),
        clamp (sepiaValue undefZero 272 534 131 (getARGB (pixelAt sampleMem 12 1 1)).2.1
          (getARGB (pixelAt sampleMem 12 1 1)).2.2.1
          (getARGB (pixelAt sampleMem 12 1 1)).2.2.2)) :=
  ⟨by decide, (applySepia_channels undefZero sampleMem 2 2 12 (by decide) 1 1 (by decide)
    (by decide) (by decide) (by decide)).1⟩

/-- Claim C20: in every pixel of the grid that `applySepia` leaves, the red
channel is at least the green channel and the green at least the blue. -/
theorem applySepia_ordered (undef : FloatVal → Int) (m : Mem) (width height stride : Int)
    (hs : 4 * width ≤ stride) (x y : Int) (hx0 : 0 ≤ x) (hx1 : x < width) (hy0 : 0 ≤ y)
    (hy1 : y < height) :
    (getARGB (pixelAt (applySepia undef m width height stride) stride x y)).2.2.1
        ≤ (getARGB (pixelAt (applySepia undef m width height stride) stride x y)).2.1 ∧
    (getARGB (pixelAt (applySepia undef m width height stride) stride x y)).2.2.2
        ≤ (getARGB (pixelAt (applySepia undef m width height stride) stride x y)).2.2.1 := by
  have h := applySepia_pixel undef m width height stride hs x y hx0 hx1 hy0 hy1
  rw [h]
  dsimp only
  obtain ⟨-, hr, hg, hb⟩ := getARGB_lt (pixelAt m stride x y)
  exact sepiaValue_ordered undef (getARGB (pixelAt m stride x y)).2.1
    (getARGB (pixelAt m stride x y)).2.2.1 (getARGB (pixelAt m stride x y)).2.2.2
    (by omega) (by omega) (by omega)

theorem applySepia_ordered_witness :
    ((4 : Int) * 2 ≤ 12 ∧ (0 : Int) ≤ 1 ∧ (1 : Int) < 2 ∧ (0 : Int) ≤ 1 ∧ (1 : Int) < 2) ∧
    ((getARGB (pixelAt (applySepia undefZero sampleMem 2 2 12) 12 1 1)).2.2.1
        ≤ (getARGB (pixelAt (applySepia undefZero sampleMem 2 2 12) 12 1 1)).2.1 ∧
    (getARGB (pixelAt (applySepia undefZero sampleMem 2 2 12) 12 1 1)).2.2.2
        ≤ (getARGB (pixelAt (applySepia undefZero sampleMem 2 2 12) 12 1 1)).2.2.1) :=
  ⟨by decide, applySepia_ordered undefZero sampleMem 2 2 12 (by decide) 1 1 (by decide)
    (by decide) (by decide) (by decide)⟩

/-! ## Grayscale bounds -/

/-- Claim C15, counterexample: the opaque pixel with red, green and blue all 4
becomes the pixel with all three 3, below the least input channel. -/
theorem applyGrayscale_below_min :
    getARGB (pixelAt dimPixelMem 4 0 0) = (255, 4, 4, 4) ∧
    getARGB (pixelAt (applyGrayscale undefZero dimPixelMem 1 1 4) 4 0 0) = (255, 3, 3, 3) ∧
    (getARGB (pixelAt (applyGrayscale undefZero dimPixelMem 1 1 4) 4 0 0)).2.1
      < min (getARGB (pixelAt dimPixelMem 4 0 0)).2.1
          (min (getARGB (pixelAt dimPixelMem 4 0 0)).2.2.1
            (getARGB (pixelAt dimPixelMem 4 0 0)).2.2.2) := by
  decide!

/-- Claim C15, amended: `applyGrayscale` replaces every pixel `(a, r, g, b)` of
the grid by `(a, gray, gray, gray)`, where `gray` is the truncated `double` sum
`0.299r + 0.587g + 0.114b`; the truncated sum lies in `[0, 255]`, so the
conversion to `uint8_t` needs no clamp; it equals the integer quotient
`(299r + 587g + 114b) / 1000` or one less (when the exact sum is a multiple of
1000); `gray ≤ max(r, g, b)` and `min(r, g, b) ≤ gray + 1`, and `gray` is below
`min(r, g, b)` only when `r = g = b`. -/
theorem applyGrayscale_bounds (undef : FloatVal → Int) (m : Mem) (width height stride : Int)
    (hs : 4 * width ≤ stride) (x y : Int) (hx0 : 0 ≤ x) (hx1 : x < width) (hy0 : 0 ≤ y)
    (hy1 : y < height) :
    getARGB (pixelAt (applyGrayscale undef m width height stride) stride x y)
      = ((getARGB (pixelAt m stride x y)).1,
        grayValue undef (getARGB (pixelAt m stride x y)).2.1
          (getARGB (pixelAt m stride x y)).2.2.1 (getARGB (pixelAt m stride x y)).2.2.2,
        grayValue undef (getARGB (pixelAt m stride x y)).2.1
          (getARGB (pixelAt m stride x y)).2.2.1 (getARGB (pixelAt m stride x y)).2.2.2,
        grayValue undef (getARGB (pixelAt m stride x y)).2.1
          (getARGB (pixelAt m stride x y)).2.2.1 (getARGB (pixelAt m stride x y)).2.2.2) ∧
    (∀ r g b : Nat, r ≤ 255 → g ≤ 255 → b ≤ 255 →
      (∃ q : Frac, grayFloat r g b = some q ∧ 0 ≤ truncate q ∧ truncate q ≤ 255 ∧
        ((grayValue undef r g b : Nat) : Int) = truncate q) ∧
      (grayValue undef r g b = (299 * r + 587 * g + 114 * b) / 1000 ∨
        (grayValue undef r g b + 1 = (299 * r + 587 * g + 114 * b) / 1000 ∧
          (299 * r + 587 * g + 114 * b) % 1000 = 0)) ∧
      grayValue undef r g b ≤ max r (max g b) ∧
      min r (min g b) ≤ grayValue undef r g b + 1 ∧
      (grayValue undef r g b < min r (min g b) → r = g ∧ g = b)) := by
  refine ⟨applyGrayscale_pixel undef m width height stride hs x y hx0 hx1 hy0 hy1, ?_⟩
  intro r g b hr hg hb
  have h := grayValue_char undef r g b hr hg hb
  obtain ⟨h1, h2, h3⟩ := gray_bounds_arith _ r g b h
  exact ⟨grayValue_in_range undef r g b hr hg hb, h, h1, h2, h3⟩

theorem applyGrayscale_bounds_witness :
    ((4 : Int) * 2 ≤ 12 ∧ (0 : Int) ≤ 1 ∧ (1 : Int) < 2 ∧ (0 : Int) ≤ 1 ∧ (1 : Int) < 2) ∧
    getARGB (pixelAt (applyGrayscale undefZero sampleMem 2 2 12) 12 1 1)
      = ((getARGB (pixelAt sampleMem 12 1 1)).1,
        grayValue undefZero (getARGB (pixelAt sampleMem 12 1 1)).2.1
          (getARGB (pixelAt sampleMem 12 1 1)).2.2.1 (getARGB (pixelAt sampleMem 12 1 1)).2.2.2,
        grayValue undefZero (getARGB (pixelAt sampleMem 12 1 1)).2.1
          (getARGB (pixelAt sampleMem 12 1 1)).2.2.1 (getARGB (pixelAt sampleMem 12 1 1)).2.2.2,
        grayValue undefZero (getARGB (pixelAt sampleMem 12 1 1)).2.1
          (getARGB (pixelAt sampleMem 12 1 1)).2.2.1
          (getARGB (pixelAt sampleMem 12 1 1)).2.2.2) :=
  ⟨by decide, (applyGrayscale_bounds undefZero sampleMem 2 2 12 (by decide) 1 1 (by decide)
    (by decide) (by decide) (by decide)).1⟩

end ImageProcessor
